import Mathlib

/-!
Darling `MachOMgr`: the loaded-module registry and symbol resolver.

A shallow embedding of `src/libdyld/MachOMgr.cpp`.

* Pointers are natural numbers, `0` being `nullptr`.
* A `MachOObject*` / `NativeObject*` is modelled by a record that carries the
  identity of the pointee (`id`) together with the values its accessors return;
  pointer equality of the C++ code is equality of these records.
* `std::map` members are association lists (`m_objects`, whose order the code
  observes through `upper_bound` and `end()`, is kept sorted by key).
* A failed `assert` aborts the process: operations containing one return an
  `Outcome`.
-/

namespace Darling

/-! ## Data model -/

/-- Modelled from the spec: class `MachOObject` (MachOObject.h is not among the sources).
A Foreign Module: `id` is the identity of the object, the other fields are the values
returned by `baseAddress()`, `maxAddress()`, `path()`, `getMachHeader()` and `slide()`. -/
structure MachOObject where
  id : Nat
  baseAddress : Nat
  maxAddress : Nat
  path : String
  getMachHeader : Nat
  slide : Int
deriving DecidableEq, Repr

/-- Modelled from the spec: class `NativeObject` (NativeObject.h is not among the sources).
A Native Wrapper: `id` is the identity of the object, the other fields are the values
returned by `path()` and `nativeRef()`. -/
structure NativeObject where
  id : Nat
  path : String
  nativeRef : Nat
deriving DecidableEq, Repr

/-- A `LoadableObject*`: the constructor is what `dynamic_cast` inspects. -/
inductive LoadableObject where
  | macho (obj : MachOObject)
  | native (obj : NativeObject)
deriving DecidableEq, Repr

/-- The virtual `path()` of a loadable object. -/
def LoadableObject.path : LoadableObject → String
  | .macho o => o.path
  | .native o => o.path

/-- Modelled from the spec: the virtual methods `globalExports()` and
`getExportedSymbol(name, nonWeakOnly)` of `LoadableObject`, whose implementations are not
among the sources. The returned pointer is `0` when the object has no such export. -/
structure Exports where
  globalExports : LoadableObject → Bool
  getExportedSymbol : LoadableObject → String → Bool → Nat

/-- Result of an operation that contains an `assert`: `fault` is the abort of a failed one. -/
inductive Outcome (α : Type) where
  | ret (a : α)
  | fault
deriving DecidableEq, Repr

/-! ## `std::map` -/

/-- `std::map::find` (the mapped value, `none` for `end()`). -/
def mapFind {K V : Type} [DecidableEq K] (k : K) : List (K × V) → Option V
  | [] => none
  | e :: t => if e.1 = k then some e.2 else mapFind k t

/-- `m[k] = v` on a map whose iteration order is never observed by the code. -/
def mapAssign {K V : Type} [DecidableEq K] (k : K) (v : V) : List (K × V) → List (K × V)
  | [] => [(k, v)]
  | e :: t => if e.1 = k then (k, v) :: t else e :: mapAssign k v t

/-- `std::map::erase(key)`. -/
def mapErase {K V : Type} [DecidableEq K] (k : K) (m : List (K × V)) : List (K × V) :=
  m.filter (fun e => decide (e.1 ≠ k))

/-- `m[k] = v` on the ordered map `m_objects` (kept sorted by key). -/
def sortedAssign {V : Type} (k : Nat) (v : V) : List (Nat × V) → List (Nat × V)
  | [] => [(k, v)]
  | e :: t =>
    if k < e.1 then (k, v) :: e :: t
    else if e.1 = k then (k, v) :: t
    else e :: sortedAssign k v t

/-- `std::map::upper_bound(addr)` as a position: the first entry whose key is greater
than `addr`, the length of the map standing for `end()`. -/
def upperBound {V : Type} (addr : Nat) (m : List (Nat × V)) : Nat :=
  m.findIdx (fun e => decide (addr < e.1))

/-! ## The registry -/

/-- Modelled from the spec: the data members of class `MachOMgr` (MachOMgr.h is not
among the sources); names and uses are those of MachOMgr.cpp. Hook functions are
identified by their address; `m_bTerminated` is the static flag. -/
structure MachOMgr where
  m_objects : List (Nat × MachOObject)
  m_objectNames : List (String × LoadableObject)
  m_objectHeaders : List (Nat × MachOObject)
  m_nativeRefToObject : List (Nat × NativeObject)
  m_objectsInOrder : List MachOObject
  m_loadablesInOrder : List LoadableObject
  m_mainModule : Option MachOObject
  m_loadHooks : List Nat
  m_unloadHooks : List Nat
  m_sysroot : String
  m_destroying : Bool
  m_bTerminated : Bool
deriving DecidableEq, Repr

namespace MachOMgr

/-- The constructor `MachOMgr::MachOMgr()`: every container empty, no main module. -/
def empty : MachOMgr where
  m_objects := []
  m_objectNames := []
  m_objectHeaders := []
  m_nativeRefToObject := []
  m_objectsInOrder := []
  m_loadablesInOrder := []
  m_mainModule := none
  m_loadHooks := []
  m_unloadHooks := []
  m_sysroot := ""
  m_destroying := false
  m_bTerminated := false

/-- `MachOMgr::maxAddress()`; `ret 0` is the `nullptr` result, `fault` the failed
page-alignment `assert`. `pagesize` is the value of `getpagesize()`. -/
def maxAddress (pagesize : Nat) (s : MachOMgr) : Outcome Nat :=
  if s.m_objects.isEmpty then .ret 0
  else
    match s.m_objects.getLast? with
    | none => .ret 0
    | some it =>
      let addr := it.2.maxAddress
      if addr % pagesize = 0 then .ret addr else .fault

/-- `MachOMgr::objectForAddress(addr)`; `none` is the `nullptr` result. -/
def objectForAddress (s : MachOMgr) (addr : Nat) : Option MachOObject :=
  let it := upperBound addr s.m_objects
  if it = 0 then none
  else
    match s.m_objects.get? (it - 1) with
    | none => none
    | some e => if e.2.maxAddress < addr then none else some e.2

/-- `MachOMgr::add(MachOObject*, bool)`. `addDefaultLoader()` has an empty body. The
`assert` comes after the insertions, but a failed one aborts the process, so no state is
returned. -/
def add (s : MachOMgr) (obj : MachOObject) (mainModule : Bool) : Outcome MachOMgr :=
  let s1 : MachOMgr :=
    { s with
      m_objects := sortedAssign obj.baseAddress obj s.m_objects
      m_objectNames := mapAssign obj.path (LoadableObject.macho obj) s.m_objectNames
      m_objectHeaders := mapAssign obj.getMachHeader obj s.m_objectHeaders
      m_objectsInOrder := s.m_objectsInOrder ++ [obj]
      m_loadablesInOrder := s.m_loadablesInOrder ++ [LoadableObject.macho obj] }
  if mainModule then
    if s1.m_mainModule = none then .ret { s1 with m_mainModule := some obj }
    else .fault
  else .ret s1

/-- `MachOMgr::remove(MachOObject*)`: the state after the call (the unload hooks are
called first and do not touch the registry). `std::find` followed by `erase(it)` when
found drops the first occurrence, which is `List.erase`. -/
def remove (s : MachOMgr) (obj : MachOObject) : MachOMgr :=
  { s with
    m_objects := mapErase obj.baseAddress s.m_objects
    m_objectNames := mapErase obj.path s.m_objectNames
    m_objectHeaders := mapErase obj.getMachHeader s.m_objectHeaders
    m_objectsInOrder := s.m_objectsInOrder.erase obj
    m_loadablesInOrder := s.m_loadablesInOrder.erase (LoadableObject.macho obj)
    m_mainModule := if s.m_mainModule = some obj then none else s.m_mainModule }

/-- `MachOMgr::add(NativeObject*)`. -/
def addNative (s : MachOMgr) (obj : NativeObject) : MachOMgr :=
  { s with
    m_objectNames := mapAssign obj.path (LoadableObject.native obj) s.m_objectNames
    m_loadablesInOrder := s.m_loadablesInOrder ++ [LoadableObject.native obj]
    m_nativeRefToObject := mapAssign obj.nativeRef obj s.m_nativeRefToObject }

/-- `MachOMgr::remove(NativeObject*)`. -/
def removeNative (s : MachOMgr) (obj : NativeObject) : MachOMgr :=
  { s with
    m_loadablesInOrder := s.m_loadablesInOrder.erase (LoadableObject.native obj)
    m_objectNames := mapErase obj.path s.m_objectNames
    m_nativeRefToObject := mapErase obj.nativeRef s.m_nativeRefToObject }

/-- `MachOMgr::objectByIndex(index)`. -/
def objectByIndex (s : MachOMgr) (index : Nat) : Option MachOObject :=
  if index ≥ s.m_objectsInOrder.length then none
  else s.m_objectsInOrder.get? index

/-- `MachOMgr::objectByHeader(hdr)`. -/
def objectByHeader (s : MachOMgr) (hdr : Nat) : Option MachOObject :=
  mapFind hdr s.m_objectHeaders

/-- `MachOMgr::objectByNativeRef(nativeRef)`. -/
def objectByNativeRef (s : MachOMgr) (nativeRef : Nat) : Option NativeObject :=
  mapFind nativeRef s.m_nativeRefToObject

/-- The `for` loop of `MachOMgr::getExportedSymbol`, from the iterator position given by
the list, with the current values of the locals `weak` and `isAfter`. -/
def getExportedSymbolLoop (E : Exports) (symbolName : String)
    (nextAfter : Option LoadableObject) : List LoadableObject → Nat → Bool → Nat
  | [], weak, _ => weak
  | it :: rest, weak, isAfter =>
    if nextAfter.isSome && !isAfter then
      getExportedSymbolLoop E symbolName nextAfter rest weak
        (if some it = nextAfter then true else isAfter)
    else if !E.globalExports it then
      getExportedSymbolLoop E symbolName nextAfter rest weak isAfter
    else
      let p := E.getExportedSymbol it symbolName true
      if p ≠ 0 then p
      else
        getExportedSymbolLoop E symbolName nextAfter rest
          (if weak = 0 then E.getExportedSymbol it symbolName false else weak) isAfter

/-- `MachOMgr::getExportedSymbol(symbolName, nextAfter)`; `0` is the `nullptr` result. -/
def getExportedSymbol (E : Exports) (s : MachOMgr) (symbolName : String)
    (nextAfter : Option LoadableObject) : Nat :=
  getExportedSymbolLoop E symbolName nextAfter s.m_loadablesInOrder 0 false

/-- `MachOMgr::lookup(absolutePath)`. `realpath` gives the contents of the buffer `path`
after the call of the C library function (the canonical form of its argument). -/
def lookup (realpath : String → String) (s : MachOMgr) (absolutePath : String) :
    Option LoadableObject :=
  mapFind (realpath absolutePath) s.m_objectNames

end MachOMgr

/-! ## Reference definitions that follow the specification's words -/

/-- The two-pass export search of the specification over a load-order sequence: `E` is
the sequence restricted to modules whose global-exports flag is true; the answer is the
non-weak answer of the first module of `E` that has one, otherwise the weak answer of the
first module of `E` that has one, otherwise not-found (`0`). -/
def twoPassExportedSymbol (X : Exports) (symbolName : String)
    (loadOrder : List LoadableObject) : Nat :=
  let E := loadOrder.filter X.globalExports
  match E.find? (fun m => decide (X.getExportedSymbol m symbolName true ≠ 0)) with
  | some m => X.getExportedSymbol m symbolName true
  | none =>
    match E.find? (fun m => decide (X.getExportedSymbol m symbolName false ≠ 0)) with
    | some m => X.getExportedSymbol m symbolName false
    | none => 0

/-! ## Call sequences -/

/-- A call of one of the four registration operations. -/
inductive Op where
  | add (obj : MachOObject) (mainModule : Bool)
  | remove (obj : MachOObject)
  | addNative (obj : NativeObject)
  | removeNative (obj : NativeObject)
deriving DecidableEq, Repr

/-- The effect of one call. -/
def step (s : MachOMgr) : Op → Outcome MachOMgr
  | .add obj mainModule => s.add obj mainModule
  | .remove obj => .ret (s.remove obj)
  | .addNative obj => .ret (s.addNative obj)
  | .removeNative obj => .ret (s.removeNative obj)

/-- The effect of a sequence of calls; a fault ends the run. -/
def run : MachOMgr → List Op → Outcome MachOMgr
  | s, [] => .ret s
  | s, op :: ops =>
    match step s op with
    | .ret s' => run s' ops
    | .fault => .fault

/-- Every call of the sequence satisfies the condition `G` in the state in which it is
made. -/
def admissible (G : MachOMgr → Op → Bool) : MachOMgr → List Op → Bool
  | _, [] => true
  | s, op :: ops =>
    G s op &&
      match step s op with
      | .ret s' => admissible G s' ops
      | .fault => true

/-- No condition on the calls. -/
def anyCall : MachOMgr → Op → Bool := fun _ _ => true

/-- Only calls on Foreign Modules. -/
def foreignOnly : MachOMgr → Op → Bool
  | _, .add _ _ => true
  | _, .remove _ => true
  | _, _ => false

/-- A removed Foreign Module is registered: it is in the object-order sequence. -/
def removesRegistered (s : MachOMgr) : Op → Bool
  | .remove obj => decide (obj ∈ s.m_objectsInOrder)
  | _ => true

/-- A Foreign Module is added only when its base address is that of no registered
Foreign Module; a removed Foreign Module is registered. -/
def freshBase (s : MachOMgr) (op : Op) : Bool :=
  removesRegistered s op &&
    match op with
    | .add obj _ => s.m_objectsInOrder.all (fun x => decide (x.baseAddress ≠ obj.baseAddress))
    | _ => true

/-- The images `[base, max)` of two Foreign Modules do not overlap. -/
def apart (a b : MachOObject) : Prop :=
  a.maxAddress ≤ b.baseAddress ∨ b.maxAddress ≤ a.baseAddress

instance (a b : MachOObject) : Decidable (apart a b) :=
  inferInstanceAs (Decidable (a.maxAddress ≤ b.baseAddress ∨ b.maxAddress ≤ a.baseAddress))

/-- A Foreign Module is added only when its image is not empty (`base < max`) and
overlaps the image of no registered Foreign Module; a removed Foreign Module is
registered. -/
def freshImage (s : MachOMgr) (op : Op) : Bool :=
  removesRegistered s op &&
    match op with
    | .add obj _ =>
      decide (obj.baseAddress < obj.maxAddress) &&
        s.m_objectsInOrder.all (fun x => decide (apart x obj))
    | _ => true

/-- As `freshBase`, and the maximum address of an added Foreign Module is a non-null
multiple of the page size. -/
def freshAlignedBase (pagesize : Nat) (s : MachOMgr) (op : Op) : Bool :=
  freshBase s op &&
    match op with
    | .add obj _ => decide (obj.maxAddress ≠ 0) && decide (obj.maxAddress % pagesize = 0)
    | _ => true

/-- An object is added only when its path is that of no registered object, and a removed
object is in the load-order sequence. -/
def freshPath (s : MachOMgr) : Op → Bool
  | .add obj _ => s.m_loadablesInOrder.all (fun y => decide (y.path ≠ obj.path))
  | .addNative obj => s.m_loadablesInOrder.all (fun y => decide (y.path ≠ obj.path))
  | .remove obj => decide (LoadableObject.macho obj ∈ s.m_loadablesInOrder)
  | .removeNative obj => decide (LoadableObject.native obj ∈ s.m_loadablesInOrder)

/-- The native handle of a loadable object, if it is a Native Wrapper. -/
def LoadableObject.nativeRef? : LoadableObject → Option Nat
  | .macho _ => none
  | .native o => some o.nativeRef

/-- A Foreign Module is added only when its header is that of no registered Foreign
Module, a Native Wrapper only when its native handle is that of no registered Native
Wrapper; a removed Foreign Module is in the object-order sequence, a removed Native
Wrapper in the load-order sequence. -/
def freshHandle (s : MachOMgr) : Op → Bool
  | .add obj _ =>
    s.m_objectsInOrder.all (fun x => decide (x.getMachHeader ≠ obj.getMachHeader))
  | .addNative obj =>
    s.m_loadablesInOrder.all (fun y => decide (y.nativeRef? ≠ some obj.nativeRef))
  | .remove obj => decide (obj ∈ s.m_objectsInOrder)
  | .removeNative obj => decide (LoadableObject.native obj ∈ s.m_loadablesInOrder)

/-- An index agrees with a sequence of registered objects: what it maps a key to is a
registered object with that key, every registered object is found under its key, and the
sequence lists no object twice. `inj` embeds the values of the index in the elements of
the sequence. -/
structure IndexInv {K V E : Type} [DecidableEq E] (find : K → Option V) (key : V → K)
    (inj : V → E) (L : List E) : Prop where
  sound : ∀ k v, find k = some v → key v = k ∧ inj v ∈ L
  complete : ∀ v, inj v ∈ L → find (key v) = some v
  once : ∀ v, L.count (inj v) ≤ 1

/-- What an index maps a key to is an object of the sequence that has this key. -/
def IndexSound {K V E : Type} (find : K → Option V) (key : V → K) (inj : V → E)
    (L : List E) : Prop :=
  ∀ k v, find k = some v → key v = k ∧ inj v ∈ L

/-- The keys of an ordered map are strictly increasing. -/
def sortedKeys {V : Type} (m : List (Nat × V)) : Prop :=
  m.Pairwise (fun a b => a.1 < b.1)

/-- The base-address index agrees with the object-order sequence. -/
def baseIndexed (s : MachOMgr) : Prop :=
  IndexInv (fun k => mapFind k s.m_objects) MachOObject.baseAddress id s.m_objectsInOrder

/-- The header index agrees with the object-order sequence. -/
def headerIndexed (s : MachOMgr) : Prop :=
  IndexInv (fun k => mapFind k s.m_objectHeaders) MachOObject.getMachHeader id
    s.m_objectsInOrder

/-- The native-handle index agrees with the Native Wrappers of the load-order sequence. -/
def nativeIndexed (s : MachOMgr) : Prop :=
  IndexInv (fun k => mapFind k s.m_nativeRefToObject) NativeObject.nativeRef
    LoadableObject.native s.m_loadablesInOrder

/-- The path index agrees with the load-order sequence. -/
def pathIndexed (s : MachOMgr) : Prop :=
  IndexInv (fun k => mapFind k s.m_objectNames) LoadableObject.path id s.m_loadablesInOrder

/-- Every index only holds registered objects, each under its own key, and the
base-address index is ordered. -/
def indexesSound (s : MachOMgr) : Prop :=
  sortedKeys s.m_objects ∧
  IndexSound (fun k => mapFind k s.m_objects) MachOObject.baseAddress id s.m_objectsInOrder ∧
  IndexSound (fun k => mapFind k s.m_objectHeaders) MachOObject.getMachHeader id
    s.m_objectsInOrder ∧
  IndexSound (fun k => mapFind k s.m_nativeRefToObject) NativeObject.nativeRef
    LoadableObject.native s.m_loadablesInOrder ∧
  IndexSound (fun k => mapFind k s.m_objectNames) LoadableObject.path id s.m_loadablesInOrder

/-- Registered images are not empty and do not overlap one another. -/
def imagesApart (s : MachOMgr) : Prop :=
  (∀ x ∈ s.m_objectsInOrder, x.baseAddress < x.maxAddress) ∧
    ∀ x ∈ s.m_objectsInOrder, ∀ y ∈ s.m_objectsInOrder, x ≠ y → apart x y

/-! ## Concrete modules and registries used to evaluate the code -/

/-- A Foreign Module mapped at `[0x1000, 0x2000)`. -/
def exLibA : MachOObject :=
  { id := 1, baseAddress := 0x1000, maxAddress := 0x2000, path := "/usr/lib/libA.dylib",
    getMachHeader := 0x1000, slide := 0 }

/-- A Foreign Module mapped right behind `exLibA`, at `[0x2000, 0x3000)`. -/
def exLibB : MachOObject :=
  { id := 2, baseAddress := 0x2000, maxAddress := 0x3000, path := "/usr/lib/libB.dylib",
    getMachHeader := 0x2000, slide := 0 }

/-- A Foreign Module whose range `[0x1000, 0x9000]` encloses that of `exLibB`. -/
def exOuter : MachOObject :=
  { id := 3, baseAddress := 0x1000, maxAddress := 0x9000, path := "/usr/lib/libOuter.dylib",
    getMachHeader := 0x1000, slide := 0 }

/-- The registry after `add(exLibA)` and `add(exLibB)`. -/
def exAB : MachOMgr :=
  { MachOMgr.empty with
    m_objects := [(0x1000, exLibA), (0x2000, exLibB)]
    m_objectNames := [("/usr/lib/libA.dylib", LoadableObject.macho exLibA),
      ("/usr/lib/libB.dylib", LoadableObject.macho exLibB)]
    m_objectHeaders := [(0x1000, exLibA), (0x2000, exLibB)]
    m_objectsInOrder := [exLibA, exLibB]
    m_loadablesInOrder := [LoadableObject.macho exLibA, LoadableObject.macho exLibB] }

/-- The registry after `add(exOuter)` and `add(exLibB)`. -/
def exNested : MachOMgr :=
  { MachOMgr.empty with
    m_objects := [(0x1000, exOuter), (0x2000, exLibB)]
    m_objectNames := [("/usr/lib/libOuter.dylib", LoadableObject.macho exOuter),
      ("/usr/lib/libB.dylib", LoadableObject.macho exLibB)]
    m_objectHeaders := [(0x1000, exOuter), (0x2000, exLibB)]
    m_objectsInOrder := [exOuter, exLibB]
    m_loadablesInOrder := [LoadableObject.macho exOuter, LoadableObject.macho exLibB] }

/-- The registry after `add(exLibA)`, `add(exOuter)`: both have base address and header
`0x1000`. -/
def exCollide : MachOMgr :=
  { MachOMgr.empty with
    m_objects := [(0x1000, exOuter)]
    m_objectNames := [("/usr/lib/libA.dylib", LoadableObject.macho exLibA),
      ("/usr/lib/libOuter.dylib", LoadableObject.macho exOuter)]
    m_objectHeaders := [(0x1000, exOuter)]
    m_objectsInOrder := [exLibA, exOuter]
    m_loadablesInOrder := [LoadableObject.macho exLibA, LoadableObject.macho exOuter] }

/-- The registry after `add(exLibA)`, `add(exOuter)`, `remove(exOuter)`: the keys
`exLibA` shares with `exOuter` are gone from the indexes. -/
def exAfterCollide : MachOMgr :=
  { MachOMgr.empty with
    m_objectNames := [("/usr/lib/libA.dylib", LoadableObject.macho exLibA)]
    m_objectsInOrder := [exLibA]
    m_loadablesInOrder := [LoadableObject.macho exLibA] }

/-- A Native Wrapper with a path of its own. -/
def exLibc : NativeObject :=
  { id := 4, path := "/usr/lib/libc.so.6", nativeRef := 0x7f00 }

/-- A Native Wrapper whose path is that of `exLibA`. -/
def exWrapA : NativeObject :=
  { id := 5, path := "/usr/lib/libA.dylib", nativeRef := 0x7e00 }

/-- The registry after `add(exLibA)` and `add(exLibc)`. -/
def exWithNative : MachOMgr :=
  { MachOMgr.empty with
    m_objects := [(0x1000, exLibA)]
    m_objectNames := [("/usr/lib/libA.dylib", LoadableObject.macho exLibA),
      ("/usr/lib/libc.so.6", LoadableObject.native exLibc)]
    m_objectHeaders := [(0x1000, exLibA)]
    m_nativeRefToObject := [(0x7f00, exLibc)]
    m_objectsInOrder := [exLibA]
    m_loadablesInOrder := [LoadableObject.macho exLibA, LoadableObject.native exLibc] }

/-- The registry after `add(exLibA)` and `add(exWrapA)`, which share a path. -/
def exSharedPath : MachOMgr :=
  { MachOMgr.empty with
    m_objects := [(0x1000, exLibA)]
    m_objectNames := [("/usr/lib/libA.dylib", LoadableObject.native exWrapA)]
    m_objectHeaders := [(0x1000, exLibA)]
    m_nativeRefToObject := [(0x7e00, exWrapA)]
    m_objectsInOrder := [exLibA]
    m_loadablesInOrder := [LoadableObject.macho exLibA, LoadableObject.native exWrapA] }

/-- The registry after `add(exLibA, true)`: `exLibA` is the Main Module. -/
def exMain : MachOMgr :=
  { MachOMgr.empty with
    m_objects := [(0x1000, exLibA)]
    m_objectNames := [("/usr/lib/libA.dylib", LoadableObject.macho exLibA)]
    m_objectHeaders := [(0x1000, exLibA)]
    m_objectsInOrder := [exLibA]
    m_loadablesInOrder := [LoadableObject.macho exLibA]
    m_mainModule := some exLibA }

/-- An export table: Foreign Modules are global, Native Wrappers are not; `exLibA` exports
`f` weakly only (at `0xA0`), `exLibB` exports `f` strongly (at `0xB0`), Native Wrappers
export `f` strongly (at `0xC0`). -/
def exExports : Exports where
  globalExports := fun o =>
    match o with
    | .macho _ => true
    | .native _ => false
  getExportedSymbol := fun o name nonWeakOnly =>
    if name = "f" then
      match o with
      | .macho m =>
        if m.id = 1 then (if nonWeakOnly then 0 else 0xA0)
        else if m.id = 2 then 0xB0 else 0
      | .native _ => 0xC0
    else 0

/-- Registered maximum addresses are non-null multiples of the page size. -/
def maxAligned (pagesize : Nat) (s : MachOMgr) : Prop :=
  ∀ x ∈ s.m_objectsInOrder, x.maxAddress ≠ 0 ∧ x.maxAddress % pagesize = 0

/-! ## Hooks, teardown and sysroot detection -/

/-- `std::set::insert` on a set of function addresses, iterated in increasing order. -/
def setInsert (x : Nat) : List Nat → List Nat
  | [] => [x]
  | y :: t => if x < y then x :: y :: t else if y = x then y :: t else y :: setInsert x t

/-- `std::set::erase(key)`. -/
def setErase (x : Nat) (l : List Nat) : List Nat :=
  l.filter (fun y => decide (y ≠ x))

namespace MachOMgr

/-- `MachOMgr::registerLoadHook(func)`. -/
def registerLoadHook (s : MachOMgr) (func : Nat) : MachOMgr :=
  { s with m_loadHooks := setInsert func s.m_loadHooks }

/-- `MachOMgr::registerUnloadHook(func)`. -/
def registerUnloadHook (s : MachOMgr) (func : Nat) : MachOMgr :=
  { s with m_unloadHooks := setInsert func s.m_unloadHooks }

/-- `MachOMgr::deregisterLoadHook(func)`. -/
def deregisterLoadHook (s : MachOMgr) (func : Nat) : MachOMgr :=
  { s with m_loadHooks := setErase func s.m_loadHooks }

/-- `MachOMgr::deregisterUnloadHook(func)`. -/
def deregisterUnloadHook (s : MachOMgr) (func : Nat) : MachOMgr :=
  { s with m_unloadHooks := setErase func s.m_unloadHooks }

/-- The loop of the destructor `MachOMgr::~MachOMgr()`, run for at most `fuel` iterations:
`none` when the load-order sequence is still not empty after them. The second component
lists the Native Wrappers on which `unload()` was invoked, in order. `unload` is the effect
of `NativeObject::unload()` on the registry; the Native Wrapper branch does not pop the
front element itself. -/
def destructorLoop (unload : MachOMgr → NativeObject → MachOMgr) :
    Nat → MachOMgr → List NativeObject → Option (MachOMgr × List NativeObject)
  | 0, s, unloaded => if s.m_loadablesInOrder.isEmpty then some (s, unloaded) else none
  | fuel + 1, s, unloaded =>
    match s.m_loadablesInOrder with
    | [] => some (s, unloaded)
    | LoadableObject.native obj :: _ =>
      destructorLoop unload fuel (unload s obj) (unloaded ++ [obj])
    | LoadableObject.macho _ :: rest =>
      destructorLoop unload fuel { s with m_loadablesInOrder := rest } unloaded

/-- The destructor `MachOMgr::~MachOMgr()`: `m_destroying` is set, the reference to the
Main Module is released (`delRef()`, which leaves the registry as it is), the loop runs,
and `m_bTerminated` is set at the end. -/
def destructor (unload : MachOMgr → NativeObject → MachOMgr) (fuel : Nat) (s : MachOMgr) :
    Option (MachOMgr × List NativeObject) :=
  match destructorLoop unload fuel { s with m_destroying := true } [] with
  | none => none
  | some (s', unloaded) => some ({ s' with m_bTerminated := true }, unloaded)

end MachOMgr

/-- Modelled from the spec: `NativeObject::unload()` (NativeObject.cpp is not among the
sources), assumed to remove the wrapper from the registry by calling
`MachOMgr::remove(NativeObject*)`. -/
def nativeUnload (s : MachOMgr) (obj : NativeObject) : MachOMgr :=
  s.removeNative obj

/-- `std::string::find(pat)` on strings as sequences of characters: the first position at
which `pat` occurs, `none` for `npos`. -/
def strFind (pat : List Char) : List Char → Option Nat
  | [] => if pat = [] then some 0 else none
  | c :: cs =>
    if pat.isPrefixOf (c :: cs) then some 0
    else
      match strFind pat cs with
      | some pos => some (pos + 1)
      | none => none

/-- `MachOMgr::detectSysRootFromPath(path)`: the returned flag and the registry after the
call. `realpath` is the C library function applied to a relative path, `none` being its
`NULL` result. -/
def MachOMgr.detectSysRootFromPath (realpath : String → Option String) (s : MachOMgr)
    (path : String) : Bool × MachOMgr :=
  if path.data = [] then (false, s)
  else
    match (if path.data.head? ≠ some '/' then realpath path else some path) with
    | none => (false, s)
    | some path =>
      match strFind "/usr/".data path.data with
      | some pos =>
        if pos ≠ 0 then (true, { s with m_sysroot := String.mk (path.data.take pos) })
        else (false, s)
      | none => (false, s)

/-! ## Reference definitions for the two sequences -/

/-- The objects of the `add` calls of a sequence of calls, in call order. -/
def addCalls : List Op → List LoadableObject
  | [] => []
  | .add obj _ :: ops => LoadableObject.macho obj :: addCalls ops
  | .addNative obj :: ops => LoadableObject.native obj :: addCalls ops
  | _ :: ops => addCalls ops

/-- The Foreign Modules of a sequence of loadable objects, in order. -/
def foreignModules : List LoadableObject → List MachOObject
  | [] => []
  | .macho obj :: l => obj :: foreignModules l
  | .native _ :: l => foreignModules l

/-- The Native Wrappers of a sequence of loadable objects, in order. -/
def nativeWrappers : List LoadableObject → List NativeObject
  | [] => []
  | .macho _ :: l => nativeWrappers l
  | .native obj :: l => obj :: nativeWrappers l

/-- The currently registered objects in the order of their `add` calls, following the
specification's words: an `add` call puts its object last, a `remove` call takes its
object out. -/
def registeredInOrder : List LoadableObject → List Op → List LoadableObject
  | acc, [] => acc
  | acc, .add obj _ :: ops => registeredInOrder (acc ++ [LoadableObject.macho obj]) ops
  | acc, .addNative obj :: ops => registeredInOrder (acc ++ [LoadableObject.native obj]) ops
  | acc, .remove obj :: ops =>
    registeredInOrder (acc.filter (fun x => decide (x ≠ LoadableObject.macho obj))) ops
  | acc, .removeNative obj :: ops =>
    registeredInOrder (acc.filter (fun x => decide (x ≠ LoadableObject.native obj))) ops

/-- An object is added only when it is not in the load-order sequence. -/
def addsUnregistered (s : MachOMgr) : Op → Bool
  | .add obj _ => decide (LoadableObject.macho obj ∉ s.m_loadablesInOrder)
  | .addNative obj => decide (LoadableObject.native obj ∉ s.m_loadablesInOrder)
  | _ => true

/-- The call is an `add` of either variant. -/
def isAdd : Op → Bool
  | .add _ _ => true
  | .addNative _ => true
  | _ => false

/-- The registry `t` shows the same Foreign Modules as `s`: the base-address index, the
header index, the object-order sequence, the Main Module designation, both hook sets and
the remaining scalar members are those of `s`, and so are the results of the queries
that read them. -/
def foreignFrame (s t : MachOMgr) : Prop :=
  t.m_objects = s.m_objects ∧ t.m_objectHeaders = s.m_objectHeaders ∧
  t.m_objectsInOrder = s.m_objectsInOrder ∧ t.m_mainModule = s.m_mainModule ∧
  t.m_loadHooks = s.m_loadHooks ∧ t.m_unloadHooks = s.m_unloadHooks ∧
  t.m_sysroot = s.m_sysroot ∧ t.m_destroying = s.m_destroying ∧
  t.m_bTerminated = s.m_bTerminated ∧
  (∀ addr, t.objectForAddress addr = s.objectForAddress addr) ∧
  (∀ pagesize, t.maxAddress pagesize = s.maxAddress pagesize) ∧
  (∀ hdr, t.objectByHeader hdr = s.objectByHeader hdr) ∧
  (∀ index, t.objectByIndex index = s.objectByIndex index)

/-- A Foreign Module mapped at `[0x5000, 0x6000)`, with keys of its own. -/
def exLibD : MachOObject :=
  { id := 6, baseAddress := 0x5000, maxAddress := 0x6000, path := "/usr/lib/libD.dylib",
    getMachHeader := 0x5000, slide := 0 }

/-- The call is `add(m, ...)` of the Foreign Module `m`. -/
def isAddOf (m : MachOObject) : Op → Bool
  | .add obj _ => decide (obj = m)
  | _ => false

/-- A call of a virtual method of a module made by `MachOMgr::getExportedSymbol`. -/
inductive ModuleQuery where
  | globalExports (obj : LoadableObject)
  | getExportedSymbol (obj : LoadableObject) (nonWeakOnly : Bool)
deriving DecidableEq, Repr

/-- The calls of `globalExports()` and `getExportedSymbol(symbolName, ...)` that the `for`
loop of `MachOMgr::getExportedSymbol` makes on modules, in order, from the iterator
position given by the list, with the current values of the locals `weak` and `isAfter`. -/
def getExportedSymbolQueries (E : Exports) (symbolName : String)
    (nextAfter : Option LoadableObject) : List LoadableObject → Nat → Bool → List ModuleQuery
  | [], _, _ => []
  | it :: rest, weak, isAfter =>
    if nextAfter.isSome && !isAfter then
      getExportedSymbolQueries E symbolName nextAfter rest weak
        (if some it = nextAfter then true else isAfter)
    else if !E.globalExports it then
      ModuleQuery.globalExports it ::
        getExportedSymbolQueries E symbolName nextAfter rest weak isAfter
    else
      let p := E.getExportedSymbol it symbolName true
      if p ≠ 0 then [ModuleQuery.globalExports it, ModuleQuery.getExportedSymbol it true]
      else if weak = 0 then
        ModuleQuery.globalExports it :: ModuleQuery.getExportedSymbol it true ::
          ModuleQuery.getExportedSymbol it false ::
          getExportedSymbolQueries E symbolName nextAfter rest
            (E.getExportedSymbol it symbolName false) isAfter
      else
        ModuleQuery.globalExports it :: ModuleQuery.getExportedSymbol it true ::
          getExportedSymbolQueries E symbolName nextAfter rest weak isAfter

/-- The registry after `add(exLibA)`, `add(exLibA)`. -/
def exTwice : MachOMgr :=
  { MachOMgr.empty with
    m_objects := [(0x1000, exLibA)]
    m_objectNames := [("/usr/lib/libA.dylib", LoadableObject.macho exLibA)]
    m_objectHeaders := [(0x1000, exLibA)]
    m_objectsInOrder := [exLibA, exLibA]
    m_loadablesInOrder := [LoadableObject.macho exLibA, LoadableObject.macho exLibA] }

/-- The registered objects and the object of the call have pairwise distinct keys (base
address and header among Foreign Modules, path among all objects), and no object is
added while it is registered: an added object has keys that no registered object has,
and a removed object has keys that no other registered object has. -/
def distinctKeys (s : MachOMgr) : Op → Bool
  | .add obj _ =>
    s.m_objectsInOrder.all (fun x =>
      decide (x.baseAddress ≠ obj.baseAddress) && decide (x.getMachHeader ≠ obj.getMachHeader))
      && s.m_loadablesInOrder.all (fun y => decide (y.path ≠ obj.path))
  | .addNative obj => s.m_loadablesInOrder.all (fun y => decide (y.path ≠ obj.path))
  | .remove obj =>
    s.m_objectsInOrder.all (fun x =>
      decide (x = obj) ||
        (decide (x.baseAddress ≠ obj.baseAddress) &&
          decide (x.getMachHeader ≠ obj.getMachHeader)))
      && s.m_loadablesInOrder.all (fun y =>
        decide (y = LoadableObject.macho obj) || decide (y.path ≠ obj.path))
  | .removeNative obj =>
    s.m_loadablesInOrder.all (fun y =>
      decide (y = LoadableObject.native obj) || decide (y.path ≠ obj.path))

/-- The string `pat` occurs in `s` at position `pos` and at no earlier position. -/
def firstOccurrence (pat s : List Char) (pos : Nat) : Prop :=
  pat <+: s.drop pos ∧ ∀ j < pos, ¬ pat <+: s.drop j

/-- The registered objects have pairwise distinct keys and no object is added while it is
registered: an added object has keys (base address and header among Foreign Modules, path
among all objects) that no registered object has. Nothing is asked of a removed object. -/
def distinctRegistered (s : MachOMgr) : Op → Bool
  | .add obj _ =>
    s.m_objectsInOrder.all (fun x =>
      decide (x.baseAddress ≠ obj.baseAddress) && decide (x.getMachHeader ≠ obj.getMachHeader))
      && s.m_loadablesInOrder.all (fun y => decide (y.path ≠ obj.path))
  | .addNative obj => s.m_loadablesInOrder.all (fun y => decide (y.path ≠ obj.path))
  | _ => true

/-- The registry after `add(exLibA, true)` and `remove(exOuter)`, where `exOuter` was
never added and has the base address and header of `exLibA`. -/
def exMainLost : MachOMgr :=
  { MachOMgr.empty with
    m_objectNames := [("/usr/lib/libA.dylib", LoadableObject.macho exLibA)]
    m_objectsInOrder := [exLibA]
    m_loadablesInOrder := [LoadableObject.macho exLibA]
    m_mainModule := some exLibA }

/-- The module on which a call of `ModuleQuery` is made. -/
def ModuleQuery.obj : ModuleQuery → LoadableObject
  | .globalExports o => o
  | .getExportedSymbol o _ => o

/-- The registry after `add(exLibD)`, `add(exLibA)`, `add(exLibB)`. -/
def exDAB : MachOMgr :=
  { MachOMgr.empty with
    m_objects := [(0x1000, exLibA), (0x2000, exLibB), (0x5000, exLibD)]
    m_objectNames := [("/usr/lib/libD.dylib", LoadableObject.macho exLibD),
      ("/usr/lib/libA.dylib", LoadableObject.macho exLibA),
      ("/usr/lib/libB.dylib", LoadableObject.macho exLibB)]
    m_objectHeaders := [(0x5000, exLibD), (0x1000, exLibA), (0x2000, exLibB)]
    m_objectsInOrder := [exLibD, exLibA, exLibB]
    m_loadablesInOrder := [LoadableObject.macho exLibD, LoadableObject.macho exLibA,
      LoadableObject.macho exLibB] }

/-- The registry after `add(exLibA)`, `add(exLibB)`, `add(exLibA)`: `exLibA` is the first
and the last element of both sequences. -/
def exABA : MachOMgr :=
  { MachOMgr.empty with
    m_objects := [(0x1000, exLibA), (0x2000, exLibB)]
    m_objectNames := [("/usr/lib/libA.dylib", LoadableObject.macho exLibA),
      ("/usr/lib/libB.dylib", LoadableObject.macho exLibB)]
    m_objectHeaders := [(0x1000, exLibA), (0x2000, exLibB)]
    m_objectsInOrder := [exLibA, exLibB, exLibA]
    m_loadablesInOrder := [LoadableObject.macho exLibA, LoadableObject.macho exLibB,
      LoadableObject.macho exLibA] }

/-- The registry after `add(exLibc)`, `add(exLibc)` of the Native Wrapper `exLibc`. -/
def exNativeTwice : MachOMgr :=
  { MachOMgr.empty with
    m_objectNames := [("/usr/lib/libc.so.6", LoadableObject.native exLibc)]
    m_nativeRefToObject := [(0x7f00, exLibc)]
    m_loadablesInOrder := [LoadableObject.native exLibc, LoadableObject.native exLibc] }

/-- The registry after `add(exLibc)` of the Native Wrapper `exLibc` and `add(exLibB)`. -/
def exNativeFirst : MachOMgr :=
  { MachOMgr.empty with
    m_objects := [(0x2000, exLibB)]
    m_objectNames := [("/usr/lib/libc.so.6", LoadableObject.native exLibc),
      ("/usr/lib/libB.dylib", LoadableObject.macho exLibB)]
    m_objectHeaders := [(0x2000, exLibB)]
    m_nativeRefToObject := [(0x7f00, exLibc)]
    m_objectsInOrder := [exLibB]
    m_loadablesInOrder := [LoadableObject.native exLibc, LoadableObject.macho exLibB] }

/-! ## Symbol resolution: lemmas on the loop -/

/-- The answer of the first module of `l` for which the query of kind `nonWeakOnly`
succeeds, `0` when there is none. -/
def firstAnswer (X : Exports) (symbolName : String) (nonWeakOnly : Bool)
    (l : List LoadableObject) : Nat :=
  match l.find? (fun m => decide (X.getExportedSymbol m symbolName nonWeakOnly ≠ 0)) with
  | some m => X.getExportedSymbol m symbolName nonWeakOnly
  | none => 0

theorem firstAnswer_nil (X : Exports) (n : String) (b : Bool) : firstAnswer X n b [] = 0 := rfl

theorem firstAnswer_cons (X : Exports) (n : String) (b : Bool) (m : LoadableObject)
    (l : List LoadableObject) :
    firstAnswer X n b (m :: l) =
      if X.getExportedSymbol m n b ≠ 0 then X.getExportedSymbol m n b
      else firstAnswer X n b l := by
  unfold firstAnswer
  by_cases h : X.getExportedSymbol m n b = 0 <;> simp [List.find?_cons, h]

theorem firstAnswer_eq_zero (X : Exports) (n : String) (b : Bool) (l : List LoadableObject)
    (h : l.find? (fun m => decide (X.getExportedSymbol m n b ≠ 0)) = none) :
    firstAnswer X n b l = 0 := by
  unfold firstAnswer
  rw [h]

theorem firstAnswer_ne_zero (X : Exports) (n : String) (b : Bool) (l : List LoadableObject)
    (m : LoadableObject)
    (h : l.find? (fun m => decide (X.getExportedSymbol m n b ≠ 0)) = some m) :
    firstAnswer X n b l = X.getExportedSymbol m n b ∧ X.getExportedSymbol m n b ≠ 0 := by
  have hm := List.find?_some h
  simp only [ne_eq, decide_eq_true_eq] at hm
  unfold firstAnswer
  rw [h]
  exact ⟨rfl, hm⟩

theorem twoPass_eq (X : Exports) (n : String) (l : List LoadableObject) :
    twoPassExportedSymbol X n l =
      if firstAnswer X n true (l.filter X.globalExports) ≠ 0
      then firstAnswer X n true (l.filter X.globalExports)
      else firstAnswer X n false (l.filter X.globalExports) := by
  cases h : (l.filter X.globalExports).find?
      (fun m => decide (X.getExportedSymbol m n true ≠ 0)) with
  | none =>
    have h0 := firstAnswer_eq_zero X n true _ h
    rw [h0]
    unfold twoPassExportedSymbol
    simp only [h]
    rfl
  | some m =>
    obtain ⟨h1, h2⟩ := firstAnswer_ne_zero X n true _ m h
    rw [h1, if_pos h2]
    unfold twoPassExportedSymbol
    simp only [h]

/-- The loop without `nextAfter`, for any value of the locals. -/
theorem loop_none (X : Exports) (n : String) :
    ∀ (l : List LoadableObject) (w : Nat) (b : Bool),
      MachOMgr.getExportedSymbolLoop X n none l w b =
        if firstAnswer X n true (l.filter X.globalExports) ≠ 0
        then firstAnswer X n true (l.filter X.globalExports)
        else if w = 0 then firstAnswer X n false (l.filter X.globalExports) else w := by
  intro l
  induction l with
  | nil =>
    intro w b
    by_cases hw : w = 0 <;> simp [MachOMgr.getExportedSymbolLoop, firstAnswer_nil, hw]
  | cons m t ih =>
    intro w b
    unfold MachOMgr.getExportedSymbolLoop
    by_cases hg : X.globalExports m = true
    · by_cases hs : X.getExportedSymbol m n true = 0
      · by_cases hw : w = 0
        · by_cases hk : X.getExportedSymbol m n false = 0
          · simp [hg, hs, hw, hk, ih, List.filter_cons, firstAnswer_cons]
          · simp [hg, hs, hw, hk, ih, List.filter_cons, firstAnswer_cons]
        · simp [hg, hs, hw, ih, List.filter_cons, firstAnswer_cons]
      · simp [hg, hs, List.filter_cons, firstAnswer_cons]
    · simp [hg, ih, List.filter_cons]

/-- Once `isAfter` is set, `nextAfter` plays no role any more. -/
theorem loop_isAfter (X : Exports) (n : String) (a : Option LoadableObject) :
    ∀ (l : List LoadableObject) (w : Nat),
      MachOMgr.getExportedSymbolLoop X n a l w true =
        MachOMgr.getExportedSymbolLoop X n none l w true := by
  intro l
  induction l with
  | nil => intro w; simp [MachOMgr.getExportedSymbolLoop]
  | cons m t ih =>
    intro w
    rw [MachOMgr.getExportedSymbolLoop, MachOMgr.getExportedSymbolLoop]
    simp [ih]

/-- Before `nextAfter` is met, modules are skipped without being queried. -/
theorem loop_skip (X : Exports) (n : String) (A : LoadableObject) :
    ∀ (pre post : List LoadableObject) (w : Nat), A ∉ pre →
      MachOMgr.getExportedSymbolLoop X n (some A) (pre ++ A :: post) w false =
        MachOMgr.getExportedSymbolLoop X n none post w true := by
  intro pre
  induction pre with
  | nil =>
    intro post w _
    simp only [List.nil_append]
    rw [MachOMgr.getExportedSymbolLoop]
    simp [loop_isAfter]
  | cons m t ih =>
    intro post w hA
    have hm : ¬ m = A := fun h => hA (by simp [h])
    have ht : A ∉ t := fun h => hA (by simp [h])
    simp only [List.cons_append]
    rw [MachOMgr.getExportedSymbolLoop]
    simp [hm, ih post w ht]

/-- When `nextAfter` is not in the sequence, the loop runs to the end without a query. -/
theorem loop_absent (X : Exports) (n : String) (A : LoadableObject) :
    ∀ (l : List LoadableObject) (w : Nat), A ∉ l →
      MachOMgr.getExportedSymbolLoop X n (some A) l w false = w := by
  intro l
  induction l with
  | nil => intro w _; simp [MachOMgr.getExportedSymbolLoop]
  | cons m t ih =>
    intro w hA
    have hm : ¬ m = A := fun h => hA (by simp [h])
    have ht : A ∉ t := fun h => hA (by simp [h])
    rw [MachOMgr.getExportedSymbolLoop]
    simp [hm, ih w ht]

/-- The loop only depends on the flags of the modules of the list and on what the
global ones answer. -/
theorem loop_congr (X Y : Exports) (n : String) (a : Option LoadableObject) :
    ∀ (l : List LoadableObject) (w : Nat) (b : Bool),
      (∀ m ∈ l, Y.globalExports m = X.globalExports m ∧
        (X.globalExports m = true →
          ∀ k, Y.getExportedSymbol m n k = X.getExportedSymbol m n k)) →
      MachOMgr.getExportedSymbolLoop Y n a l w b =
        MachOMgr.getExportedSymbolLoop X n a l w b := by
  intro l
  induction l with
  | nil => intro w b _; simp [MachOMgr.getExportedSymbolLoop]
  | cons m t ih =>
    intro w b h
    have hm := h m (by simp)
    have ht : ∀ x ∈ t, Y.globalExports x = X.globalExports x ∧
        (X.globalExports x = true →
          ∀ k, Y.getExportedSymbol x n k = X.getExportedSymbol x n k) :=
      fun x hx => h x (by simp [hx])
    rw [MachOMgr.getExportedSymbolLoop, MachOMgr.getExportedSymbolLoop]
    by_cases hg : X.globalExports m = true
    · simp only [hm.1, hm.2 hg, ih _ _ ht]
    · simp only [hm.1, hg, ih _ _ ht]
      simp

/-- The first occurrence of a member splits the list. -/
theorem split_at_first {α : Type} [DecidableEq α] (A : α) :
    ∀ l : List α, A ∈ l → ∃ pre post, l = pre ++ A :: post ∧ A ∉ pre := by
  intro l
  induction l with
  | nil => intro h; simp at h
  | cons m t ih =>
    intro h
    by_cases hm : m = A
    · exact ⟨[], t, by simp [hm], by simp⟩
    · have ht : A ∈ t := by
        rcases List.mem_cons.mp h with h1 | h1
        · exact absurd h1.symm hm
        · exact h1
      obtain ⟨pre, post, hp, hA⟩ := ih ht
      refine ⟨m :: pre, post, by simp [hp], ?_⟩
      intro hin
      rcases List.mem_cons.mp hin with h1 | h1
      · exact hm h1.symm
      · exact hA h1

/-! ## Maps -/

theorem mapFind_mapAssign {K V : Type} [DecidableEq K] (k k' : K) (v : V) :
    ∀ m : List (K × V),
      mapFind k' (mapAssign k v m) = if k' = k then some v else mapFind k' m := by
  intro m
  induction m with
  | nil =>
    by_cases h : k' = k
    · simp [mapAssign, mapFind, h]
    · have h2 : ¬ k = k' := fun e => h e.symm
      simp [mapAssign, mapFind, h, h2]
  | cons e t ih =>
    by_cases he : e.1 = k
    · by_cases h : k' = k
      · simp [mapAssign, mapFind, he, h]
      · have h2 : ¬ k = k' := fun e => h e.symm
        simp [mapAssign, mapFind, he, h, h2]
    · by_cases h : k' = k
      · have h3 : ¬ e.1 = k' := by rw [h]; exact he
        simp only [mapAssign, if_neg he, mapFind, if_neg h3, ih, if_pos h]
      · by_cases h4 : e.1 = k'
        · simp [mapAssign, mapFind, he, h, h4]
        · simp only [mapAssign, if_neg he, mapFind, if_neg h4, ih, if_neg h]

theorem mapFind_mapErase {K V : Type} [DecidableEq K] (k k' : K) :
    ∀ m : List (K × V),
      mapFind k' (mapErase k m) = if k' = k then none else mapFind k' m := by
  intro m
  induction m with
  | nil => simp [mapErase, mapFind]
  | cons e t ih =>
    unfold mapErase at ih ⊢
    by_cases he : e.1 = k
    · by_cases h : k' = k
      · simp only [List.filter_cons, ne_eq, he, not_true_eq_false, decide_False,
          Bool.false_eq_true, if_false, ih, if_pos h]
      · have h3 : ¬ e.1 = k' := by rw [he]; exact fun e => h e.symm
        simp only [List.filter_cons, ne_eq, he, not_true_eq_false, decide_False,
          Bool.false_eq_true, if_false, ih, if_neg h, mapFind, if_neg h3]
        rw [he] at h3
        simp [h3]
    · by_cases h4 : e.1 = k'
      · have h : ¬ k' = k := by rw [← h4]; exact he
        simp [List.filter_cons, he, mapFind, h4, h]
      · simp only [List.filter_cons, ne_eq, he, not_false_eq_true, decide_True, if_true,
          mapFind, if_neg h4, ih]

theorem mapFind_sortedAssign {V : Type} (k k' : Nat) (v : V) :
    ∀ m : List (Nat × V),
      mapFind k' (sortedAssign k v m) = if k' = k then some v else mapFind k' m := by
  intro m
  induction m with
  | nil =>
    by_cases h : k' = k
    · simp [sortedAssign, mapFind, h]
    · have h2 : ¬ k = k' := fun e => h e.symm
      simp [sortedAssign, mapFind, h, h2]
  | cons e t ih =>
    by_cases hlt : k < e.1
    · by_cases h : k' = k
      · simp [sortedAssign, mapFind, hlt, h]
      · have h2 : ¬ k = k' := fun e => h e.symm
        simp [sortedAssign, mapFind, hlt, h, h2]
    · by_cases he : e.1 = k
      · by_cases h : k' = k
        · simp [sortedAssign, mapFind, he, h]
        · have h2 : ¬ k = k' := fun e => h e.symm
          simp [sortedAssign, mapFind, he, h, h2]
      · by_cases h : k' = k
        · have h3 : ¬ e.1 = k' := by rw [h]; exact he
          simp only [sortedAssign, if_neg hlt, if_neg he, mapFind, if_neg h3, ih, if_pos h]
        · by_cases h4 : e.1 = k'
          · simp only [sortedAssign, if_neg hlt, if_neg he, mapFind, if_pos h4, if_neg h]
          · simp only [sortedAssign, if_neg hlt, if_neg he, mapFind, if_neg h4, ih, if_neg h]

/-! ## An index and the sequence of registered objects -/

theorem IndexInv.empty {K V E : Type} [DecidableEq E] (key : V → K) (inj : V → E) :
    IndexInv (fun _ : K => (none : Option V)) key inj [] where
  sound := by intro k v h; simp at h
  complete := by intro v h; simp at h
  once := by intro v; simp

/-- Registering `x` under a key that no registered object has. -/
theorem IndexInv.insert {K V E : Type} [DecidableEq K] [DecidableEq E]
    {find find' : K → Option V} {key : V → K} {inj : V → E} {L : List E}
    (h : IndexInv find key inj L) (hinj : Function.Injective inj) (x : V)
    (hfresh : ∀ v, inj v ∈ L → key v ≠ key x)
    (hfind : ∀ k, find' k = if k = key x then some x else find k) :
    IndexInv find' key inj (L ++ [inj x]) where
  sound := by
    intro k v hk
    rw [hfind k] at hk
    by_cases hkx : k = key x
    · rw [if_pos hkx] at hk
      have hv : x = v := Option.some.inj hk
      subst hv
      exact ⟨hkx.symm, by simp⟩
    · rw [if_neg hkx] at hk
      obtain ⟨h1, h2⟩ := h.sound k v hk
      exact ⟨h1, by simp [h2]⟩
  complete := by
    intro v hv
    rw [hfind]
    rcases List.mem_append.mp hv with hv | hv
    · rw [if_neg (hfresh v hv)]
      exact h.complete v hv
    · have hvx : v = x := hinj (by simpa using hv)
      simp [hvx]
  once := by
    intro v
    rw [List.count_append, List.count_singleton]
    by_cases hvx : inj x = inj v
    · have hxL : inj x ∉ L := fun hm => hfresh x hm rfl
      have h0 : L.count (inj v) = 0 := by
        rw [← hvx]
        exact List.count_eq_zero.mpr hxL
      simp [h0, hvx]
    · have := h.once v
      simp [hvx]
      exact this

/-- Appending an element that is no value of the index. -/
theorem IndexInv.push_other {K V E : Type} [DecidableEq E]
    {find : K → Option V} {key : V → K} {inj : V → E} {L : List E}
    (h : IndexInv find key inj L) (e : E) (he : ∀ v, inj v ≠ e) :
    IndexInv find key inj (L ++ [e]) where
  sound := by
    intro k v hk
    obtain ⟨h1, h2⟩ := h.sound k v hk
    exact ⟨h1, by simp [h2]⟩
  complete := by
    intro v hv
    rcases List.mem_append.mp hv with hv | hv
    · exact h.complete v hv
    · exact absurd (by simpa using hv) (he v)
  once := by
    intro v
    rw [List.count_append, List.count_singleton]
    have h1 : ¬ e = inj v := fun h2 => he v h2.symm
    have := h.once v
    simp [h1]
    exact this

/-- Removing a registered object `x` together with its key. -/
theorem IndexInv.remove {K V E : Type} [DecidableEq K] [DecidableEq E]
    {find find' : K → Option V} {key : V → K} {inj : V → E} {L : List E}
    (h : IndexInv find key inj L) (hinj : Function.Injective inj) (x : V) (hx : inj x ∈ L)
    (hfind : ∀ k, find' k = if k = key x then none else find k) :
    IndexInv find' key inj (L.erase (inj x)) where
  sound := by
    intro k v hk
    rw [hfind k] at hk
    by_cases hkx : k = key x
    · rw [if_pos hkx] at hk
      exact absurd hk (by simp)
    · rw [if_neg hkx] at hk
      obtain ⟨h1, h2⟩ := h.sound k v hk
      have hne : inj v ≠ inj x := by
        intro heq
        have hvx : v = x := hinj heq
        exact hkx (by rw [← h1, hvx])
      exact ⟨h1, (List.mem_erase_of_ne hne).mpr h2⟩
  complete := by
    intro v hv
    have hvL : inj v ∈ L := List.mem_of_mem_erase hv
    have hkv : key v ≠ key x := by
      intro hk
      have h3 := h.complete v hvL
      have h4 := h.complete x hx
      rw [hk, h4] at h3
      have hvx : x = v := Option.some.inj h3
      subst hvx
      have hc : (L.erase (inj x)).count (inj x) = L.count (inj x) - 1 :=
        List.count_erase_self _ _
      have h1 := h.once x
      have h2 : 0 < (L.erase (inj x)).count (inj x) := List.count_pos_iff.mpr hv
      omega
    rw [hfind, if_neg hkv]
    exact h.complete v hvL
  once := by
    intro v
    exact le_trans ((List.erase_sublist (inj x) L).count_le (inj v)) (h.once v)

/-- Removing an element that is no value of the index. -/
theorem IndexInv.erase_other {K V E : Type} [DecidableEq E]
    {find : K → Option V} {key : V → K} {inj : V → E} {L : List E}
    (h : IndexInv find key inj L) (e : E) (he : ∀ v, inj v ≠ e) :
    IndexInv find key inj (L.erase e) where
  sound := by
    intro k v hk
    obtain ⟨h1, h2⟩ := h.sound k v hk
    exact ⟨h1, (List.mem_erase_of_ne (he v)).mpr h2⟩
  complete := by
    intro v hv
    exact h.complete v (List.mem_of_mem_erase hv)
  once := by
    intro v
    exact le_trans ((List.erase_sublist e L).count_le (inj v)) (h.once v)

theorem indexSound_insert {K V E : Type} [DecidableEq K]
    {find find' : K → Option V} {key : V → K} {inj : V → E} {L : List E}
    (h : IndexSound find key inj L) (x : V)
    (hfind : ∀ k, find' k = if k = key x then some x else find k) :
    IndexSound find' key inj (L ++ [inj x]) := by
  intro k v hk
  rw [hfind k] at hk
  by_cases hkx : k = key x
  · rw [if_pos hkx] at hk
    have hv : x = v := Option.some.inj hk
    subst hv
    exact ⟨hkx.symm, by simp⟩
  · rw [if_neg hkx] at hk
    obtain ⟨h1, h2⟩ := h k v hk
    exact ⟨h1, by simp [h2]⟩

theorem indexSound_push_other {K V E : Type}
    {find : K → Option V} {key : V → K} {inj : V → E} {L : List E}
    (h : IndexSound find key inj L) (e : E) :
    IndexSound find key inj (L ++ [e]) := by
  intro k v hk
  obtain ⟨h1, h2⟩ := h k v hk
  exact ⟨h1, by simp [h2]⟩

theorem indexSound_remove {K V E : Type} [DecidableEq K] [DecidableEq E]
    {find find' : K → Option V} {key : V → K} {inj : V → E} {L : List E}
    (h : IndexSound find key inj L) (hinj : Function.Injective inj) (x : V)
    (hfind : ∀ k, find' k = if k = key x then none else find k) :
    IndexSound find' key inj (L.erase (inj x)) := by
  intro k v hk
  rw [hfind k] at hk
  by_cases hkx : k = key x
  · rw [if_pos hkx] at hk
    exact absurd hk (by simp)
  · rw [if_neg hkx] at hk
    obtain ⟨h1, h2⟩ := h k v hk
    have hne : inj v ≠ inj x := by
      intro heq
      have hvx : v = x := hinj heq
      exact hkx (by rw [← h1, hvx])
    exact ⟨h1, (List.mem_erase_of_ne hne).mpr h2⟩

theorem indexSound_erase_other {K V E : Type} [DecidableEq E]
    {find : K → Option V} {key : V → K} {inj : V → E} {L : List E}
    (h : IndexSound find key inj L) (e : E) (he : ∀ v, inj v ≠ e) :
    IndexSound find key inj (L.erase e) := by
  intro k v hk
  obtain ⟨h1, h2⟩ := h k v hk
  exact ⟨h1, (List.mem_erase_of_ne (he v)).mpr h2⟩

/-! ## Call sequences -/

/-- A property that holds initially and is kept by every admitted call holds after the
run. -/
theorem run_invariant (G : MachOMgr → Op → Bool) (Inv : MachOMgr → Prop)
    (hstep : ∀ s op s', Inv s → G s op = true → step s op = .ret s' → Inv s') :
    ∀ (ops : List Op) (s0 s : MachOMgr), Inv s0 → admissible G s0 ops = true →
      run s0 ops = .ret s → Inv s := by
  intro ops
  induction ops with
  | nil =>
    intro s0 s h0 _ hr
    simp only [run, Outcome.ret.injEq] at hr
    rw [← hr]
    exact h0
  | cons op ops ih =>
    intro s0 s h0 ha hr
    simp only [admissible, Bool.and_eq_true] at ha
    simp only [run] at hr
    cases hs : step s0 op with
    | fault => simp [hs] at hr
    | ret s1 =>
      rw [hs] at hr
      have ha2 := ha.2
      rw [hs] at ha2
      exact ih s1 s (hstep s0 op s1 h0 ha.1 hs) ha2 hr

/-- What a successful `add` of a Foreign Module leaves in each member. -/
theorem add_ret {s s' : MachOMgr} {obj : MachOObject} {b : Bool}
    (h : s.add obj b = .ret s') :
    s'.m_objects = sortedAssign obj.baseAddress obj s.m_objects ∧
    s'.m_objectNames = mapAssign obj.path (LoadableObject.macho obj) s.m_objectNames ∧
    s'.m_objectHeaders = mapAssign obj.getMachHeader obj s.m_objectHeaders ∧
    s'.m_nativeRefToObject = s.m_nativeRefToObject ∧
    s'.m_objectsInOrder = s.m_objectsInOrder ++ [obj] ∧
    s'.m_loadablesInOrder = s.m_loadablesInOrder ++ [LoadableObject.macho obj] ∧
    s'.m_mainModule = (if b then some obj else s.m_mainModule) ∧
    (b = true → s.m_mainModule = none) := by
  unfold MachOMgr.add at h
  cases b with
  | false =>
    simp only [Bool.false_eq_true, if_false, Outcome.ret.injEq] at h
    subst h
    simp
  | true =>
    simp only [if_true] at h
    by_cases hm : s.m_mainModule = none
    · simp only [hm, if_true, Outcome.ret.injEq] at h
      subst h
      simp [hm]
    · simp [hm] at h

/-! ## The ordered map `m_objects` -/

theorem mem_sortedAssign {V : Type} (k : Nat) (v : V) :
    ∀ (m : List (Nat × V)) (e : Nat × V), e ∈ sortedAssign k v m → e = (k, v) ∨ e ∈ m := by
  intro m
  induction m with
  | nil => intro e h; simpa [sortedAssign] using h
  | cons a t ih =>
    intro e h
    unfold sortedAssign at h
    by_cases hlt : k < a.1
    · rw [if_pos hlt] at h
      rcases List.mem_cons.mp h with h | h
      · exact Or.inl h
      · exact Or.inr h
    · rw [if_neg hlt] at h
      by_cases ha : a.1 = k
      · rw [if_pos ha] at h
        rcases List.mem_cons.mp h with h | h
        · exact Or.inl h
        · exact Or.inr (List.mem_cons_of_mem _ h)
      · rw [if_neg ha] at h
        rcases List.mem_cons.mp h with h | h
        · exact Or.inr (by simp [h])
        · rcases ih e h with h | h
          · exact Or.inl h
          · exact Or.inr (List.mem_cons_of_mem _ h)

theorem sortedKeys_sortedAssign {V : Type} (k : Nat) (v : V) :
    ∀ m : List (Nat × V), sortedKeys m → sortedKeys (sortedAssign k v m) := by
  intro m
  induction m with
  | nil => intro _; simp [sortedAssign, sortedKeys]
  | cons a t ih =>
    intro h
    unfold sortedKeys at h ih ⊢
    obtain ⟨h1, h2⟩ := List.pairwise_cons.mp h
    unfold sortedAssign
    by_cases hlt : k < a.1
    · rw [if_pos hlt]
      refine List.pairwise_cons.mpr ⟨?_, h⟩
      intro e he
      rcases List.mem_cons.mp he with he | he
      · rw [he]; exact hlt
      · exact lt_trans hlt (h1 e he)
    · rw [if_neg hlt]
      by_cases ha : a.1 = k
      · rw [if_pos ha]
        refine List.pairwise_cons.mpr ⟨?_, h2⟩
        intro e he
        have := h1 e he
        rw [ha] at this
        exact this
      · rw [if_neg ha]
        refine List.pairwise_cons.mpr ⟨?_, ih h2⟩
        intro e he
        rcases mem_sortedAssign k v t e he with he | he
        · rw [he]
          show a.1 < k
          omega
        · exact h1 e he

theorem sortedKeys_mapErase {V : Type} (k : Nat) (m : List (Nat × V)) (h : sortedKeys m) :
    sortedKeys (mapErase k m) :=
  List.Pairwise.filter _ h

/-- In a map with increasing keys, `find` gives the entries. -/
theorem mem_iff_mapFind {V : Type} :
    ∀ (m : List (Nat × V)), sortedKeys m →
      ∀ (k : Nat) (v : V), (k, v) ∈ m ↔ mapFind k m = some v := by
  intro m
  induction m with
  | nil => intro _ k v; simp [mapFind]
  | cons a t ih =>
    intro h k v
    obtain ⟨h1, h2⟩ := List.pairwise_cons.mp h
    unfold mapFind
    by_cases ha : a.1 = k
    · rw [if_pos ha]
      constructor
      · intro hm
        rcases List.mem_cons.mp hm with hm | hm
        · rw [← hm]
        · have := h1 _ hm
          simp only at this
          omega
      · intro hv
        have : a = (k, v) := by
          cases a
          simp only at ha
          simp only [Option.some.injEq] at hv
          rw [ha, hv]
        rw [this]
        exact List.mem_cons_self _ _
    · rw [if_neg ha]
      rw [← ih h2 k v]
      constructor
      · intro hm
        rcases List.mem_cons.mp hm with hm | hm
        · exact absurd (by rw [← hm]) ha
        · exact hm
      · intro hm
        exact List.mem_cons_of_mem _ hm

/-- The ordered map stays ordered under every call. -/
theorem sortedKeys_step (s : MachOMgr) (op : Op) (s' : MachOMgr)
    (h : sortedKeys s.m_objects) (hs : step s op = .ret s') : sortedKeys s'.m_objects := by
  cases op with
  | add obj b =>
    rw [(add_ret hs).1]
    exact sortedKeys_sortedAssign _ _ _ h
  | remove obj =>
    simp only [step, Outcome.ret.injEq] at hs
    subst hs
    exact sortedKeys_mapErase _ _ h
  | addNative obj =>
    simp only [step, Outcome.ret.injEq] at hs
    subst hs
    exact h
  | removeNative obj =>
    simp only [step, Outcome.ret.injEq] at hs
    subst hs
    exact h

/-- The base-address index follows the object-order sequence under calls with fresh
base addresses. -/
theorem baseIndexed_step (s : MachOMgr) (op : Op) (s' : MachOMgr)
    (h : baseIndexed s) (hg : freshBase s op = true) (hs : step s op = .ret s') :
    baseIndexed s' := by
  unfold baseIndexed at h ⊢
  cases op with
  | add obj b =>
    obtain ⟨e1, _, _, _, e5, _⟩ := add_ret hs
    rw [e1, e5]
    simp only [freshBase, removesRegistered, Bool.true_and, List.all_eq_true,
      decide_eq_true_eq] at hg
    exact IndexInv.insert h Function.injective_id obj (fun v hv => hg v hv)
      (fun k => mapFind_sortedAssign _ _ _ _)
  | remove obj =>
    simp only [step, Outcome.ret.injEq] at hs
    subst hs
    simp only [freshBase, removesRegistered, Bool.and_true, decide_eq_true_eq] at hg
    exact IndexInv.remove h Function.injective_id obj hg (fun k => mapFind_mapErase _ _ _)
  | addNative obj =>
    simp only [step, Outcome.ret.injEq] at hs
    subst hs
    exact h
  | removeNative obj =>
    simp only [step, Outcome.ret.injEq] at hs
    subst hs
    exact h

/-! ## Address resolution -/

theorem upperBound_cons {V : Type} (addr : Nat) (a : Nat × V) (t : List (Nat × V)) :
    upperBound addr (a :: t) = if addr < a.1 then 0 else upperBound addr t + 1 := by
  unfold upperBound
  rw [List.findIdx_cons]
  by_cases h : addr < a.1 <;> simp [h]

/-- The position before `upper_bound(addr)` holds the greatest key not above `addr`. -/
theorem upperBound_spec {V : Type} (addr : Nat) :
    ∀ (m : List (Nat × V)), sortedKeys m →
      (upperBound addr m = 0 → ∀ e ∈ m, addr < e.1) ∧
      (∀ i, upperBound addr m = i + 1 →
        ∃ e, m.get? i = some e ∧ e ∈ m ∧ e.1 ≤ addr ∧ ∀ e' ∈ m, e'.1 ≤ addr → e'.1 ≤ e.1) := by
  intro m
  induction m with
  | nil =>
    intro _
    refine ⟨fun _ e he => by simp at he, fun i hi => ?_⟩
    simp [upperBound] at hi
  | cons a t ih =>
    intro h
    obtain ⟨h1, h2⟩ := List.pairwise_cons.mp h
    obtain ⟨ih1, ih2⟩ := ih h2
    rw [upperBound_cons]
    by_cases hlt : addr < a.1
    · rw [if_pos hlt]
      refine ⟨fun _ e he => ?_, fun i hi => by omega⟩
      rcases List.mem_cons.mp he with he | he
      · rw [he]; exact hlt
      · exact lt_trans hlt (h1 e he)
    · rw [if_neg hlt]
      refine ⟨fun h0 => by omega, fun i hi => ?_⟩
      have hi2 : upperBound addr t = i := by omega
      cases i with
      | zero =>
        refine ⟨a, rfl, List.mem_cons_self _ _, by omega, ?_⟩
        intro e' he' hle
        rcases List.mem_cons.mp he' with he' | he'
        · rw [he']
        · have := ih1 hi2 e' he'
          omega
      | succ j =>
        obtain ⟨e, g1, g2, g3, g4⟩ := ih2 j hi2
        refine ⟨e, by simpa using g1, List.mem_cons_of_mem _ g2, g3, ?_⟩
        intro e' he' hle
        rcases List.mem_cons.mp he' with he' | he'
        · rw [he']
          exact le_of_lt (h1 e g2)
        · exact g4 e' he' hle

/-- With an ordered base-address index that agrees with the object-order sequence,
`objectForAddress` returns the registered module of greatest base address not above
`addr`, provided `addr` is not above its maximum address. -/
theorem objectForAddress_eq_some (s : MachOMgr) (hs : sortedKeys s.m_objects)
    (hb : baseIndexed s) (addr : Nat) (p : MachOObject) :
    s.objectForAddress addr = some p ↔
      p ∈ s.m_objectsInOrder ∧ p.baseAddress ≤ addr ∧ addr ≤ p.maxAddress ∧
        ∀ x ∈ s.m_objectsInOrder, x.baseAddress ≤ addr → x.baseAddress ≤ p.baseAddress := by
  obtain ⟨u1, u2⟩ := upperBound_spec addr s.m_objects hs
  have entry : ∀ e ∈ s.m_objects, e.2.baseAddress = e.1 ∧ e.2 ∈ s.m_objectsInOrder := by
    intro e he
    have : (e.1, e.2) ∈ s.m_objects := he
    exact hb.sound e.1 e.2 ((mem_iff_mapFind _ hs _ _).mp this)
  have reg : ∀ x ∈ s.m_objectsInOrder, (x.baseAddress, x) ∈ s.m_objects := by
    intro x hx
    exact (mem_iff_mapFind _ hs _ _).mpr (hb.complete x hx)
  unfold MachOMgr.objectForAddress
  simp only
  constructor
  · intro h
    by_cases h0 : upperBound addr s.m_objects = 0
    · simp [h0] at h
    · rw [if_neg h0] at h
      obtain ⟨e, g1, g2, g3, g4⟩ := u2 (upperBound addr s.m_objects - 1) (by omega)
      rw [g1] at h
      simp only at h
      by_cases hmax : e.2.maxAddress < addr
      · simp [hmax] at h
      · rw [if_neg hmax] at h
        have hp : e.2 = p := Option.some.inj h
        obtain ⟨q1, q2⟩ := entry e g2
        rw [← hp]
        refine ⟨q2, by omega, by omega, ?_⟩
        intro x hx hle
        have := g4 _ (reg x hx) hle
        simp only at this
        omega
  · rintro ⟨hp, hle, hmax, hgreatest⟩
    have hpm := reg p hp
    by_cases h0 : upperBound addr s.m_objects = 0
    · have := u1 h0 _ hpm
      simp only at this
      omega
    · rw [if_neg h0]
      obtain ⟨e, g1, g2, g3, g4⟩ := u2 (upperBound addr s.m_objects - 1) (by omega)
      rw [g1]
      simp only
      obtain ⟨q1, q2⟩ := entry e g2
      have k1 := g4 _ hpm hle
      simp only at k1
      have k2 := hgreatest e.2 q2 (by omega)
      have hkey : e.2.baseAddress = p.baseAddress := by omega
      have f1 := hb.complete e.2 q2
      have f2 := hb.complete p hp
      simp only [id] at f1 f2
      rw [hkey, f2] at f1
      have hep : p = e.2 := Option.some.inj f1
      rw [← hep]
      have : ¬ p.maxAddress < addr := by omega
      rw [if_neg this]

/-- Under the same conditions, `objectForAddress` returns not-found exactly when the
registered module of greatest base address not above `addr`, if any, ends below `addr`. -/
theorem objectForAddress_eq_none (s : MachOMgr) (hs : sortedKeys s.m_objects)
    (hb : baseIndexed s) (addr : Nat) :
    s.objectForAddress addr = none ↔
      ∀ p ∈ s.m_objectsInOrder, p.baseAddress ≤ addr →
        (∀ x ∈ s.m_objectsInOrder, x.baseAddress ≤ addr → x.baseAddress ≤ p.baseAddress) →
        p.maxAddress < addr := by
  constructor
  · intro h p hp hle hg
    by_contra hmax
    have := (objectForAddress_eq_some s hs hb addr p).mpr ⟨hp, hle, by omega, hg⟩
    rw [h] at this
    exact absurd this (by simp)
  · intro h
    cases hr : s.objectForAddress addr with
    | none => rfl
    | some p =>
      obtain ⟨hp, hle, hmax, hg⟩ := (objectForAddress_eq_some s hs hb addr p).mp hr
      have := h p hp hle hg
      omega

/-- Two registered modules with the same base address are the same module. -/
theorem baseIndexed_unique (s : MachOMgr) (hb : baseIndexed s) (x y : MachOObject)
    (hx : x ∈ s.m_objectsInOrder) (hy : y ∈ s.m_objectsInOrder)
    (h : x.baseAddress = y.baseAddress) : x = y := by
  have f1 := hb.complete x hx
  have f2 := hb.complete y hy
  simp only [id] at f1 f2
  rw [h, f2] at f1
  exact (Option.some.inj f1).symm

/-- The outcome of `objectForAddress` by cases: either every registered base address is
above `addr` and the result is not-found, or the registered module `p` of greatest base
address not above `addr` decides. -/
theorem objectForAddress_cases (s : MachOMgr) (hs : sortedKeys s.m_objects)
    (hb : baseIndexed s) (addr : Nat) :
    (s.objectForAddress addr = none ∧ ∀ x ∈ s.m_objectsInOrder, addr < x.baseAddress) ∨
    ∃ p ∈ s.m_objectsInOrder, p.baseAddress ≤ addr ∧
      (∀ x ∈ s.m_objectsInOrder, x.baseAddress ≤ addr → x.baseAddress ≤ p.baseAddress) ∧
      s.objectForAddress addr = if p.maxAddress < addr then none else some p := by
  obtain ⟨u1, u2⟩ := upperBound_spec addr s.m_objects hs
  have entry : ∀ e ∈ s.m_objects, e.2.baseAddress = e.1 ∧ e.2 ∈ s.m_objectsInOrder := by
    intro e he
    have : (e.1, e.2) ∈ s.m_objects := he
    exact hb.sound e.1 e.2 ((mem_iff_mapFind _ hs _ _).mp this)
  have reg : ∀ x ∈ s.m_objectsInOrder, (x.baseAddress, x) ∈ s.m_objects := by
    intro x hx
    exact (mem_iff_mapFind _ hs _ _).mpr (hb.complete x hx)
  by_cases h0 : upperBound addr s.m_objects = 0
  · left
    have hall : ∀ x ∈ s.m_objectsInOrder, addr < x.baseAddress := by
      intro x hx
      exact u1 h0 _ (reg x hx)
    refine ⟨?_, hall⟩
    rw [objectForAddress_eq_none s hs hb]
    intro p hp hle _
    have := hall p hp
    omega
  · right
    obtain ⟨e, _, g2, g3, g4⟩ := u2 (upperBound addr s.m_objects - 1) (by omega)
    obtain ⟨q1, q2⟩ := entry e g2
    have hgreatest : ∀ x ∈ s.m_objectsInOrder, x.baseAddress ≤ addr →
        x.baseAddress ≤ e.2.baseAddress := by
      intro x hx hle
      have := g4 _ (reg x hx) hle
      simp only at this
      omega
    refine ⟨e.2, q2, by omega, hgreatest, ?_⟩
    by_cases hmax : e.2.maxAddress < addr
    · rw [if_pos hmax, objectForAddress_eq_none s hs hb]
      intro p hp hle hg
      have h1 := hgreatest p hp hle
      have h2 := hg e.2 q2 (by omega)
      have : p = e.2 := baseIndexed_unique s hb p e.2 hp q2 (by omega)
      rw [this]
      exact hmax
    · rw [if_neg hmax, objectForAddress_eq_some s hs hb]
      exact ⟨q2, by omega, by omega, hgreatest⟩

/-- The registry invariant used for address resolution. -/
theorem imageInv_step (s : MachOMgr) (op : Op) (s' : MachOMgr)
    (h : sortedKeys s.m_objects ∧ baseIndexed s ∧ imagesApart s)
    (hg : freshImage s op = true) (hs : step s op = .ret s') :
    sortedKeys s'.m_objects ∧ baseIndexed s' ∧ imagesApart s' := by
  obtain ⟨h1, h2, h3, h4⟩ := h
  have hfb : freshBase s op = true := by
    cases op with
    | add obj b =>
      simp only [freshImage, removesRegistered, Bool.true_and, Bool.and_eq_true,
        decide_eq_true_eq, List.all_eq_true] at hg
      simp only [freshBase, removesRegistered, Bool.true_and, List.all_eq_true,
        decide_eq_true_eq]
      intro x hx
      have a1 := hg.2 x hx
      have a2 := h3 x hx
      have a3 := hg.1
      unfold apart at a1
      omega
    | remove obj =>
      simp only [freshImage, Bool.and_true] at hg
      simp only [freshBase, Bool.and_true]
      exact hg
    | addNative obj => rfl
    | removeNative obj =>
      simp only [freshImage, Bool.and_true] at hg
      simp only [freshBase, Bool.and_true]
      exact hg
  refine ⟨sortedKeys_step s op s' h1 hs, baseIndexed_step s op s' h2 hfb hs, ?_⟩
  cases op with
  | add obj b =>
    obtain ⟨_, _, _, _, e5, _⟩ := add_ret hs
    simp only [freshImage, removesRegistered, Bool.true_and, Bool.and_eq_true,
      decide_eq_true_eq, List.all_eq_true] at hg
    unfold imagesApart
    rw [e5]
    constructor
    · intro x hx
      rcases List.mem_append.mp hx with hx | hx
      · exact h3 x hx
      · have : x = obj := by simpa using hx
        rw [this]
        exact hg.1
    · intro x hx y hy hne
      rcases List.mem_append.mp hx with hx | hx
      · rcases List.mem_append.mp hy with hy | hy
        · exact h4 x hx y hy hne
        · have : y = obj := by simpa using hy
          rw [this]
          exact hg.2 x hx
      · have hxo : x = obj := by simpa using hx
        rcases List.mem_append.mp hy with hy | hy
        · rw [hxo]
          have := hg.2 y hy
          unfold apart at this ⊢
          omega
        · have hyo : y = obj := by simpa using hy
          exact absurd (hxo.trans hyo.symm) hne
  | remove obj =>
    simp only [step, Outcome.ret.injEq] at hs
    subst hs
    exact ⟨fun x hx => h3 x (List.mem_of_mem_erase hx),
      fun x hx y hy hne => h4 x (List.mem_of_mem_erase hx) y (List.mem_of_mem_erase hy) hne⟩
  | addNative obj =>
    simp only [step, Outcome.ret.injEq] at hs
    subst hs
    exact ⟨h3, h4⟩
  | removeNative obj =>
    simp only [step, Outcome.ret.injEq] at hs
    subst hs
    exact ⟨h3, h4⟩

theorem baseIndexed_empty : baseIndexed MachOMgr.empty :=
  IndexInv.empty _ _

theorem headerIndexed_empty : headerIndexed MachOMgr.empty :=
  IndexInv.empty _ _

theorem nativeIndexed_empty : nativeIndexed MachOMgr.empty :=
  IndexInv.empty _ _

theorem pathIndexed_empty : pathIndexed MachOMgr.empty :=
  IndexInv.empty _ _

theorem sortedKeys_empty : sortedKeys MachOMgr.empty.m_objects :=
  List.Pairwise.nil

theorem imageInv_empty :
    sortedKeys MachOMgr.empty.m_objects ∧ baseIndexed MachOMgr.empty ∧
      imagesApart MachOMgr.empty := by
  refine ⟨List.Pairwise.nil, baseIndexed_empty, ?_, ?_⟩
  · intro x hx
    simp [MachOMgr.empty] at hx
  · intro x hx
    simp [MachOMgr.empty] at hx

/-! ## The other indexes -/

theorem native_injective : Function.Injective LoadableObject.native := by
  intro a b h
  injection h

/-- The header index follows the object-order sequence under calls with fresh keys. -/
theorem headerIndexed_step (s : MachOMgr) (op : Op) (s' : MachOMgr)
    (h : headerIndexed s) (hg : freshHandle s op = true) (hs : step s op = .ret s') :
    headerIndexed s' := by
  unfold headerIndexed at h ⊢
  cases op with
  | add obj b =>
    obtain ⟨_, _, e3, _, e5, _⟩ := add_ret hs
    rw [e3, e5]
    simp only [freshHandle, List.all_eq_true, decide_eq_true_eq] at hg
    exact IndexInv.insert h Function.injective_id obj (fun v hv => hg v hv)
      (fun k => mapFind_mapAssign _ _ _ _)
  | remove obj =>
    simp only [step, Outcome.ret.injEq] at hs
    subst hs
    simp only [freshHandle, decide_eq_true_eq] at hg
    exact IndexInv.remove h Function.injective_id obj hg (fun k => mapFind_mapErase _ _ _)
  | addNative obj =>
    simp only [step, Outcome.ret.injEq] at hs
    subst hs
    exact h
  | removeNative obj =>
    simp only [step, Outcome.ret.injEq] at hs
    subst hs
    exact h

/-- The native-handle index follows the Native Wrappers of the load-order sequence under
calls with fresh keys. -/
theorem nativeIndexed_step (s : MachOMgr) (op : Op) (s' : MachOMgr)
    (h : nativeIndexed s) (hg : freshHandle s op = true) (hs : step s op = .ret s') :
    nativeIndexed s' := by
  unfold nativeIndexed at h ⊢
  cases op with
  | add obj b =>
    obtain ⟨_, _, _, e4, _, e6, _⟩ := add_ret hs
    rw [e4, e6]
    exact IndexInv.push_other h _ (fun v hv => by injection hv)
  | remove obj =>
    simp only [step, Outcome.ret.injEq] at hs
    subst hs
    exact IndexInv.erase_other h _ (fun v hv => by injection hv)
  | addNative obj =>
    simp only [step, Outcome.ret.injEq] at hs
    subst hs
    simp only [freshHandle, List.all_eq_true, decide_eq_true_eq] at hg
    refine IndexInv.insert h native_injective obj (fun v hv => ?_)
      (fun k => mapFind_mapAssign _ _ _ _)
    have := hg _ hv
    simpa [LoadableObject.nativeRef?] using this
  | removeNative obj =>
    simp only [step, Outcome.ret.injEq] at hs
    subst hs
    simp only [freshHandle, decide_eq_true_eq] at hg
    exact IndexInv.remove h native_injective obj hg (fun k => mapFind_mapErase _ _ _)

/-- The path index follows the load-order sequence under calls with fresh paths. -/
theorem pathIndexed_step (s : MachOMgr) (op : Op) (s' : MachOMgr)
    (h : pathIndexed s) (hg : freshPath s op = true) (hs : step s op = .ret s') :
    pathIndexed s' := by
  unfold pathIndexed at h ⊢
  cases op with
  | add obj b =>
    obtain ⟨_, e2, _, _, _, e6, _⟩ := add_ret hs
    rw [e2, e6]
    simp only [freshPath, List.all_eq_true, decide_eq_true_eq] at hg
    exact IndexInv.insert h Function.injective_id (LoadableObject.macho obj)
      (fun v hv => hg v hv) (fun k => mapFind_mapAssign _ _ _ _)
  | remove obj =>
    simp only [step, Outcome.ret.injEq] at hs
    subst hs
    simp only [freshPath, decide_eq_true_eq] at hg
    exact IndexInv.remove h Function.injective_id (LoadableObject.macho obj) hg
      (fun k => mapFind_mapErase _ _ _)
  | addNative obj =>
    simp only [step, Outcome.ret.injEq] at hs
    subst hs
    simp only [freshPath, List.all_eq_true, decide_eq_true_eq] at hg
    exact IndexInv.insert h Function.injective_id (LoadableObject.native obj)
      (fun v hv => hg v hv) (fun k => mapFind_mapAssign _ _ _ _)
  | removeNative obj =>
    simp only [step, Outcome.ret.injEq] at hs
    subst hs
    simp only [freshPath, decide_eq_true_eq] at hg
    exact IndexInv.remove h Function.injective_id (LoadableObject.native obj) hg
      (fun k => mapFind_mapErase _ _ _)

/-- The last entry of an ordered map has the greatest key. -/
theorem getLast_greatest {V : Type} :
    ∀ (m : List (Nat × V)), sortedKeys m → ∀ e, m.getLast? = some e →
      e ∈ m ∧ ∀ e' ∈ m, e'.1 ≤ e.1 := by
  intro m
  induction m with
  | nil => intro _ e h; simp at h
  | cons a t ih =>
    intro h e he
    obtain ⟨h1, h2⟩ := List.pairwise_cons.mp h
    cases t with
    | nil =>
      simp only [List.getLast?_singleton, Option.some.injEq] at he
      rw [← he]
      refine ⟨List.mem_cons_self _ _, ?_⟩
      intro e' he'
      have : e' = a := by simpa using he'
      rw [this]
    | cons b u =>
      rw [List.getLast?_cons_cons] at he
      obtain ⟨g1, g2⟩ := ih h2 e he
      refine ⟨List.mem_cons_of_mem _ g1, ?_⟩
      intro e' he'
      rcases List.mem_cons.mp he' with he' | he'
      · rw [he']
        exact le_of_lt (h1 e g1)
      · exact g2 e' he'

/-! ## What holds after every sequence of calls -/

theorem admissible_anyCall : ∀ (ops : List Op) (s : MachOMgr),
    admissible anyCall s ops = true := by
  intro ops
  induction ops with
  | nil => intro s; rfl
  | cons op ops ih =>
    intro s
    simp only [admissible, anyCall, Bool.true_and]
    cases step s op with
    | ret s' => exact ih s'
    | fault => rfl

theorem indexesSound_step (s : MachOMgr) (op : Op) (s' : MachOMgr)
    (h : indexesSound s) (hs : step s op = .ret s') : indexesSound s' := by
  obtain ⟨h0, h1, h2, h3, h4⟩ := h
  refine ⟨sortedKeys_step s op s' h0 hs, ?_⟩
  cases op with
  | add obj b =>
    obtain ⟨e1, e2, e3, e4, e5, e6, _⟩ := add_ret hs
    rw [e1, e2, e3, e4, e5, e6]
    exact ⟨indexSound_insert h1 obj (fun k => mapFind_sortedAssign _ _ _ _),
      indexSound_insert h2 obj (fun k => mapFind_mapAssign _ _ _ _),
      indexSound_push_other h3 _,
      indexSound_insert h4 (LoadableObject.macho obj) (fun k => mapFind_mapAssign _ _ _ _)⟩
  | remove obj =>
    simp only [step, Outcome.ret.injEq] at hs
    subst hs
    exact ⟨indexSound_remove h1 Function.injective_id obj (fun k => mapFind_mapErase _ _ _),
      indexSound_remove h2 Function.injective_id obj (fun k => mapFind_mapErase _ _ _),
      indexSound_erase_other h3 _ (fun v hv => by injection hv),
      indexSound_remove h4 Function.injective_id (LoadableObject.macho obj)
        (fun k => mapFind_mapErase _ _ _)⟩
  | addNative obj =>
    simp only [step, Outcome.ret.injEq] at hs
    subst hs
    exact ⟨h1, h2,
      indexSound_insert h3 obj (fun k => mapFind_mapAssign _ _ _ _),
      indexSound_insert h4 (LoadableObject.native obj) (fun k => mapFind_mapAssign _ _ _ _)⟩
  | removeNative obj =>
    simp only [step, Outcome.ret.injEq] at hs
    subst hs
    exact ⟨h1, h2,
      indexSound_remove h3 native_injective obj (fun k => mapFind_mapErase _ _ _),
      indexSound_remove h4 Function.injective_id (LoadableObject.native obj)
        (fun k => mapFind_mapErase _ _ _)⟩

theorem indexesSound_empty : indexesSound MachOMgr.empty := by
  refine ⟨List.Pairwise.nil, ?_, ?_, ?_, ?_⟩ <;>
  · intro k v h
    simp [MachOMgr.empty, mapFind] at h

/-- After any sequence of calls the indexes only hold registered objects. -/
theorem indexesSound_run (ops : List Op) (s : MachOMgr)
    (hr : run MachOMgr.empty ops = .ret s) : indexesSound s :=
  run_invariant anyCall indexesSound (fun s op s' h _ hs => indexesSound_step s op s' h hs)
    ops MachOMgr.empty s indexesSound_empty (admissible_anyCall ops _) hr

/-- With an ordered base-address index that only holds registered modules, what
`objectForAddress` returns is a registered module whose range contains the address. -/
theorem objectForAddress_sound (s : MachOMgr) (hs : sortedKeys s.m_objects)
    (hb : IndexSound (fun k => mapFind k s.m_objects) MachOObject.baseAddress id
      s.m_objectsInOrder) (addr : Nat) (p : MachOObject)
    (h : s.objectForAddress addr = some p) :
    p ∈ s.m_objectsInOrder ∧ p.baseAddress ≤ addr ∧ addr ≤ p.maxAddress := by
  obtain ⟨_, u2⟩ := upperBound_spec addr s.m_objects hs
  unfold MachOMgr.objectForAddress at h
  simp only at h
  by_cases h0 : upperBound addr s.m_objects = 0
  · simp [h0] at h
  · rw [if_neg h0] at h
    obtain ⟨e, g1, g2, g3, _⟩ := u2 (upperBound addr s.m_objects - 1) (by omega)
    rw [g1] at h
    simp only at h
    by_cases hmax : e.2.maxAddress < addr
    · simp [hmax] at h
    · rw [if_neg hmax] at h
      have hp : e.2 = p := Option.some.inj h
      have hmem : (e.1, e.2) ∈ s.m_objects := g2
      obtain ⟨q1, q2⟩ := hb e.1 e.2 ((mem_iff_mapFind _ hs _ _).mp hmem)
      rw [← hp]
      simp only [id] at q2
      exact ⟨q2, by omega, by omega⟩

/-! ## Claims on symbol resolution -/

/-- C1: without `startAfter`, the single pass of `getExportedSymbol` computes the two-pass
reference of the specification on every registry state and name: the non-weak answer of
the first global module that has one, otherwise the weak answer of the first global module
that has one, otherwise not-found. In particular, for global modules A registered before
B: A strong gives A's export; A without a strong export and B strong gives B's export;
neither strong and A weak gives A's export. -/
theorem getExportedSymbol_eq_twoPass (X : Exports) (s : MachOMgr) (n : String) :
    MachOMgr.getExportedSymbol X s n none
        = twoPassExportedSymbol X n s.m_loadablesInOrder ∧
    ∀ A B : LoadableObject, s.m_loadablesInOrder = [A, B] →
      X.globalExports A = true → X.globalExports B = true →
      (X.getExportedSymbol A n true ≠ 0 →
        MachOMgr.getExportedSymbol X s n none = X.getExportedSymbol A n true) ∧
      (X.getExportedSymbol A n true = 0 → X.getExportedSymbol B n true ≠ 0 →
        MachOMgr.getExportedSymbol X s n none = X.getExportedSymbol B n true) ∧
      (X.getExportedSymbol A n true = 0 → X.getExportedSymbol B n true = 0 →
        X.getExportedSymbol A n false ≠ 0 →
        MachOMgr.getExportedSymbol X s n none = X.getExportedSymbol A n false) := by
  have key : MachOMgr.getExportedSymbol X s n none
      = twoPassExportedSymbol X n s.m_loadablesInOrder := by
    unfold MachOMgr.getExportedSymbol
    rw [loop_none, twoPass_eq]
    simp
  refine ⟨key, ?_⟩
  intro A B hl hA hB
  rw [key, twoPass_eq, hl]
  refine ⟨?_, ?_, ?_⟩
  · intro h1
    simp [List.filter_cons, hA, hB, firstAnswer_cons, h1]
  · intro h1 h2
    simp [List.filter_cons, hA, hB, firstAnswer_cons, h1, h2]
  · intro h1 h2 h3
    simp [List.filter_cons, hA, hB, firstAnswer_cons, firstAnswer_nil, h1, h2, h3]

/-- C1 applied to the registry holding `exLibA` (weak `f` only) before `exLibB` (strong
`f`): the strong export of `exLibB` is returned. -/
theorem getExportedSymbol_eq_twoPass_witness :
    MachOMgr.getExportedSymbol exExports exAB "f" none
      = exExports.getExportedSymbol (LoadableObject.macho exLibB) "f" true :=
  ((getExportedSymbol_eq_twoPass exExports exAB "f").2 (LoadableObject.macho exLibA)
    (LoadableObject.macho exLibB) rfl rfl rfl).2.1 (by decide) (by decide)

theorem queries_after (X : Exports) (n : String) (a : Option LoadableObject) :
    ∀ (l : List LoadableObject) (w : Nat) (b : Bool),
      getExportedSymbolQueries X n a l w true = getExportedSymbolQueries X n none l w b := by
  intro l
  induction l with
  | nil => intro w b; simp [getExportedSymbolQueries]
  | cons m t ih =>
    intro w b
    rw [getExportedSymbolQueries, getExportedSymbolQueries]
    by_cases hg : X.globalExports m = true
    · by_cases hs : X.getExportedSymbol m n true = 0
      · by_cases hw : w = 0
        · simp [hg, hs, hw, ih (X.getExportedSymbol m n false) b]
        · simp [hg, hs, hw, ih w b]
      · simp [hg, hs]
    · simp [hg, ih w b]

/-- The calls made with `startAfter = A` are those of the search without `startAfter` on
the part of the sequence after the first occurrence of A. -/
theorem queries_skip (X : Exports) (n : String) (A : LoadableObject) :
    ∀ (pre post : List LoadableObject) (w : Nat), A ∉ pre →
      getExportedSymbolQueries X n (some A) (pre ++ A :: post) w false
        = getExportedSymbolQueries X n none post w false := by
  intro pre
  induction pre with
  | nil =>
    intro post w _
    simp only [List.nil_append]
    rw [getExportedSymbolQueries]
    simp [queries_after X n (some A) post w false]
  | cons m t ih =>
    intro post w hA
    have hm : ¬ m = A := fun h => hA (by simp [h])
    have ht : A ∉ t := fun h => hA (by simp [h])
    simp only [List.cons_append]
    rw [getExportedSymbolQueries]
    simp [hm, ih post w ht]

/-- The search without `startAfter` calls methods of modules of the sequence only. -/
theorem queries_obj_mem (X : Exports) (n : String) :
    ∀ (l : List LoadableObject) (w : Nat) (b : Bool),
      ∀ q ∈ getExportedSymbolQueries X n none l w b, q.obj ∈ l := by
  intro l
  induction l with
  | nil => intro w b q hq; simp [getExportedSymbolQueries] at hq
  | cons m t ih =>
    intro w b q hq
    rw [getExportedSymbolQueries] at hq
    by_cases hg : X.globalExports m = true
    · by_cases hs : X.getExportedSymbol m n true = 0
      · by_cases hw : w = 0
        · simp only [hg, hs, hw, Option.isSome_none, Bool.false_and, Bool.false_eq_true,
            if_false, Bool.not_true, ne_eq, not_true_eq_false, if_true, List.mem_cons] at hq
          rcases hq with h | h | h | h
          · subst h; simp [ModuleQuery.obj]
          · subst h; simp [ModuleQuery.obj]
          · subst h; simp [ModuleQuery.obj]
          · exact List.mem_cons_of_mem _ (ih _ _ q h)
        · simp only [hg, hs, hw, Option.isSome_none, Bool.false_and, Bool.false_eq_true,
            if_false, Bool.not_true, ne_eq, not_true_eq_false, List.mem_cons] at hq
          rcases hq with h | h | h
          · subst h; simp [ModuleQuery.obj]
          · subst h; simp [ModuleQuery.obj]
          · exact List.mem_cons_of_mem _ (ih _ _ q h)
      · simp only [hg, hs, Option.isSome_none, Bool.false_and, Bool.false_eq_true,
          if_false, Bool.not_true, ne_eq, not_false_eq_true, if_true, List.mem_cons,
          List.mem_singleton, List.not_mem_nil, or_false] at hq
        rcases hq with h | h
        · subst h; simp [ModuleQuery.obj]
        · subst h; simp [ModuleQuery.obj]
    · have hg2 : X.globalExports m = false := by simpa using hg
      simp only [hg2, Option.isSome_none, Bool.false_and, Bool.false_eq_true,
        if_false, Bool.not_false, if_true, List.mem_cons] at hq
      rcases hq with h | h
      · subst h; simp [ModuleQuery.obj]
      · exact List.mem_cons_of_mem _ (ih _ _ q h)

/-- C2 as stated fails: after `add(exLibA)`, `add(exLibA)` the module `exLibA` occurs in
the load-order sequence, yet `getExportedSymbol("f", startAfter = exLibA)` calls
`globalExports()` and `getExportedSymbol` of `exLibA` itself (its second entry) and returns
`0xA0`, the weak export of `exLibA`; the search on the empty part after that second entry
returns not-found. -/
theorem getExportedSymbol_startAfter_counterexample :
    run MachOMgr.empty [Op.add exLibA false, Op.add exLibA false] = Outcome.ret exTwice ∧
    LoadableObject.macho exLibA ∈ exTwice.m_loadablesInOrder ∧
    MachOMgr.getExportedSymbol exExports exTwice "f" (some (LoadableObject.macho exLibA))
      = 0xA0 ∧
    exExports.getExportedSymbol (LoadableObject.macho exLibA) "f" false = 0xA0 ∧
    getExportedSymbolQueries exExports "f" (some (LoadableObject.macho exLibA))
        exTwice.m_loadablesInOrder 0 false
      = [ModuleQuery.globalExports (LoadableObject.macho exLibA),
          ModuleQuery.getExportedSymbol (LoadableObject.macho exLibA) true,
          ModuleQuery.getExportedSymbol (LoadableObject.macho exLibA) false] ∧
    MachOMgr.getExportedSymbol exExports { exTwice with m_loadablesInOrder := [] } "f" none
      = 0 := by
  refine ⟨by decide, by decide, by decide, by decide, by decide, by decide⟩

/-- C2 (amended): let `startAfter = A` occur in the load-order sequence, `pre` being the
part before its first occurrence and `post` the part after it. In every registry state the
result of `getExportedSymbol(name, A)` is the result of the search without `startAfter` on
`post`, the calls it makes on modules are exactly the calls of that search, every call is
on a module of `post`, and any other export table that agrees on the modules of `post`
gives the same result. When the load-order sequence contains no object twice, no call is
made on A or on a module before A, and the result is the same whatever A and the modules
before it export: any export table that agrees on all other modules gives the same
result. -/
theorem getExportedSymbol_startAfter (X : Exports) (s : MachOMgr) (n : String)
    (A : LoadableObject) (pre post : List LoadableObject)
    (hl : s.m_loadablesInOrder = pre ++ A :: post) (hA : A ∉ pre) :
    (MachOMgr.getExportedSymbol X s n (some A)
        = MachOMgr.getExportedSymbol X { s with m_loadablesInOrder := post } n none ∧
      getExportedSymbolQueries X n (some A) s.m_loadablesInOrder 0 false
        = getExportedSymbolQueries X n none post 0 false ∧
      (∀ q ∈ getExportedSymbolQueries X n (some A) s.m_loadablesInOrder 0 false,
        q.obj ∈ post) ∧
      ∀ Y : Exports,
        (∀ m ∈ post, Y.globalExports m = X.globalExports m ∧
          ∀ k, Y.getExportedSymbol m n k = X.getExportedSymbol m n k) →
        MachOMgr.getExportedSymbol Y s n (some A)
          = MachOMgr.getExportedSymbol X s n (some A)) ∧
    (s.m_loadablesInOrder.Nodup →
      (∀ q ∈ getExportedSymbolQueries X n (some A) s.m_loadablesInOrder 0 false,
        q.obj ≠ A ∧ q.obj ∉ pre) ∧
      ∀ Y : Exports,
        (∀ m, m ≠ A → m ∉ pre → Y.globalExports m = X.globalExports m ∧
          ∀ k, Y.getExportedSymbol m n k = X.getExportedSymbol m n k) →
        MachOMgr.getExportedSymbol Y s n (some A)
          = MachOMgr.getExportedSymbol X s n (some A)) := by
  have key : ∀ Z : Exports, MachOMgr.getExportedSymbol Z s n (some A)
      = MachOMgr.getExportedSymbolLoop Z n none post 0 false := by
    intro Z
    unfold MachOMgr.getExportedSymbol
    rw [hl, loop_skip Z n A pre post 0 hA, loop_none, loop_none]
  have hq : getExportedSymbolQueries X n (some A) s.m_loadablesInOrder 0 false
      = getExportedSymbolQueries X n none post 0 false := by
    rw [hl]
    exact queries_skip X n A pre post 0 hA
  have hmem : ∀ q ∈ getExportedSymbolQueries X n (some A) s.m_loadablesInOrder 0 false,
      q.obj ∈ post := by
    intro q h
    rw [hq] at h
    exact queries_obj_mem X n post 0 false q h
  have hcongr : ∀ Y : Exports,
      (∀ m ∈ post, Y.globalExports m = X.globalExports m ∧
        ∀ k, Y.getExportedSymbol m n k = X.getExportedSymbol m n k) →
      MachOMgr.getExportedSymbol Y s n (some A)
        = MachOMgr.getExportedSymbol X s n (some A) := by
    intro Y hY
    rw [key X, key Y]
    exact loop_congr X Y n none post 0 false (fun m hm => ⟨(hY m hm).1, fun _ => (hY m hm).2⟩)
  refine ⟨⟨?_, hq, hmem, hcongr⟩, ?_⟩
  · rw [key X]
    rfl
  · intro hnd
    rw [hl] at hnd
    have hpost : ∀ m ∈ post, m ≠ A ∧ m ∉ pre := by
      intro m hm
      have h1 := List.nodup_append.mp hnd
      have h2 := List.nodup_cons.mp h1.2.1
      refine ⟨fun h => h2.1 (h ▸ hm), fun hp => ?_⟩
      exact h1.2.2 hp (List.mem_cons_of_mem _ hm)
    refine ⟨fun q h => hpost _ (hmem q h), fun Y hY => hcongr Y (fun m hm => ?_)⟩
    exact hY m (hpost m hm).1 (hpost m hm).2

/-- C2 (amended) applied to the registry holding `exLibD`, `exLibA`, `exLibB` in this
order, with `startAfter = exLibA`: the result is that of the search on `exLibB` alone, the
strong export `0xB0`, and no call is made on `exLibA` or `exLibD`. -/
theorem getExportedSymbol_startAfter_witness :
    exDAB.m_loadablesInOrder
      = [LoadableObject.macho exLibD] ++ LoadableObject.macho exLibA ::
          [LoadableObject.macho exLibB] ∧
    LoadableObject.macho exLibA ∉ [LoadableObject.macho exLibD] ∧
    exDAB.m_loadablesInOrder.Nodup ∧
    MachOMgr.getExportedSymbol exExports exDAB "f" (some (LoadableObject.macho exLibA))
      = MachOMgr.getExportedSymbol exExports
          { exDAB with m_loadablesInOrder := [LoadableObject.macho exLibB] } "f" none ∧
    MachOMgr.getExportedSymbol exExports
        { exDAB with m_loadablesInOrder := [LoadableObject.macho exLibB] } "f" none = 0xB0 ∧
    (∀ q ∈ getExportedSymbolQueries exExports "f" (some (LoadableObject.macho exLibA))
        exDAB.m_loadablesInOrder 0 false,
      q.obj ≠ LoadableObject.macho exLibA ∧ q.obj ∉ [LoadableObject.macho exLibD]) :=
  ⟨rfl, by decide, by decide,
    (getExportedSymbol_startAfter exExports exDAB "f" (LoadableObject.macho exLibA)
      [LoadableObject.macho exLibD] [LoadableObject.macho exLibB] rfl (by decide)).1.1,
    by decide,
    ((getExportedSymbol_startAfter exExports exDAB "f" (LoadableObject.macho exLibA)
      [LoadableObject.macho exLibD] [LoadableObject.macho exLibB] rfl (by decide)).2
      (by decide)).1⟩

/-- C3: for every `startAfter`, the result of `getExportedSymbol` does not depend on what
the modules with a false global-exports flag export: any other export table with the same
flags that agrees on the global modules gives the same result. When `startAfter` is absent
or itself global, the result is the result on the registry whose load-order sequence has
every module with a false global-exports flag deleted. -/
theorem getExportedSymbol_ignores_local (X : Exports) (s : MachOMgr) (n : String)
    (a : Option LoadableObject) :
    (∀ Y : Exports,
      (∀ m, Y.globalExports m = X.globalExports m) →
      (∀ m, X.globalExports m = true →
        ∀ k, Y.getExportedSymbol m n k = X.getExportedSymbol m n k) →
      MachOMgr.getExportedSymbol Y s n a = MachOMgr.getExportedSymbol X s n a) ∧
    ((∀ A, a = some A → X.globalExports A = true) →
      MachOMgr.getExportedSymbol X s n a
        = MachOMgr.getExportedSymbol X
            { s with m_loadablesInOrder := s.m_loadablesInOrder.filter X.globalExports }
            n a) := by
  refine ⟨?_, ?_⟩
  · intro Y h1 h2
    unfold MachOMgr.getExportedSymbol
    exact loop_congr X Y n a _ 0 false (fun m _ => ⟨h1 m, h2 m⟩)
  · intro ha
    unfold MachOMgr.getExportedSymbol
    cases a with
    | none =>
      simp only
      rw [loop_none, loop_none, List.filter_filter]
      simp
    | some A =>
      have hg := ha A rfl
      simp only
      by_cases hin : A ∈ s.m_loadablesInOrder
      · obtain ⟨pre, post, hp, hA⟩ := split_at_first A _ hin
        have hA2 : A ∉ pre.filter X.globalExports := fun h => hA (List.mem_filter.mp h).1
        rw [hp, loop_skip X n A pre post 0 hA, List.filter_append, List.filter_cons, if_pos hg,
          loop_skip X n A _ _ 0 hA2, loop_none, loop_none, List.filter_filter]
        simp
      · have hin2 : A ∉ s.m_loadablesInOrder.filter X.globalExports :=
          fun h => hin (List.mem_filter.mp h).1
        rw [loop_absent X n A _ 0 hin, loop_absent X n A _ 0 hin2]

/-- C3 applied with the global `startAfter = exLibA` to the registry holding `exLibA` and
the local Native Wrapper `exLibc`, where the result is that on the registry without
`exLibc`, and with the local `startAfter = exLibc` to the registry holding `exLibc` before
`exLibB`, where the result, the strong export `0xB0` of `exLibB`, is the same for every
export table that differs on Native Wrappers only. -/
theorem getExportedSymbol_ignores_local_witness :
    (∀ A, some (LoadableObject.macho exLibA) = some A → exExports.globalExports A = true) ∧
    MachOMgr.getExportedSymbol exExports exWithNative "f" (some (LoadableObject.macho exLibA))
      = MachOMgr.getExportedSymbol exExports
          { exWithNative with
            m_loadablesInOrder :=
              exWithNative.m_loadablesInOrder.filter exExports.globalExports } "f"
          (some (LoadableObject.macho exLibA)) ∧
    exExports.globalExports (LoadableObject.native exLibc) = false ∧
    MachOMgr.getExportedSymbol exExports exNativeFirst "f"
      (some (LoadableObject.native exLibc)) = 0xB0 ∧
    (∀ Y : Exports,
      (∀ m, Y.globalExports m = exExports.globalExports m) →
      (∀ m, exExports.globalExports m = true →
        ∀ k, Y.getExportedSymbol m "f" k = exExports.getExportedSymbol m "f" k) →
      MachOMgr.getExportedSymbol Y exNativeFirst "f" (some (LoadableObject.native exLibc))
        = MachOMgr.getExportedSymbol exExports exNativeFirst "f"
            (some (LoadableObject.native exLibc))) :=
  ⟨fun A h => by cases h; rfl,
    (getExportedSymbol_ignores_local exExports exWithNative "f"
      (some (LoadableObject.macho exLibA))).2 (fun A h => by cases h; rfl),
    rfl, by decide,
    (getExportedSymbol_ignores_local exExports exNativeFirst "f"
      (some (LoadableObject.native exLibc))).1⟩

/-! ## Claims on address resolution -/

/-- C4 as stated fails: after `add(exOuter)`, `add(exLibB)` the registered module
`exOuter` has `0x5000` in its range `[0x1000, 0x9000]`, but `objectForAddress(0x5000)`
inspects only `exLibB`, the module of greatest base address below, and returns
not-found. -/
theorem objectForAddress_nested_counterexample :
    admissible foreignOnly MachOMgr.empty [Op.add exOuter false, Op.add exLibB false] = true ∧
    run MachOMgr.empty [Op.add exOuter false, Op.add exLibB false] = Outcome.ret exNested ∧
    (exOuter ∈ exNested.m_objectsInOrder ∧
      exOuter.baseAddress ≤ 0x5000 ∧ 0x5000 ≤ exOuter.maxAddress) ∧
    exNested.objectForAddress 0x5000 = none := by
  refine ⟨by decide, by decide, by decide, by decide⟩

/-- C4 (amended): in every state reached from the empty registry by add/remove calls,
what `objectForAddress(addr)` returns is a registered Foreign Module whose range
`[base, max]` contains `addr`, so that it returns not-found whenever no registered range
contains `addr`. When moreover each added Foreign Module has a non-empty image
`[base, max)` that overlaps the image of no registered module and each removed object is
registered, it returns such a module whenever some registered module's range contains
`addr`, and not-found exactly when none does. -/
theorem objectForAddress_complete (ops : List Op) (s : MachOMgr)
    (hr : run MachOMgr.empty ops = Outcome.ret s) (addr : Nat) :
    (∀ p, s.objectForAddress addr = some p →
      p ∈ s.m_objectsInOrder ∧ p.baseAddress ≤ addr ∧ addr ≤ p.maxAddress) ∧
    ((¬ ∃ m ∈ s.m_objectsInOrder, m.baseAddress ≤ addr ∧ addr ≤ m.maxAddress) →
      s.objectForAddress addr = none) ∧
    (admissible freshImage MachOMgr.empty ops = true →
      ((∃ m ∈ s.m_objectsInOrder, m.baseAddress ≤ addr ∧ addr ≤ m.maxAddress) →
        ∃ p, s.objectForAddress addr = some p ∧ p ∈ s.m_objectsInOrder ∧
          p.baseAddress ≤ addr ∧ addr ≤ p.maxAddress) ∧
      (s.objectForAddress addr = none ↔
        ¬ ∃ m ∈ s.m_objectsInOrder, m.baseAddress ≤ addr ∧ addr ≤ m.maxAddress)) := by
  obtain ⟨hs0, hb0, _⟩ := indexesSound_run ops s hr
  have sound := objectForAddress_sound s hs0 hb0 addr
  refine ⟨sound, ?_, ?_⟩
  · intro hno
    cases hres : s.objectForAddress addr with
    | none => rfl
    | some p =>
      obtain ⟨a, b, c⟩ := sound p hres
      exact absurd ⟨p, a, b, c⟩ hno
  intro ha
  obtain ⟨hs, hb, h3, h4⟩ := run_invariant freshImage _ imageInv_step ops _ s
    imageInv_empty ha hr
  have none_case : ∀ p ∈ s.m_objectsInOrder, p.baseAddress ≤ addr →
      (∀ x ∈ s.m_objectsInOrder, x.baseAddress ≤ addr → x.baseAddress ≤ p.baseAddress) →
      p.maxAddress < addr →
      ¬ ∃ m ∈ s.m_objectsInOrder, m.baseAddress ≤ addr ∧ addr ≤ m.maxAddress := by
    intro p hp hle hg hmax
    rintro ⟨m, hm, m1, m2⟩
    have hmp : m ≠ p := by
      intro e
      rw [e] at m2
      omega
    have a1 := h4 m hm p hp hmp
    have a2 := h3 p hp
    have a3 := hg m hm m1
    unfold apart at a1
    omega
  rcases objectForAddress_cases s hs hb addr with ⟨hn, hall⟩ | ⟨p, hp, hle, hg, hres⟩
  · have hno : ¬ ∃ m ∈ s.m_objectsInOrder, m.baseAddress ≤ addr ∧ addr ≤ m.maxAddress := by
      rintro ⟨m, hm, m1, _⟩
      have := hall m hm
      omega
    exact ⟨fun h => absurd h hno, ⟨fun _ => hno, fun _ => hn⟩⟩
  · by_cases hmax : p.maxAddress < addr
    · rw [if_pos hmax] at hres
      have hno := none_case p hp hle hg hmax
      exact ⟨fun h => absurd h hno, ⟨fun _ => hno, fun _ => hres⟩⟩
    · rw [if_neg hmax] at hres
      refine ⟨fun _ => ⟨p, hres, hp, hle, by omega⟩, ⟨fun h => ?_, fun h => ?_⟩⟩
      · rw [hres] at h
        exact absurd h (by simp)
      · exact absurd ⟨p, hp, hle, by omega⟩ h

/-- C4 (amended) applied to the registry holding `exLibA` and `exLibB` back to back. -/
theorem objectForAddress_complete_witness :
    run MachOMgr.empty [Op.add exLibA false, Op.add exLibB false] = Outcome.ret exAB ∧
    admissible freshImage MachOMgr.empty [Op.add exLibA false, Op.add exLibB false] = true ∧
    (((∃ m ∈ exAB.m_objectsInOrder, m.baseAddress ≤ 0x2000 ∧ 0x2000 ≤ m.maxAddress) →
      ∃ p, exAB.objectForAddress 0x2000 = some p ∧ p ∈ exAB.m_objectsInOrder ∧
        p.baseAddress ≤ 0x2000 ∧ 0x2000 ≤ p.maxAddress) ∧
    (exAB.objectForAddress 0x2000 = none ↔
      ¬ ∃ m ∈ exAB.m_objectsInOrder, m.baseAddress ≤ 0x2000 ∧ 0x2000 ≤ m.maxAddress)) :=
  ⟨by decide, by decide,
    (objectForAddress_complete [Op.add exLibA false, Op.add exLibB false] exAB
      (by decide) 0x2000).2.2 (by decide)⟩

/-- C5 as stated fails at the boundary: with `exLibA` at `[0x1000, 0x2000]` and `exLibB`
based at `0x2000`, both registered, `objectForAddress(max(exLibA))` returns `exLibB`. -/
theorem objectForAddress_boundary_counterexample :
    admissible foreignOnly MachOMgr.empty [Op.add exLibA false, Op.add exLibB false] = true ∧
    run MachOMgr.empty [Op.add exLibA false, Op.add exLibB false] = Outcome.ret exAB ∧
    exLibA ∈ exAB.m_objectsInOrder ∧ exLibA.baseAddress ≤ exLibA.maxAddress ∧
    exAB.objectForAddress exLibA.maxAddress = some exLibB ∧
    exAB.objectForAddress exLibA.maxAddress ≠ some exLibA := by
  refine ⟨by decide, by decide, by decide, by decide, by decide, by decide⟩

/-- C5 (amended): in every state reached from the empty registry by calls in which each
added Foreign Module has a non-empty image `[base, max)` that overlaps the image of no
registered module and each removed object is registered, for every registered module `m`:
`objectForAddress(base(m))` returns `m`; `objectForAddress(max(m))` returns the registered
module whose base address equals `max(m)` when there is one, and `m` when there is
none. -/
theorem objectForAddress_bounds (ops : List Op) (s : MachOMgr)
    (ha : admissible freshImage MachOMgr.empty ops = true)
    (hr : run MachOMgr.empty ops = Outcome.ret s)
    (m : MachOObject) (hm : m ∈ s.m_objectsInOrder) :
    s.objectForAddress m.baseAddress = some m ∧
    (∀ x ∈ s.m_objectsInOrder, x.baseAddress = m.maxAddress →
      s.objectForAddress m.maxAddress = some x) ∧
    ((∀ x ∈ s.m_objectsInOrder, x.baseAddress ≠ m.maxAddress) →
      s.objectForAddress m.maxAddress = some m) := by
  obtain ⟨hs, hb, h3, h4⟩ := run_invariant freshImage _ imageInv_step ops _ s
    imageInv_empty ha hr
  have hmm := h3 m hm
  refine ⟨?_, ?_, ?_⟩
  · rw [objectForAddress_eq_some s hs hb]
    exact ⟨hm, le_refl _, by omega, fun x _ hx => hx⟩
  · intro x hx hxm
    rw [objectForAddress_eq_some s hs hb]
    have := h3 x hx
    exact ⟨hx, by omega, by omega, fun y _ hy => by omega⟩
  · intro hnone
    rw [objectForAddress_eq_some s hs hb]
    refine ⟨hm, by omega, le_refl _, ?_⟩
    intro x hx hle
    by_contra hlt
    have hxm : x ≠ m := by
      intro e
      rw [e] at hlt
      omega
    have a1 := h4 x hx m hm hxm
    have a2 := h3 x hx
    have a3 := hnone x hx
    unfold apart at a1
    omega

/-- C5 (amended) applied to `exLibA` in the registry holding `exLibA` and `exLibB`. -/
theorem objectForAddress_bounds_witness :
    admissible freshImage MachOMgr.empty [Op.add exLibA false, Op.add exLibB false] = true ∧
    run MachOMgr.empty [Op.add exLibA false, Op.add exLibB false] = Outcome.ret exAB ∧
    exLibA ∈ exAB.m_objectsInOrder ∧
    (exAB.objectForAddress exLibA.baseAddress = some exLibA ∧
    (∀ x ∈ exAB.m_objectsInOrder, x.baseAddress = exLibA.maxAddress →
      exAB.objectForAddress exLibA.maxAddress = some x) ∧
    ((∀ x ∈ exAB.m_objectsInOrder, x.baseAddress ≠ exLibA.maxAddress) →
      exAB.objectForAddress exLibA.maxAddress = some exLibA)) :=
  ⟨by decide, by decide, by decide,
    objectForAddress_bounds [Op.add exLibA false, Op.add exLibB false] exAB
      (by decide) (by decide) exLibA (by decide)⟩

/-- C6 as stated fails: after `add(exLibA)`, `add(exOuter)`, `remove(exOuter)`, where both
modules have base address `0x1000`, the module `exLibA` is registered (added, never
removed, in the object-order sequence), but the base-address index is empty and
`maxAddress()` returns not-found. -/
theorem maxAddress_counterexample :
    admissible foreignOnly MachOMgr.empty
      [Op.add exLibA false, Op.add exOuter false, Op.remove exOuter] = true ∧
    run MachOMgr.empty [Op.add exLibA false, Op.add exOuter false, Op.remove exOuter]
      = Outcome.ret exAfterCollide ∧
    exLibA ∈ exAfterCollide.m_objectsInOrder ∧
    exAfterCollide.maxAddress 0x1000 = Outcome.ret 0 := by
  refine ⟨by decide, by decide, by decide, by decide⟩

theorem alignedInv_step (pagesize : Nat) (s : MachOMgr) (op : Op) (s' : MachOMgr)
    (h : sortedKeys s.m_objects ∧ baseIndexed s ∧ maxAligned pagesize s)
    (hg : freshAlignedBase pagesize s op = true) (hs : step s op = .ret s') :
    sortedKeys s'.m_objects ∧ baseIndexed s' ∧ maxAligned pagesize s' := by
  obtain ⟨h1, h2, h3⟩ := h
  simp only [freshAlignedBase, Bool.and_eq_true] at hg
  refine ⟨sortedKeys_step s op s' h1 hs, baseIndexed_step s op s' h2 hg.1 hs, ?_⟩
  cases op with
  | add obj b =>
    obtain ⟨_, _, _, _, e5, _⟩ := add_ret hs
    have hg2 := hg.2
    simp only [Bool.and_eq_true, decide_eq_true_eq] at hg2
    unfold maxAligned
    rw [e5]
    intro x hx
    rcases List.mem_append.mp hx with hx | hx
    · exact h3 x hx
    · have : x = obj := by simpa using hx
      rw [this]
      exact hg2
  | remove obj =>
    simp only [step, Outcome.ret.injEq] at hs
    subst hs
    exact fun x hx => h3 x (List.mem_of_mem_erase hx)
  | addNative obj =>
    simp only [step, Outcome.ret.injEq] at hs
    subst hs
    exact h3
  | removeNative obj =>
    simp only [step, Outcome.ret.injEq] at hs
    subst hs
    exact h3

theorem alignedInv_empty (pagesize : Nat) :
    sortedKeys MachOMgr.empty.m_objects ∧ baseIndexed MachOMgr.empty ∧
      maxAligned pagesize MachOMgr.empty := by
  refine ⟨List.Pairwise.nil, baseIndexed_empty, ?_⟩
  intro x hx
  simp [MachOMgr.empty] at hx

/-- C6 (amended): in every state reached from the empty registry by add/remove calls,
`maxAddress()` returns not-found when no Foreign Module is registered. When moreover each
added Foreign Module has a base address that no registered module has and a non-null,
page-aligned maximum address, and each removed object is registered, `maxAddress()`
returns not-found if and only if no Foreign Module is registered, and otherwise returns
(without fault) the maximum address of the registered module of greatest base address. -/
theorem maxAddress_greatest_base (pagesize : Nat) (ops : List Op) (s : MachOMgr)
    (hr : run MachOMgr.empty ops = Outcome.ret s) :
    (s.m_objectsInOrder = [] → s.maxAddress pagesize = Outcome.ret 0) ∧
    (admissible (freshAlignedBase pagesize) MachOMgr.empty ops = true →
      (s.maxAddress pagesize = Outcome.ret 0 ↔ s.m_objectsInOrder = []) ∧
      (∀ m ∈ s.m_objectsInOrder,
        (∀ x ∈ s.m_objectsInOrder, x.baseAddress ≤ m.baseAddress) →
        s.maxAddress pagesize = Outcome.ret m.maxAddress)) := by
  constructor
  · intro hL
    obtain ⟨_, hb0, _⟩ := indexesSound_run ops s hr
    cases hm : s.m_objects with
    | nil => simp [MachOMgr.maxAddress, hm]
    | cons a t =>
      have hfind : mapFind a.1 s.m_objects = some a.2 := by
        rw [hm]
        simp [mapFind]
      have := (hb0 a.1 a.2 hfind).2
      rw [hL] at this
      simp at this
  intro ha
  obtain ⟨hs, hb, hal⟩ := run_invariant (freshAlignedBase pagesize) _
    (alignedInv_step pagesize) ops _ s
    (alignedInv_empty pagesize) ha hr
  have entry : ∀ e ∈ s.m_objects, e.2.baseAddress = e.1 ∧ e.2 ∈ s.m_objectsInOrder := by
    intro e he
    have : (e.1, e.2) ∈ s.m_objects := he
    exact hb.sound e.1 e.2 ((mem_iff_mapFind _ hs _ _).mp this)
  have reg : ∀ x ∈ s.m_objectsInOrder, (x.baseAddress, x) ∈ s.m_objects := by
    intro x hx
    exact (mem_iff_mapFind _ hs _ _).mpr (hb.complete x hx)
  cases hm : s.m_objects with
  | nil =>
    have hL : s.m_objectsInOrder = [] := by
      cases hl : s.m_objectsInOrder with
      | nil => rfl
      | cons x t =>
        have := reg x (by rw [hl]; exact List.mem_cons_self _ _)
        rw [hm] at this
        simp at this
    refine ⟨?_, ?_⟩
    · simp [MachOMgr.maxAddress, hm, hL]
    · intro m hmem
      rw [hL] at hmem
      simp at hmem
  | cons a t =>
    have hne : s.m_objects ≠ [] := by rw [hm]; simp
    obtain ⟨g1, g2⟩ := getLast_greatest s.m_objects hs _ (List.getLast?_eq_getLast _ hne)
    obtain ⟨q1, q2⟩ := entry _ g1
    obtain ⟨r1, r2⟩ := hal _ q2
    have hval : s.maxAddress pagesize
        = Outcome.ret (s.m_objects.getLast hne).2.maxAddress := by
      unfold MachOMgr.maxAddress
      rw [List.getLast?_eq_getLast _ hne]
      have : s.m_objects.isEmpty = false := by rw [hm]; rfl
      simp [this, r2]
    refine ⟨?_, ?_⟩
    · rw [hval]
      constructor
      · intro h
        simp only [Outcome.ret.injEq] at h
        exact absurd h r1
      · intro h
        rw [h] at q2
        simp at q2
    · intro m hmem hgr
      rw [hval]
      have k1 := g2 _ (reg m hmem)
      have k2 := hgr _ q2
      simp only at k1
      have : (s.m_objects.getLast hne).2 = m :=
        baseIndexed_unique s hb _ _ q2 hmem (by omega)
      rw [this]

/-- C6 (amended) applied to the registry holding `exLibA` and `exLibB`, page size 4096. -/
theorem maxAddress_greatest_base_witness :
    run MachOMgr.empty [Op.add exLibA false, Op.add exLibB false] = Outcome.ret exAB ∧
    admissible (freshAlignedBase 0x1000) MachOMgr.empty
      [Op.add exLibA false, Op.add exLibB false] = true ∧
    ((exAB.maxAddress 0x1000 = Outcome.ret 0 ↔ exAB.m_objectsInOrder = []) ∧
    (∀ m ∈ exAB.m_objectsInOrder,
      (∀ x ∈ exAB.m_objectsInOrder, x.baseAddress ≤ m.baseAddress) →
      exAB.maxAddress 0x1000 = Outcome.ret m.maxAddress)) :=
  ⟨by decide, by decide,
    (maxAddress_greatest_base 0x1000 [Op.add exLibA false, Op.add exLibB false] exAB
      (by decide)).2 (by decide)⟩

/-! ## Claims on the Main Module and the indexes -/

/-- C7: the Main Module designation. In any state, `add(obj, true)` succeeds and
designates `obj` when no Main Module is designated, and faults on its assertion when one
is; after `remove` of the Main Module no module is designated and `add(obj, true)`
succeeds again. The designation is a single slot, and the other calls keep it:
`add(x, false)`, `remove` of another module, and both calls on Native Wrappers. -/
theorem add_mainModule (s : MachOMgr) (obj M : MachOObject) :
    (s.m_mainModule = none →
      ∃ s', s.add obj true = Outcome.ret s' ∧ s'.m_mainModule = some obj) ∧
    (s.m_mainModule ≠ none → s.add obj true = Outcome.fault) ∧
    (s.m_mainModule = some M →
      (s.remove M).m_mainModule = none ∧
      ∃ s', (s.remove M).add obj true = Outcome.ret s' ∧ s'.m_mainModule = some obj) ∧
    (∃ s', s.add obj false = Outcome.ret s' ∧ s'.m_mainModule = s.m_mainModule) ∧
    (s.m_mainModule ≠ some obj → (s.remove obj).m_mainModule = s.m_mainModule) ∧
    (∀ n : NativeObject, (s.addNative n).m_mainModule = s.m_mainModule ∧
      (s.removeNative n).m_mainModule = s.m_mainModule) := by
  refine ⟨?_, ?_, ?_, ?_, ?_, ?_⟩
  · intro h
    unfold MachOMgr.add
    simp only [h, if_true]
    exact ⟨_, rfl, rfl⟩
  · intro h
    simp [MachOMgr.add, h]
  · intro h
    have h1 : (s.remove M).m_mainModule = none := by simp [MachOMgr.remove, h]
    refine ⟨h1, ?_⟩
    unfold MachOMgr.add
    simp only [h1, if_true]
    exact ⟨_, rfl, rfl⟩
  · unfold MachOMgr.add
    simp only [Bool.false_eq_true, if_false]
    exact ⟨_, rfl, rfl⟩
  · intro h
    simp [MachOMgr.remove, h]
  · intro n
    exact ⟨rfl, rfl⟩

/-- C7 applied to the empty registry and to the registry whose Main Module is `exLibA`. -/
theorem add_mainModule_witness :
    (∃ s', MachOMgr.empty.add exLibA true = Outcome.ret s' ∧ s'.m_mainModule = some exLibA) ∧
    exMain.add exLibB true = Outcome.fault ∧
    ((exMain.remove exLibA).m_mainModule = none ∧
      ∃ s', (exMain.remove exLibA).add exLibB true = Outcome.ret s' ∧
        s'.m_mainModule = some exLibB) :=
  ⟨(add_mainModule MachOMgr.empty exLibA exLibA).1 (by decide),
    (add_mainModule exMain exLibB exLibA).2.1 (by decide),
    (add_mainModule exMain exLibB exLibA).2.2.1 (by decide)⟩

/-- C8 as stated fails: after `add(exLibA)`, `add(exOuter)`, two modules with base
address `0x1000`, the object-order sequence holds both but the base-address index only
holds `exOuter`. -/
theorem baseIndex_collision_counterexample :
    admissible foreignOnly MachOMgr.empty [Op.add exLibA false, Op.add exOuter false] = true ∧
    run MachOMgr.empty [Op.add exLibA false, Op.add exOuter false] = Outcome.ret exCollide ∧
    exLibA ∈ exCollide.m_objectsInOrder ∧
    exLibA ∉ exCollide.m_objects.map Prod.snd := by
  refine ⟨by decide, by decide, by decide, by decide⟩

/-- C8 (amended): after every sequence of add/remove calls from the empty registry, every
value of the base-address index is a module of the object-order sequence stored under its
own base address, and the keys are in strictly increasing order. When moreover each added
Foreign Module has a base address that no registered module has and each removed object
is registered, the values of the index are exactly the modules of the object-order
sequence. -/
theorem baseIndex_reflects_registered (ops : List Op) (s : MachOMgr)
    (hr : run MachOMgr.empty ops = Outcome.ret s) :
    (∀ e ∈ s.m_objects, e.2 ∈ s.m_objectsInOrder ∧ e.1 = e.2.baseAddress) ∧
    s.m_objects.Pairwise (fun a b => a.1 < b.1) ∧
    (admissible freshBase MachOMgr.empty ops = true →
      ∀ m, m ∈ s.m_objects.map Prod.snd ↔ m ∈ s.m_objectsInOrder) := by
  obtain ⟨hs, hb0, _⟩ := indexesSound_run ops s hr
  have entry : ∀ e ∈ s.m_objects, e.2 ∈ s.m_objectsInOrder ∧ e.1 = e.2.baseAddress := by
    intro e he
    have : (e.1, e.2) ∈ s.m_objects := he
    obtain ⟨a, b⟩ := hb0 e.1 e.2 ((mem_iff_mapFind _ hs _ _).mp this)
    exact ⟨b, a.symm⟩
  refine ⟨entry, hs, ?_⟩
  intro ha m
  have hb : baseIndexed s := run_invariant freshBase baseIndexed baseIndexed_step ops
    MachOMgr.empty s baseIndexed_empty ha hr
  constructor
  · intro hm
    obtain ⟨e, he, hem⟩ := List.mem_map.mp hm
    rw [← hem]
    exact (entry e he).1
  · intro hm
    exact List.mem_map.mpr ⟨(m.baseAddress, m),
      (mem_iff_mapFind _ hs _ _).mpr (hb.complete m hm), rfl⟩

/-- C8 (amended) applied to the calls `add(exLibA)`, `add(exLibB)`. -/
theorem baseIndex_reflects_registered_witness :
    run MachOMgr.empty [Op.add exLibA false, Op.add exLibB false] = Outcome.ret exAB ∧
    admissible freshBase MachOMgr.empty [Op.add exLibA false, Op.add exLibB false] = true ∧
    ∀ m, m ∈ exAB.m_objects.map Prod.snd ↔ m ∈ exAB.m_objectsInOrder :=
  ⟨by decide, by decide,
    (baseIndex_reflects_registered [Op.add exLibA false, Op.add exLibB false] exAB
      (by decide)).2.2 (by decide)⟩

/-- C9 as stated fails: after `add(exLibA)` and `add(exWrapA)`, a Foreign Module and a
Native Wrapper with the same canonical path, both are registered but `lookup` of that
path returns the wrapper, not `exLibA`. -/
theorem lookup_sharedPath_counterexample :
    run MachOMgr.empty [Op.add exLibA false, Op.addNative exWrapA]
      = Outcome.ret exSharedPath ∧
    LoadableObject.macho exLibA ∈ exSharedPath.m_loadablesInOrder ∧
    id (LoadableObject.macho exLibA).path = (LoadableObject.macho exLibA).path ∧
    MachOMgr.lookup id exSharedPath (LoadableObject.macho exLibA).path
      = some (LoadableObject.native exWrapA) ∧
    MachOMgr.lookup id exSharedPath (LoadableObject.macho exLibA).path
      ≠ some (LoadableObject.macho exLibA) := by
  refine ⟨by decide, by decide, rfl, by decide, by decide⟩

/-- C9 (amended): in every state reached from the empty registry by add/remove calls of
Foreign Modules and Native Wrappers, what `lookup(p)` returns is a registered object
whose path is the canonical form of `p`, so that `lookup(p)` returns not-found for every
`p` whose canonical form is the path of no registered object. When moreover each added
object (of either variant) has a path that no registered object has and each removed
object is in the load-order sequence, `lookup(path_of(X))` returns `X` for every
registered object `X` whose stored path is canonical. -/
theorem lookup_roundtrip (realpath : String → String) (ops : List Op) (s : MachOMgr)
    (hr : run MachOMgr.empty ops = Outcome.ret s) :
    (∀ p X, s.lookup realpath p = some X →
      X ∈ s.m_loadablesInOrder ∧ X.path = realpath p) ∧
    (∀ p, (∀ X ∈ s.m_loadablesInOrder, X.path ≠ realpath p) →
      s.lookup realpath p = none) ∧
    (admissible freshPath MachOMgr.empty ops = true →
      ∀ X ∈ s.m_loadablesInOrder, realpath X.path = X.path →
        s.lookup realpath X.path = some X) := by
  obtain ⟨_, _, _, _, hp0⟩ := indexesSound_run ops s hr
  have sound : ∀ p X, s.lookup realpath p = some X →
      X ∈ s.m_loadablesInOrder ∧ X.path = realpath p := by
    intro p X hf
    obtain ⟨a, b⟩ := hp0 _ X hf
    exact ⟨b, a⟩
  refine ⟨sound, ?_, ?_⟩
  · intro p hnone
    cases hf : s.lookup realpath p with
    | none => rfl
    | some v =>
      obtain ⟨h1, h2⟩ := sound p v hf
      exact absurd h2 (hnone v h1)
  · intro ha X hX hc
    have hp : pathIndexed s := run_invariant freshPath pathIndexed pathIndexed_step ops
      MachOMgr.empty s pathIndexed_empty ha hr
    unfold MachOMgr.lookup
    rw [hc]
    exact hp.complete X hX

/-- C9 (amended) applied to the calls `add(exLibA)`, `add(exLibc)`, paths being
canonical. -/
theorem lookup_roundtrip_witness :
    run MachOMgr.empty [Op.add exLibA false, Op.addNative exLibc]
      = Outcome.ret exWithNative ∧
    admissible freshPath MachOMgr.empty [Op.add exLibA false, Op.addNative exLibc] = true ∧
    ∀ X ∈ exWithNative.m_loadablesInOrder, id X.path = X.path →
      exWithNative.lookup id X.path = some X :=
  ⟨by decide, by decide,
    (lookup_roundtrip id [Op.add exLibA false, Op.addNative exLibc] exWithNative
      (by decide)).2.2 (by decide)⟩

/-- C10 as stated fails: after `add(exLibA)`, `add(exOuter)`, `remove(exOuter)`, where both
modules have header `0x1000`, the module `exLibA` is registered (added, never removed, in
the object-order sequence), but its header is no longer in the header index and
`objectByHeader` returns not-found for it. -/
theorem objectByHeader_counterexample :
    run MachOMgr.empty [Op.add exLibA false, Op.add exOuter false, Op.remove exOuter]
      = Outcome.ret exAfterCollide ∧
    exLibA ∈ exAfterCollide.m_objectsInOrder ∧
    exAfterCollide.objectByHeader exLibA.getMachHeader = none := by
  refine ⟨by decide, by decide, by decide⟩

/-- C10 (amended): in every state reached from the empty registry by add/remove calls,
what `objectByHeader(h)` returns is a registered Foreign Module with header `h` and what
`objectByNativeRef(r)` returns is a registered Native Wrapper with handle `r` (so neither
returns an object that is not registered any more), and each returns not-found when no
registered object has the key; both are total functions. When moreover each added Foreign
Module has a header that no registered module has, each added Native Wrapper has a native
handle that no registered wrapper has, and each removed object is registered,
`objectByHeader(header(m))` returns `m` for every registered Foreign Module `m` and
`objectByNativeRef(handle(n))` returns `n` for every registered Native Wrapper `n`. -/
theorem objectByHeader_objectByNativeRef (ops : List Op) (s : MachOMgr)
    (hr : run MachOMgr.empty ops = Outcome.ret s) :
    (∀ h m, s.objectByHeader h = some m → m ∈ s.m_objectsInOrder ∧ m.getMachHeader = h) ∧
    (∀ h, (∀ m ∈ s.m_objectsInOrder, m.getMachHeader ≠ h) → s.objectByHeader h = none) ∧
    (∀ r n, s.objectByNativeRef r = some n →
      LoadableObject.native n ∈ s.m_loadablesInOrder ∧ n.nativeRef = r) ∧
    (∀ r, (∀ n, LoadableObject.native n ∈ s.m_loadablesInOrder → n.nativeRef ≠ r) →
      s.objectByNativeRef r = none) ∧
    (admissible freshHandle MachOMgr.empty ops = true →
      (∀ m ∈ s.m_objectsInOrder, s.objectByHeader m.getMachHeader = some m) ∧
      (∀ n, LoadableObject.native n ∈ s.m_loadablesInOrder →
        s.objectByNativeRef n.nativeRef = some n)) := by
  obtain ⟨_, _, hh0, hn0, _⟩ := indexesSound_run ops s hr
  have H1 : ∀ h m, s.objectByHeader h = some m →
      m ∈ s.m_objectsInOrder ∧ m.getMachHeader = h := by
    intro h m hf
    obtain ⟨a, b⟩ := hh0 h m hf
    exact ⟨b, a⟩
  have H2 : ∀ r n, s.objectByNativeRef r = some n →
      LoadableObject.native n ∈ s.m_loadablesInOrder ∧ n.nativeRef = r := by
    intro r n hf
    obtain ⟨a, b⟩ := hn0 r n hf
    exact ⟨b, a⟩
  refine ⟨H1, ?_, H2, ?_, ?_⟩
  · intro h hall
    cases hf : s.objectByHeader h with
    | none => rfl
    | some m =>
      obtain ⟨a, b⟩ := H1 h m hf
      exact absurd b (hall m a)
  · intro r hall
    cases hf : s.objectByNativeRef r with
    | none => rfl
    | some n =>
      obtain ⟨a, b⟩ := H2 r n hf
      exact absurd b (hall n a)
  · intro ha
    obtain ⟨hh, hn⟩ := run_invariant freshHandle
      (fun s => headerIndexed s ∧ nativeIndexed s)
      (fun s op s' h hg hst =>
        ⟨headerIndexed_step s op s' h.1 hg hst, nativeIndexed_step s op s' h.2 hg hst⟩)
      ops MachOMgr.empty s ⟨headerIndexed_empty, nativeIndexed_empty⟩ ha hr
    exact ⟨fun m hm => hh.complete m hm, fun n hn' => hn.complete n hn'⟩

/-- C10 (amended) applied to the calls `add(exLibA)`, `add(exLibc)`. -/
theorem objectByHeader_objectByNativeRef_witness :
    run MachOMgr.empty [Op.add exLibA false, Op.addNative exLibc]
      = Outcome.ret exWithNative ∧
    admissible freshHandle MachOMgr.empty [Op.add exLibA false, Op.addNative exLibc] = true ∧
    ((∀ m ∈ exWithNative.m_objectsInOrder,
      exWithNative.objectByHeader m.getMachHeader = some m) ∧
    (∀ n, LoadableObject.native n ∈ exWithNative.m_loadablesInOrder →
      exWithNative.objectByNativeRef n.nativeRef = some n)) :=
  ⟨by decide, by decide,
    (objectByHeader_objectByNativeRef [Op.add exLibA false, Op.addNative exLibc] exWithNative
      (by decide)).2.2.2.2 (by decide)⟩

/-! ## Claims on the two sequences and on Native Wrapper calls -/

theorem foreignModules_append (l : List LoadableObject) (x : LoadableObject) :
    foreignModules (l ++ [x]) = foreignModules l ++ foreignModules [x] := by
  induction l with
  | nil => simp [foreignModules]
  | cons a t ih =>
    cases a with
    | macho o => simp [foreignModules, ih]
    | native o => simp [foreignModules, ih]

theorem foreignModules_erase_macho (m : MachOObject) :
    ∀ l : List LoadableObject,
      foreignModules (l.erase (LoadableObject.macho m)) = (foreignModules l).erase m := by
  intro l
  induction l with
  | nil => simp [foreignModules]
  | cons a t ih =>
    cases a with
    | macho o =>
      by_cases h : o = m
      · subst h
        simp [foreignModules]
      · have h2 : LoadableObject.macho o ≠ LoadableObject.macho m := by
          intro e
          injection e with e
          exact h e
        rw [List.erase_cons_tail (by simpa using h2)]
        simp only [foreignModules]
        rw [List.erase_cons_tail (by simpa using h), ih]
    | native o =>
      rw [List.erase_cons_tail (by simp)]
      simp only [foreignModules]
      exact ih

theorem foreignModules_erase_native (n : NativeObject) :
    ∀ l : List LoadableObject,
      foreignModules (l.erase (LoadableObject.native n)) = foreignModules l := by
  intro l
  induction l with
  | nil => simp [foreignModules]
  | cons a t ih =>
    cases a with
    | macho o =>
      rw [List.erase_cons_tail (by simp)]
      simp only [foreignModules]
      rw [ih]
    | native o =>
      by_cases h : o = n
      · subst h
        simp [foreignModules]
      · have h2 : LoadableObject.native o ≠ LoadableObject.native n := by
          intro e
          injection e with e
          exact h e
        rw [List.erase_cons_tail (by simpa using h2)]
        simp only [foreignModules]
        exact ih

/-- The object-order sequence is the Foreign Module part of the load-order sequence,
under every call. -/
theorem foreignPart_step (s : MachOMgr) (op : Op) (s' : MachOMgr)
    (h : s.m_objectsInOrder = foreignModules s.m_loadablesInOrder)
    (hs : step s op = .ret s') :
    s'.m_objectsInOrder = foreignModules s'.m_loadablesInOrder := by
  cases op with
  | add obj b =>
    obtain ⟨_, _, _, _, e5, e6, _⟩ := add_ret hs
    rw [e5, e6, foreignModules_append, h]
    rfl
  | remove obj =>
    simp only [step, Outcome.ret.injEq] at hs
    subst hs
    show s.m_objectsInOrder.erase obj = foreignModules (s.m_loadablesInOrder.erase _)
    rw [foreignModules_erase_macho, h]
  | addNative obj =>
    simp only [step, Outcome.ret.injEq] at hs
    subst hs
    show s.m_objectsInOrder = foreignModules (s.m_loadablesInOrder ++ [_])
    rw [foreignModules_append, h]
    simp [foreignModules]
  | removeNative obj =>
    simp only [step, Outcome.ret.injEq] at hs
    subst hs
    show s.m_objectsInOrder = foreignModules (s.m_loadablesInOrder.erase _)
    rw [foreignModules_erase_native, h]

theorem foreignPart_run (ops : List Op) (s : MachOMgr)
    (hr : run MachOMgr.empty ops = .ret s) :
    s.m_objectsInOrder = foreignModules s.m_loadablesInOrder :=
  run_invariant anyCall (fun s => s.m_objectsInOrder = foreignModules s.m_loadablesInOrder)
    (fun s op s' h _ hs => foreignPart_step s op s' h hs)
    ops MachOMgr.empty s rfl (admissible_anyCall ops _) hr

theorem objectByIndex_eq_get? (s : MachOMgr) (i : Nat) :
    s.objectByIndex i = s.m_objectsInOrder.get? i := by
  unfold MachOMgr.objectByIndex
  by_cases h : i ≥ s.m_objectsInOrder.length
  · rw [if_pos h]
    exact (List.get?_eq_none.mpr h).symm
  · rw [if_neg h]

/-- C20: `add(NativeObject*)` and `remove(NativeObject*)` leave the base-address index,
the header index, the object-order sequence, the Main Module designation and both hook
sets (and the scalar members) unchanged, so `objectForAddress`, `maxAddress`,
`objectByHeader` and `objectByIndex` give the same results before and after; only the
path index, the native-handle index and the load-order sequence can differ. -/
theorem native_calls_frame (s : MachOMgr) (n : NativeObject) :
    foreignFrame s (s.addNative n) ∧ foreignFrame s (s.removeNative n) := by
  constructor <;>
  · refine ⟨rfl, rfl, rfl, rfl, rfl, rfl, rfl, rfl, rfl, ?_, ?_, ?_, ?_⟩
    · intro addr; rfl
    · intro pagesize; rfl
    · intro hdr; rfl
    · intro index; rfl

/-- After `add` calls only, the load-order sequence lists the added objects in call
order. -/
theorem run_adds : ∀ (ops : List Op) (s0 s : MachOMgr),
    (∀ op ∈ ops, isAdd op = true) → run s0 ops = .ret s →
    s.m_loadablesInOrder = s0.m_loadablesInOrder ++ addCalls ops := by
  intro ops
  induction ops with
  | nil =>
    intro s0 s _ hr
    simp only [run, Outcome.ret.injEq] at hr
    subst hr
    simp [addCalls]
  | cons op ops ih =>
    intro s0 s hall hr
    have hop := hall op (List.mem_cons_self _ _)
    have hrest : ∀ o ∈ ops, isAdd o = true := fun o ho => hall o (List.mem_cons_of_mem _ ho)
    simp only [run] at hr
    cases hs : step s0 op with
    | fault => simp [hs] at hr
    | ret s1 =>
      rw [hs] at hr
      have := ih s1 s hrest hr
      cases op with
      | add obj b =>
        obtain ⟨_, _, _, _, _, e6, _⟩ := add_ret hs
        rw [this, e6]
        simp [addCalls]
      | addNative obj =>
        simp only [step, Outcome.ret.injEq] at hs
        subst hs
        rw [this]
        simp [addCalls, MachOMgr.addNative]
      | remove obj => simp [isAdd] at hop
      | removeNative obj => simp [isAdd] at hop

/-- Erasing the element at its first position `k` shifts the later elements down. -/
theorem erase_get? {α : Type} [DecidableEq α] (m : α) :
    ∀ (L : List α) (k : Nat), L.get? k = some m → (∀ j < k, L.get? j ≠ some m) →
      ∀ j, (L.erase m).get? j = if j < k then L.get? j else L.get? (j + 1) := by
  intro L
  induction L with
  | nil => intro k h; simp at h
  | cons a t ih =>
    intro k h hfirst j
    cases k with
    | zero =>
      have ha : a = m := by simpa using h
      subst ha
      simp
    | succ k =>
      have ha : a ≠ m := by
        intro e
        exact hfirst 0 (Nat.succ_pos k) (by simp [e])
      rw [List.erase_cons_tail (by simpa using ha)]
      have h' : t.get? k = some m := by simpa using h
      have hfirst' : ∀ j < k, t.get? j ≠ some m := by
        intro j hj
        have := hfirst (j + 1) (by omega)
        simpa using this
      cases j with
      | zero => simp
      | succ j =>
        have := ih k h' hfirst' j
        simp only [List.get?_cons_succ]
        rw [this]
        by_cases hjk : j < k
        · have : j + 1 < k + 1 := by omega
          simp [hjk, this]
        · have : ¬ j + 1 < k + 1 := by omega
          simp [hjk, this]

/-- In a list without duplicates an element occurs at one position only. -/
theorem nodup_first {α : Type} (m : α) :
    ∀ (L : List α) (k : Nat), L.Nodup → L.get? k = some m → ∀ j < k, L.get? j ≠ some m := by
  intro L k hn hk j hj hjm
  have hk' := List.get?_eq_some.mp hk
  have hj' := List.get?_eq_some.mp hjm
  obtain ⟨hkl, hke⟩ := hk'
  obtain ⟨hjl, hje⟩ := hj'
  have : (⟨j, hjl⟩ : Fin L.length) = ⟨k, hkl⟩ :=
    (List.nodup_iff_injective_get.mp hn) (by rw [hje, hke])
  have : j = k := by simpa using this
  omega

/-- C12: in every registry state `objectByIndex(i)` is the `i`-th element of the
object-order sequence when `i` is less than its length and not-found otherwise. After
`add` calls only (Foreign Modules interleaved with Native Wrappers) from the empty
registry, `objectByIndex(i)` is the `i`-th added Foreign Module, not-found beyond the
last. When the object-order sequence has no duplicates, after `remove` of the module at
index `k` the indexes below `k` are unchanged and every later module's index is one
less. -/
theorem objectByIndex_spec (s : MachOMgr) :
    (∀ i, (∀ h : i < s.m_objectsInOrder.length,
        s.objectByIndex i = some (s.m_objectsInOrder.get ⟨i, h⟩)) ∧
      (s.m_objectsInOrder.length ≤ i → s.objectByIndex i = none)) ∧
    (∀ ops t, (∀ op ∈ ops, isAdd op = true) → run MachOMgr.empty ops = Outcome.ret t →
      ∀ i, t.objectByIndex i = (foreignModules (addCalls ops)).get? i) ∧
    (∀ m k, s.m_objectsInOrder.Nodup → s.m_objectsInOrder.get? k = some m →
      ∀ j, (s.remove m).objectByIndex j
        = if j < k then s.objectByIndex j else s.objectByIndex (j + 1)) := by
  refine ⟨?_, ?_, ?_⟩
  · intro i
    constructor
    · intro h
      rw [objectByIndex_eq_get?]
      exact List.get?_eq_get h
    · intro h
      rw [objectByIndex_eq_get?]
      exact List.get?_eq_none.mpr h
  · intro ops t hall hr i
    rw [objectByIndex_eq_get?, foreignPart_run ops t hr, run_adds ops _ t hall hr]
    rfl
  · intro m k hn hk j
    rw [objectByIndex_eq_get?, objectByIndex_eq_get?, objectByIndex_eq_get?]
    exact erase_get? m _ k hk (nodup_first m _ k hn hk) j

/-- C12 applied to the calls `add(exLibA)`, `add(exLibB)` and to the removal of `exLibA`,
at index 0 of the resulting registry. -/
theorem objectByIndex_spec_witness :
    (∀ i, exAB.objectByIndex i = (foreignModules (addCalls
      [Op.add exLibA false, Op.add exLibB false])).get? i) ∧
    (∀ i, (exAB.remove exLibA).objectByIndex i
      = if i < 0 then exAB.objectByIndex i else exAB.objectByIndex (i + 1)) :=
  ⟨(objectByIndex_spec exAB).2.1 [Op.add exLibA false, Op.add exLibB false] exAB
      (by decide) (by decide),
    (objectByIndex_spec exAB).2.2 exLibA 0 (by decide) (by decide)⟩

/-! ## Claims on `add` followed by `remove`, and on the Main Module -/

theorem mapFind_eq_none {K V : Type} [DecidableEq K] (k : K) :
    ∀ m : List (K × V), mapFind k m = none ↔ ∀ e ∈ m, e.1 ≠ k := by
  intro m
  induction m with
  | nil => simp [mapFind]
  | cons a t ih =>
    unfold mapFind
    by_cases h : a.1 = k
    · simp [h]
    · rw [if_neg h, ih]
      constructor
      · intro ht e he
        rcases List.mem_cons.mp he with he | he
        · rw [he]; exact h
        · exact ht e he
      · intro ht e he
        exact ht e (List.mem_cons_of_mem _ he)

theorem mapErase_of_absent {K V : Type} [DecidableEq K] (k : K) (m : List (K × V))
    (h : ∀ e ∈ m, e.1 ≠ k) : mapErase k m = m := by
  unfold mapErase
  rw [List.filter_eq_self]
  intro e he
  simpa using h e he

theorem mapErase_mapAssign {K V : Type} [DecidableEq K] (k : K) (v : V) :
    ∀ m : List (K × V), (∀ e ∈ m, e.1 ≠ k) → mapErase k (mapAssign k v m) = m := by
  intro m
  induction m with
  | nil => intro _; simp [mapAssign, mapErase]
  | cons a t ih =>
    intro h
    have ha : a.1 ≠ k := h a (List.mem_cons_self _ _)
    have ht : ∀ e ∈ t, e.1 ≠ k := fun e he => h e (List.mem_cons_of_mem _ he)
    have hd : decide (a.1 ≠ k) = true := by simpa using ha
    have := ih ht
    unfold mapErase at this ⊢
    rw [mapAssign, if_neg ha, List.filter_cons, if_pos hd, this]

theorem mapErase_sortedAssign {V : Type} (k : Nat) (v : V) :
    ∀ m : List (Nat × V), (∀ e ∈ m, e.1 ≠ k) → mapErase k (sortedAssign k v m) = m := by
  intro m
  induction m with
  | nil => intro _; simp [sortedAssign, mapErase]
  | cons a t ih =>
    intro h
    have ha : a.1 ≠ k := h a (List.mem_cons_self _ _)
    have ht : ∀ e ∈ t, e.1 ≠ k := fun e he => h e (List.mem_cons_of_mem _ he)
    by_cases hlt : k < a.1
    · have := mapErase_of_absent k (a :: t) h
      unfold mapErase at this ⊢
      simp only [sortedAssign, if_pos hlt, List.filter_cons, ne_eq, not_true_eq_false,
        decide_False, Bool.false_eq_true, if_false]
      simpa [List.filter_cons] using this
    · have hd : decide (a.1 ≠ k) = true := by simpa using ha
      have := ih ht
      unfold mapErase at this ⊢
      rw [sortedAssign, if_neg hlt, if_neg ha, List.filter_cons, if_pos hd, this]

theorem erase_append_self {α : Type} [DecidableEq α] (x : α) (L : List α) (h : x ∉ L) :
    (L ++ [x]).erase x = L := by
  rw [List.erase_append_right _ h]
  simp

/-- A designated Main Module is in both sequences, under every call. -/
theorem mainListed_step (s : MachOMgr) (op : Op) (s' : MachOMgr)
    (h : ∀ M, s.m_mainModule = some M →
      M ∈ s.m_objectsInOrder ∧ LoadableObject.macho M ∈ s.m_loadablesInOrder)
    (hs : step s op = .ret s') :
    ∀ M, s'.m_mainModule = some M →
      M ∈ s'.m_objectsInOrder ∧ LoadableObject.macho M ∈ s'.m_loadablesInOrder := by
  cases op with
  | add obj b =>
    obtain ⟨_, _, _, _, e5, e6, e7, _⟩ := add_ret hs
    intro M hM
    rw [e5, e6]
    rw [e7] at hM
    cases b with
    | true =>
      simp only [if_true, Option.some.injEq] at hM
      subst hM
      simp
    | false =>
      simp only [Bool.false_eq_true, if_false] at hM
      obtain ⟨a, b⟩ := h M hM
      simp [a, b]
  | remove obj =>
    simp only [step, Outcome.ret.injEq] at hs
    subst hs
    intro M hM
    simp only [MachOMgr.remove] at hM ⊢
    by_cases hm : s.m_mainModule = some obj
    · simp [hm] at hM
    · rw [if_neg hm] at hM
      have hne : M ≠ obj := by
        intro e
        rw [e] at hM
        exact hm hM
      obtain ⟨a, b⟩ := h M hM
      have hne2 : LoadableObject.macho M ≠ LoadableObject.macho obj := by
        intro e
        injection e with e
        exact hne e
      exact ⟨(List.mem_erase_of_ne hne).mpr a, (List.mem_erase_of_ne hne2).mpr b⟩
  | addNative obj =>
    simp only [step, Outcome.ret.injEq] at hs
    subst hs
    intro M hM
    obtain ⟨a, b⟩ := h M hM
    exact ⟨a, by simp [MachOMgr.addNative, b]⟩
  | removeNative obj =>
    simp only [step, Outcome.ret.injEq] at hs
    subst hs
    intro M hM
    obtain ⟨a, b⟩ := h M hM
    have hne2 : LoadableObject.macho M ≠ LoadableObject.native obj := by
      intro e
      injection e
    exact ⟨a, (List.mem_erase_of_ne hne2).mpr b⟩

theorem mainListed_run (ops : List Op) (s : MachOMgr)
    (hr : run MachOMgr.empty ops = .ret s) :
    ∀ M, s.m_mainModule = some M →
      M ∈ s.m_objectsInOrder ∧ LoadableObject.macho M ∈ s.m_loadablesInOrder :=
  run_invariant anyCall
    (fun s => ∀ M, s.m_mainModule = some M →
      M ∈ s.m_objectsInOrder ∧ LoadableObject.macho M ∈ s.m_loadablesInOrder)
    (fun s op s' h _ hs => mainListed_step s op s' h hs)
    ops MachOMgr.empty s (fun M hM => by simp [MachOMgr.empty] at hM)
    (admissible_anyCall ops _) hr

/-- The state after `add(m, b)` followed by `remove(m)`, component by component. -/
theorem remove_add_fields (S : MachOMgr) (m : MachOObject)
    (h1 : m ∉ S.m_objectsInOrder)
    (h2 : LoadableObject.macho m ∉ S.m_loadablesInOrder)
    (h3 : mapFind m.baseAddress S.m_objects = none)
    (h4 : mapFind m.path S.m_objectNames = none)
    (h5 : mapFind m.getMachHeader S.m_objectHeaders = none)
    (main : Option MachOObject) :
    MachOMgr.remove
      { S with
        m_objects := sortedAssign m.baseAddress m S.m_objects
        m_objectNames := mapAssign m.path (LoadableObject.macho m) S.m_objectNames
        m_objectHeaders := mapAssign m.getMachHeader m S.m_objectHeaders
        m_objectsInOrder := S.m_objectsInOrder ++ [m]
        m_loadablesInOrder := S.m_loadablesInOrder ++ [LoadableObject.macho m]
        m_mainModule := main } m
      = { S with m_mainModule := if main = some m then none else main } := by
  unfold MachOMgr.remove
  simp only
  rw [mapErase_sortedAssign _ _ _ ((mapFind_eq_none _ _).mp h3),
    mapErase_mapAssign _ _ _ ((mapFind_eq_none _ _).mp h4),
    mapErase_mapAssign _ _ _ ((mapFind_eq_none _ _).mp h5),
    erase_append_self _ _ h1, erase_append_self _ _ h2]

/-- C13: `remove` reverses `add`. For every registry state `S` and Foreign Module `m` that
is in neither sequence of `S` and whose base address, path and header are keys of none of
the indexes of `S`, the state after `add(m, false)` followed by `remove(m)` is `S` itself
(every component) when `S` is reached from the empty registry by add/remove calls, and
more generally whenever `m` is not the module designated in `S`; and when `S` has no Main
Module the state after `add(m, true)` followed by `remove(m)` is `S` itself. -/
theorem remove_add_inverse (S : MachOMgr) (m : MachOObject)
    (h1 : m ∉ S.m_objectsInOrder)
    (h2 : LoadableObject.macho m ∉ S.m_loadablesInOrder)
    (h3 : mapFind m.baseAddress S.m_objects = none)
    (h4 : mapFind m.path S.m_objectNames = none)
    (h5 : mapFind m.getMachHeader S.m_objectHeaders = none) :
    ((∀ ops, run MachOMgr.empty ops = Outcome.ret S →
        ∃ t, S.add m false = Outcome.ret t ∧ t.remove m = S) ∧
      (S.m_mainModule ≠ some m →
        ∃ t, S.add m false = Outcome.ret t ∧ t.remove m = S)) ∧
    (S.m_mainModule = none →
      ∃ t, S.add m true = Outcome.ret t ∧ t.remove m = S) := by
  have hfalse : S.m_mainModule ≠ some m →
      ∃ t, S.add m false = Outcome.ret t ∧ t.remove m = S := by
    intro hmain
    refine ⟨{ S with
        m_objects := sortedAssign m.baseAddress m S.m_objects
        m_objectNames := mapAssign m.path (LoadableObject.macho m) S.m_objectNames
        m_objectHeaders := mapAssign m.getMachHeader m S.m_objectHeaders
        m_objectsInOrder := S.m_objectsInOrder ++ [m]
        m_loadablesInOrder := S.m_loadablesInOrder ++ [LoadableObject.macho m]
        m_mainModule := S.m_mainModule }, by simp [MachOMgr.add], ?_⟩
    rw [remove_add_fields S m h1 h2 h3 h4 h5 S.m_mainModule, if_neg hmain]
  refine ⟨⟨fun ops hr => hfalse (fun hmain => h1 (mainListed_run ops S hr m hmain).1),
    hfalse⟩, ?_⟩
  · intro hnone
    refine ⟨{ S with
        m_objects := sortedAssign m.baseAddress m S.m_objects
        m_objectNames := mapAssign m.path (LoadableObject.macho m) S.m_objectNames
        m_objectHeaders := mapAssign m.getMachHeader m S.m_objectHeaders
        m_objectsInOrder := S.m_objectsInOrder ++ [m]
        m_loadablesInOrder := S.m_loadablesInOrder ++ [LoadableObject.macho m]
        m_mainModule := some m }, by simp [MachOMgr.add, hnone], ?_⟩
    rw [remove_add_fields S m h1 h2 h3 h4 h5 (some m), if_pos rfl, ← hnone]

/-- C13 applied to the registry holding `exLibA` and `exLibB` and the module `exLibD`. -/
theorem remove_add_inverse_witness :
    (∃ t, exAB.add exLibD false = Outcome.ret t ∧ t.remove exLibD = exAB) ∧
    (∃ t, exAB.add exLibD true = Outcome.ret t ∧ t.remove exLibD = exAB) :=
  ⟨(remove_add_inverse exAB exLibD (by decide) (by decide) (by decide) (by decide)
      (by decide)).1.1 [Op.add exLibA false, Op.add exLibB false] (by decide),
    (remove_add_inverse exAB exLibD (by decide) (by decide) (by decide) (by decide)
      (by decide)).2 (by decide)⟩

/-! ## Claims on soundness of address resolution -/

theorem run_append : ∀ (pre post : List Op) (s0 s : MachOMgr),
    run s0 (pre ++ post) = .ret s → ∃ s1, run s0 pre = .ret s1 ∧ run s1 post = .ret s := by
  intro pre
  induction pre with
  | nil => intro post s0 s h; exact ⟨s0, rfl, h⟩
  | cons op pre ih =>
    intro post s0 s h
    simp only [List.cons_append, run] at h ⊢
    cases hs : step s0 op with
    | fault => simp [hs] at h
    | ret s1 =>
      rw [hs] at h
      exact ih post s1 s h

theorem admissible_of_forall (P : Op → Bool) :
    ∀ (ops : List Op) (s : MachOMgr), (∀ op ∈ ops, P op = true) →
      admissible (fun _ op => P op) s ops = true := by
  intro ops
  induction ops with
  | nil => intro s _; rfl
  | cons op ops ih =>
    intro s h
    simp only [admissible, Bool.and_eq_true]
    refine ⟨h op (List.mem_cons_self _ _), ?_⟩
    cases step s op with
    | ret s' => exact ih s' (fun o ho => h o (List.mem_cons_of_mem _ ho))
    | fault => rfl

/-- What `objectForAddress` returns is a value of the base-address index. -/
theorem objectForAddress_value (s : MachOMgr) (addr : Nat) (p : MachOObject)
    (h : s.objectForAddress addr = some p) : ∃ k, (k, p) ∈ s.m_objects := by
  unfold MachOMgr.objectForAddress at h
  simp only at h
  by_cases h0 : upperBound addr s.m_objects = 0
  · simp [h0] at h
  · rw [if_neg h0] at h
    cases hg : s.m_objects.get? (upperBound addr s.m_objects - 1) with
    | none =>
      rw [hg] at h
      exact absurd h (by simp)
    | some e =>
      rw [hg] at h
      simp only at h
      by_cases hmax : e.2.maxAddress < addr
      · simp [hmax] at h
      · rw [if_neg hmax] at h
        have hp : e.2 = p := Option.some.inj h
        refine ⟨e.1, ?_⟩
        rw [← hp]
        exact List.get?_mem hg

/-- A module that no `add` call registers stays out of the base-address index. -/
theorem notValue_step (m : MachOObject) (s : MachOMgr) (op : Op) (s' : MachOMgr)
    (h : ∀ k, (k, m) ∉ s.m_objects) (hop : isAddOf m op = false)
    (hs : step s op = .ret s') : ∀ k, (k, m) ∉ s'.m_objects := by
  cases op with
  | add obj b =>
    obtain ⟨e1, _⟩ := add_ret hs
    have hne : obj ≠ m := by simpa [isAddOf] using hop
    intro k hk
    rw [e1] at hk
    rcases mem_sortedAssign _ _ _ _ hk with hk | hk
    · injection hk with _ hk
      exact hne hk.symm
    · exact h k hk
  | remove obj =>
    simp only [step, Outcome.ret.injEq] at hs
    subst hs
    intro k hk
    exact h k (List.mem_filter.mp hk).1
  | addNative obj =>
    simp only [step, Outcome.ret.injEq] at hs
    subst hs
    exact h
  | removeNative obj =>
    simp only [step, Outcome.ret.injEq] at hs
    subst hs
    exact h

/-- C18: in every state reached from the empty registry by add/remove calls of Foreign
Modules and Native Wrappers, with no restriction on colliding base addresses or
overlapping ranges, whenever `objectForAddress(addr)` returns a module `m`, then
`base(m) <= addr <= max(m)` and `m` is in the object-order sequence; and a module that has
been removed and not added again since is not returned for any address. -/
theorem objectForAddress_sound_run (ops : List Op) (s : MachOMgr)
    (hr : run MachOMgr.empty ops = Outcome.ret s) :
    (∀ addr m, s.objectForAddress addr = some m →
      m.baseAddress ≤ addr ∧ addr ≤ m.maxAddress ∧ m ∈ s.m_objectsInOrder) ∧
    (∀ pre post m, ops = pre ++ Op.remove m :: post →
      (∀ op ∈ post, isAddOf m op = false) →
      ∀ addr, s.objectForAddress addr ≠ some m) := by
  constructor
  · intro addr m h
    obtain ⟨hs0, hb0, _⟩ := indexesSound_run ops s hr
    obtain ⟨a, b, c⟩ := objectForAddress_sound s hs0 hb0 addr m h
    exact ⟨b, c, a⟩
  · intro pre post m hops hpost addr hres
    rw [hops] at hr
    obtain ⟨s1, hr1, hr2⟩ := run_append pre (Op.remove m :: post) _ s hr
    obtain ⟨hs1, hb1, _⟩ := indexesSound_run pre s1 hr1
    simp only [run, step] at hr2
    have habs : ∀ k, (k, m) ∉ (s1.remove m).m_objects := by
      intro k hk
      obtain ⟨hk1, hk2⟩ := List.mem_filter.mp hk
      have hkey := (hb1 k m ((mem_iff_mapFind _ hs1 _ _).mp hk1)).1
      simp only [ne_eq, decide_eq_true_eq] at hk2
      exact hk2 hkey.symm
    have hfinal := run_invariant (fun _ op => !isAddOf m op)
      (fun t => ∀ k, (k, m) ∉ t.m_objects)
      (fun t op t' h hg hst => notValue_step m t op t' h (by simpa using hg) hst)
      post (s1.remove m) s habs
      (admissible_of_forall (fun op => !isAddOf m op) post _
        (fun op hop => by simp [hpost op hop])) hr2
    obtain ⟨k, hk⟩ := objectForAddress_value s addr m hres
    exact hfinal k hk

/-- C18 applied to the calls `add(exLibA)`, `add(exOuter)`, `remove(exOuter)`: the removed
`exOuter` is returned for no address. -/
theorem objectForAddress_sound_run_witness :
    run MachOMgr.empty [Op.add exLibA false, Op.add exOuter false, Op.remove exOuter]
      = Outcome.ret exAfterCollide ∧
    ∀ addr, exAfterCollide.objectForAddress addr ≠ some exOuter :=
  ⟨by decide,
    (objectForAddress_sound_run [Op.add exLibA false, Op.add exOuter false, Op.remove exOuter]
      exAfterCollide (by decide)).2 [Op.add exLibA false, Op.add exOuter false] [] exOuter
      rfl (by simp)⟩

/-! ## Claims on a `startAfter` that is not registered -/

theorem queries_absent (X : Exports) (n : String) (A : LoadableObject) :
    ∀ (l : List LoadableObject) (w : Nat), A ∉ l →
      getExportedSymbolQueries X n (some A) l w false = [] := by
  intro l
  induction l with
  | nil => intro w _; simp [getExportedSymbolQueries]
  | cons m t ih =>
    intro w hA
    have hm : ¬ m = A := fun h => hA (by simp [h])
    have ht : A ∉ t := fun h => hA (by simp [h])
    rw [getExportedSymbolQueries]
    simp [hm, ih w ht]

theorem queries_last (X : Exports) (n : String) (A : LoadableObject) :
    ∀ (pre : List LoadableObject) (w : Nat), A ∉ pre →
      getExportedSymbolQueries X n (some A) (pre ++ [A]) w false = [] := by
  intro pre
  induction pre with
  | nil =>
    intro w _
    simp [getExportedSymbolQueries]
  | cons m t ih =>
    intro w hA
    have hm : ¬ m = A := fun h => hA (by simp [h])
    have ht : A ∉ t := fun h => hA (by simp [h])
    simp only [List.cons_append]
    rw [getExportedSymbolQueries]
    simp [hm, ih w ht]

/-- C19 as stated fails in its second half: after `add(exLibA)`, `add(exLibB)`,
`add(exLibA)` the module `exLibA` is the last element of the load-order sequence, yet
`getExportedSymbol("f", startAfter = exLibA)` resumes after the first entry of `exLibA`,
calls `globalExports()` and `getExportedSymbol` of `exLibB` and returns its strong export
`0xB0`, not not-found. -/
theorem getExportedSymbol_unregistered_counterexample :
    run MachOMgr.empty [Op.add exLibA false, Op.add exLibB false, Op.add exLibA false]
      = Outcome.ret exABA ∧
    exABA.m_loadablesInOrder.getLast? = some (LoadableObject.macho exLibA) ∧
    MachOMgr.getExportedSymbol exExports exABA "f" (some (LoadableObject.macho exLibA))
      = 0xB0 ∧
    MachOMgr.getExportedSymbol exExports exABA "f" (some (LoadableObject.macho exLibA))
      ≠ 0 ∧
    getExportedSymbolQueries exExports "f" (some (LoadableObject.macho exLibA))
        exABA.m_loadablesInOrder 0 false
      = [ModuleQuery.globalExports (LoadableObject.macho exLibB),
          ModuleQuery.getExportedSymbol (LoadableObject.macho exLibB) true] := by
  refine ⟨by decide, by decide, by decide, by decide, by decide⟩

/-- C19 (amended): for every registry state, export table, symbol name and non-null
`startAfter` that does not occur in the load-order sequence,
`getExportedSymbol(name, startAfter)` returns not-found and calls no method of any module,
whatever the registered modules export; likewise it returns not-found, and calls no method
of any module, when `startAfter` is the last element of the load-order sequence and occurs
nowhere else in it. -/
theorem getExportedSymbol_unregistered (X : Exports) (s : MachOMgr) (n : String)
    (A : LoadableObject) :
    (A ∉ s.m_loadablesInOrder →
      MachOMgr.getExportedSymbol X s n (some A) = 0 ∧
      getExportedSymbolQueries X n (some A) s.m_loadablesInOrder 0 false = []) ∧
    (∀ pre, s.m_loadablesInOrder = pre ++ [A] → A ∉ pre →
      MachOMgr.getExportedSymbol X s n (some A) = 0 ∧
      getExportedSymbolQueries X n (some A) s.m_loadablesInOrder 0 false = []) := by
  constructor
  · intro hA
    exact ⟨loop_absent X n A _ 0 hA, queries_absent X n A _ 0 hA⟩
  · intro pre hl hA
    unfold MachOMgr.getExportedSymbol
    rw [hl]
    refine ⟨?_, queries_last X n A pre 0 hA⟩
    rw [loop_skip X n A pre [] 0 hA]
    simp [MachOMgr.getExportedSymbolLoop]

/-- C19 (amended) applied to the registry holding `exLibA` and `exLibB` (which exports `f`
strongly): with the unregistered `exLibc` and with the last element `exLibB` as
`startAfter`. -/
theorem getExportedSymbol_unregistered_witness :
    (MachOMgr.getExportedSymbol exExports exAB "f" (some (LoadableObject.native exLibc)) = 0 ∧
      getExportedSymbolQueries exExports "f" (some (LoadableObject.native exLibc))
        exAB.m_loadablesInOrder 0 false = []) ∧
    (MachOMgr.getExportedSymbol exExports exAB "f" (some (LoadableObject.macho exLibB)) = 0 ∧
      getExportedSymbolQueries exExports "f" (some (LoadableObject.macho exLibB))
        exAB.m_loadablesInOrder 0 false = []) :=
  ⟨(getExportedSymbol_unregistered exExports exAB "f" (LoadableObject.native exLibc)).1
      (by decide),
    (getExportedSymbol_unregistered exExports exAB "f" (LoadableObject.macho exLibB)).2
      [LoadableObject.macho exLibA] rfl (by decide)⟩

/-! ## Claims on the content of the two sequences -/

theorem mem_foreignModules (m : MachOObject) :
    ∀ l : List LoadableObject, m ∈ foreignModules l ↔ LoadableObject.macho m ∈ l := by
  intro l
  induction l with
  | nil => simp [foreignModules]
  | cons a t ih =>
    cases a with
    | macho o =>
      simp only [foreignModules, List.mem_cons, ih, LoadableObject.macho.injEq]
    | native o =>
      simp only [foreignModules, List.mem_cons, ih]
      constructor
      · intro h; exact Or.inr h
      · intro h
        rcases h with h | h
        · injection h
        · exact h

theorem nodup_foreignModules :
    ∀ l : List LoadableObject, l.Nodup → (foreignModules l).Nodup := by
  intro l
  induction l with
  | nil => intro _; simp [foreignModules]
  | cons a t ih =>
    intro h
    obtain ⟨h1, h2⟩ := List.nodup_cons.mp h
    cases a with
    | macho o =>
      simp only [foreignModules]
      exact List.nodup_cons.mpr ⟨fun hm => h1 ((mem_foreignModules o t).mp hm), ih h2⟩
    | native o =>
      simp only [foreignModules]
      exact ih h2

/-- The load-order sequence is a subsequence of the added objects in call order. -/
theorem sublist_addCalls : ∀ (ops : List Op) (s0 s : MachOMgr), run s0 ops = .ret s →
    s.m_loadablesInOrder.Sublist (s0.m_loadablesInOrder ++ addCalls ops) := by
  intro ops
  induction ops with
  | nil =>
    intro s0 s hr
    simp only [run, Outcome.ret.injEq] at hr
    subst hr
    simp [addCalls]
  | cons op ops ih =>
    intro s0 s hr
    simp only [run] at hr
    cases hs : step s0 op with
    | fault => simp [hs] at hr
    | ret s1 =>
      rw [hs] at hr
      have h1 := ih s1 s hr
      cases op with
      | add obj b =>
        obtain ⟨_, _, _, _, _, e6, _⟩ := add_ret hs
        rw [e6] at h1
        simpa [addCalls] using h1
      | addNative obj =>
        simp only [step, Outcome.ret.injEq] at hs
        subst hs
        simpa [addCalls, MachOMgr.addNative] using h1
      | remove obj =>
        simp only [step, Outcome.ret.injEq] at hs
        subst hs
        exact h1.trans ((List.erase_sublist _ _).append_right _)
      | removeNative obj =>
        simp only [step, Outcome.ret.injEq] at hs
        subst hs
        exact h1.trans ((List.erase_sublist _ _).append_right _)

theorem nodup_erase_eq_filter {α : Type} [DecidableEq α] (l : List α) (a : α)
    (hn : l.Nodup) : l.erase a = l.filter (fun x => decide (x ≠ a)) := by
  rw [hn.erase_eq_filter]
  apply List.filter_congr
  intro x _
  by_cases h : x = a <;> simp [h]

/-- When no object is added while it is in the load-order sequence, that sequence has no
duplicates and lists the registered objects in the order of their `add` calls. -/
theorem registered_run : ∀ (ops : List Op) (s0 s : MachOMgr), s0.m_loadablesInOrder.Nodup →
    admissible addsUnregistered s0 ops = true → run s0 ops = .ret s →
    s.m_loadablesInOrder.Nodup ∧
      s.m_loadablesInOrder = registeredInOrder s0.m_loadablesInOrder ops := by
  intro ops
  induction ops with
  | nil =>
    intro s0 s hn _ hr
    simp only [run, Outcome.ret.injEq] at hr
    subst hr
    exact ⟨hn, rfl⟩
  | cons op ops ih =>
    intro s0 s hn ha hr
    simp only [admissible, Bool.and_eq_true] at ha
    simp only [run] at hr
    cases hs : step s0 op with
    | fault => simp [hs] at hr
    | ret s1 =>
      rw [hs] at hr
      have ha2 := ha.2
      rw [hs] at ha2
      have hg := ha.1
      cases op with
      | add obj b =>
        obtain ⟨_, _, _, _, _, e6, _⟩ := add_ret hs
        simp only [addsUnregistered, decide_eq_true_eq] at hg
        have hn1 : s1.m_loadablesInOrder.Nodup := by
          rw [e6]
          exact List.Nodup.append hn (List.nodup_singleton _) (by simpa using hg)
        obtain ⟨r1, r2⟩ := ih s1 s hn1 ha2 hr
        refine ⟨r1, ?_⟩
        rw [r2, e6]
        rfl
      | addNative obj =>
        simp only [step, Outcome.ret.injEq] at hs
        subst hs
        simp only [addsUnregistered, decide_eq_true_eq] at hg
        have hn1 : (s0.addNative obj).m_loadablesInOrder.Nodup :=
          List.Nodup.append hn (List.nodup_singleton _) (by simpa using hg)
        obtain ⟨r1, r2⟩ := ih _ s hn1 ha2 hr
        exact ⟨r1, r2⟩
      | remove obj =>
        simp only [step, Outcome.ret.injEq] at hs
        subst hs
        have hn1 : (s0.remove obj).m_loadablesInOrder.Nodup := hn.erase _
        obtain ⟨r1, r2⟩ := ih _ s hn1 ha2 hr
        refine ⟨r1, ?_⟩
        rw [r2]
        show registeredInOrder (s0.m_loadablesInOrder.erase _) ops = _
        rw [nodup_erase_eq_filter _ _ hn]
        rfl
      | removeNative obj =>
        simp only [step, Outcome.ret.injEq] at hs
        subst hs
        have hn1 : (s0.removeNative obj).m_loadablesInOrder.Nodup := hn.erase _
        obtain ⟨r1, r2⟩ := ih _ s hn1 ha2 hr
        refine ⟨r1, ?_⟩
        rw [r2]
        show registeredInOrder (s0.m_loadablesInOrder.erase _) ops = _
        rw [nodup_erase_eq_filter _ _ hn]
        rfl

/-- C11 as stated fails: after `add(exLibA)`, `add(exLibA)` both sequences contain `exLibA`
twice. -/
theorem sequences_duplicate_counterexample :
    run MachOMgr.empty [Op.add exLibA false, Op.add exLibA false] = Outcome.ret exTwice ∧
    exTwice.m_objectsInOrder.count exLibA = 2 ∧
    exTwice.m_loadablesInOrder.count (LoadableObject.macho exLibA) = 2 := by
  refine ⟨by decide, by decide, by decide⟩

/-- C11 (amended): in every state reached from the empty registry by add/remove calls of
Foreign Modules and Native Wrappers, the object-order sequence is exactly the subsequence
of Foreign Modules of the load-order sequence, and the load-order sequence is a
subsequence of the added objects in the order of their `add` calls. When moreover no
object is added while it is in the load-order sequence, each of the two sequences contains
any object at most once and the load-order sequence lists exactly the currently
registered objects in the order of their `add` calls. -/
theorem sequences_spec (ops : List Op) (s : MachOMgr)
    (hr : run MachOMgr.empty ops = Outcome.ret s) :
    s.m_objectsInOrder = foreignModules s.m_loadablesInOrder ∧
    s.m_loadablesInOrder.Sublist (addCalls ops) ∧
    (admissible addsUnregistered MachOMgr.empty ops = true →
      s.m_loadablesInOrder.Nodup ∧ s.m_objectsInOrder.Nodup ∧
      s.m_loadablesInOrder = registeredInOrder [] ops) := by
  have h1 := foreignPart_run ops s hr
  refine ⟨h1, ?_, ?_⟩
  · have := sublist_addCalls ops MachOMgr.empty s hr
    simpa [MachOMgr.empty] using this
  · intro ha
    obtain ⟨r1, r2⟩ := registered_run ops MachOMgr.empty s List.nodup_nil ha hr
    refine ⟨r1, ?_, r2⟩
    rw [h1]
    exact nodup_foreignModules _ r1

/-- C11 (amended) applied to the calls `add(exLibA)`, `add(exLibc)`. -/
theorem sequences_spec_witness :
    run MachOMgr.empty [Op.add exLibA false, Op.addNative exLibc]
      = Outcome.ret exWithNative ∧
    admissible addsUnregistered MachOMgr.empty
      [Op.add exLibA false, Op.addNative exLibc] = true ∧
    (exWithNative.m_loadablesInOrder.Nodup ∧ exWithNative.m_objectsInOrder.Nodup ∧
      exWithNative.m_loadablesInOrder
        = registeredInOrder [] [Op.add exLibA false, Op.addNative exLibc]) :=
  ⟨by decide, by decide,
    (sequences_spec [Op.add exLibA false, Op.addNative exLibc] exWithNative
      (by decide)).2.2 (by decide)⟩

/-! ## Claims on the presence of the Main Module -/

/-- Removing `x`, registered or not, together with its key, when no other registered
object has that key. -/
theorem IndexInv.remove_distinct {K V E : Type} [DecidableEq K] [DecidableEq E]
    {find find' : K → Option V} {key : V → K} {inj : V → E} {L : List E}
    (h : IndexInv find key inj L) (hinj : Function.Injective inj) (x : V)
    (hdist : ∀ v, inj v ∈ L → v ≠ x → key v ≠ key x)
    (hfind : ∀ k, find' k = if k = key x then none else find k) :
    IndexInv find' key inj (L.erase (inj x)) where
  sound := indexSound_remove h.sound hinj x hfind
  complete := by
    intro v hv
    have hvL : inj v ∈ L := List.mem_of_mem_erase hv
    have hvx : v ≠ x := by
      intro e
      subst e
      have hc : (L.erase (inj v)).count (inj v) = L.count (inj v) - 1 :=
        List.count_erase_self _ _
      have h1 := h.once v
      have h2 : 0 < (L.erase (inj v)).count (inj v) := List.count_pos_iff.mpr hv
      omega
    rw [hfind, if_neg (hdist v hvL hvx)]
    exact h.complete v hvL
  once := by
    intro v
    exact le_trans ((List.erase_sublist (inj x) L).count_le (inj v)) (h.once v)

theorem keysInv_step (s : MachOMgr) (op : Op) (s' : MachOMgr)
    (h : baseIndexed s ∧ headerIndexed s ∧ pathIndexed s)
    (hg : distinctKeys s op = true) (hs : step s op = .ret s') :
    baseIndexed s' ∧ headerIndexed s' ∧ pathIndexed s' := by
  obtain ⟨hb, hh, hp⟩ := h
  unfold baseIndexed headerIndexed pathIndexed at *
  cases op with
  | add obj b =>
    obtain ⟨e1, e2, e3, _, e5, e6, _⟩ := add_ret hs
    rw [e1, e2, e3, e5, e6]
    simp only [distinctKeys, Bool.and_eq_true, List.all_eq_true, decide_eq_true_eq] at hg
    exact ⟨IndexInv.insert hb Function.injective_id obj (fun v hv => (hg.1 v hv).1)
        (fun k => mapFind_sortedAssign _ _ _ _),
      IndexInv.insert hh Function.injective_id obj (fun v hv => (hg.1 v hv).2)
        (fun k => mapFind_mapAssign _ _ _ _),
      IndexInv.insert hp Function.injective_id (LoadableObject.macho obj)
        (fun v hv => hg.2 v hv) (fun k => mapFind_mapAssign _ _ _ _)⟩
  | remove obj =>
    simp only [step, Outcome.ret.injEq] at hs
    subst hs
    simp only [distinctKeys, Bool.and_eq_true, List.all_eq_true, Bool.or_eq_true,
      decide_eq_true_eq] at hg
    have d1 : ∀ v, v ∈ s.m_objectsInOrder → v ≠ obj →
        v.baseAddress ≠ obj.baseAddress ∧ v.getMachHeader ≠ obj.getMachHeader := by
      intro v hv hne
      rcases hg.1 v hv with e | e
      · exact absurd e hne
      · exact e
    have d2 : ∀ v, v ∈ s.m_loadablesInOrder → v ≠ LoadableObject.macho obj →
        v.path ≠ obj.path := by
      intro v hv hne
      rcases hg.2 v hv with e | e
      · exact absurd e hne
      · exact e
    exact ⟨IndexInv.remove_distinct hb Function.injective_id obj
        (fun v hv hne => (d1 v hv hne).1) (fun k => mapFind_mapErase _ _ _),
      IndexInv.remove_distinct hh Function.injective_id obj
        (fun v hv hne => (d1 v hv hne).2) (fun k => mapFind_mapErase _ _ _),
      IndexInv.remove_distinct hp Function.injective_id (LoadableObject.macho obj)
        (fun v hv hne => d2 v hv hne) (fun k => mapFind_mapErase _ _ _)⟩
  | addNative obj =>
    simp only [step, Outcome.ret.injEq] at hs
    subst hs
    simp only [distinctKeys, List.all_eq_true, decide_eq_true_eq] at hg
    exact ⟨hb, hh,
      IndexInv.insert hp Function.injective_id (LoadableObject.native obj)
        (fun v hv => hg v hv) (fun k => mapFind_mapAssign _ _ _ _)⟩
  | removeNative obj =>
    simp only [step, Outcome.ret.injEq] at hs
    subst hs
    simp only [distinctKeys, List.all_eq_true, Bool.or_eq_true, decide_eq_true_eq] at hg
    have d2 : ∀ v, v ∈ s.m_loadablesInOrder → v ≠ LoadableObject.native obj →
        v.path ≠ obj.path := by
      intro v hv hne
      rcases hg v hv with e | e
      · exact absurd e hne
      · exact e
    exact ⟨hb, hh,
      IndexInv.remove_distinct hp Function.injective_id (LoadableObject.native obj)
        (fun v hv hne => d2 v hv hne) (fun k => mapFind_mapErase _ _ _)⟩

/-- C17 as stated fails: in the sequence `add(exLibA, true)`, `remove(exOuter)` the only
registered object is `exLibA` and no object is added while registered, but `exOuter`, never
added, has the base address and header of `exLibA`: its removal erases these keys, and the
designated Main Module `exLibA` is no longer in the base-address and header indexes. -/
theorem mainModule_lost_counterexample :
    admissible distinctRegistered MachOMgr.empty
      [Op.add exLibA true, Op.remove exOuter] = true ∧
    run MachOMgr.empty [Op.add exLibA true, Op.remove exOuter] = Outcome.ret exMainLost ∧
    exMainLost.m_mainModule = some exLibA ∧
    mapFind exLibA.baseAddress exMainLost.m_objects = none ∧
    mapFind exLibA.getMachHeader exMainLost.m_objectHeaders = none := by
  refine ⟨by decide, by decide, by decide, by decide, by decide⟩

/-- C17 (amended): after every sequence of add/remove calls from the empty registry, a
designated Main Module `M` occurs in the object-order and in the load-order sequence, and
`remove(M)` clears the designation. When moreover the registered objects have pairwise
distinct base addresses, paths and headers, no object is added while it is registered,
and every removed object has a base address, header and path that no other registered
object has, the base-address index maps `base(M)` to `M`, the path index maps `path(M)`
to `M` and the header index maps `header(M)` to `M`. -/
theorem mainModule_present (ops : List Op) (s : MachOMgr)
    (hr : run MachOMgr.empty ops = Outcome.ret s)
    (M : MachOObject) (hM : s.m_mainModule = some M) :
    (M ∈ s.m_objectsInOrder ∧ LoadableObject.macho M ∈ s.m_loadablesInOrder ∧
      (s.remove M).m_mainModule = none) ∧
    (admissible distinctKeys MachOMgr.empty ops = true →
      mapFind M.baseAddress s.m_objects = some M ∧
      mapFind M.path s.m_objectNames = some (LoadableObject.macho M) ∧
      mapFind M.getMachHeader s.m_objectHeaders = some M) := by
  obtain ⟨m1, m2⟩ := mainListed_run ops s hr M hM
  refine ⟨⟨m1, m2, by simp [MachOMgr.remove, hM]⟩, ?_⟩
  intro ha
  obtain ⟨hb, hh, hp⟩ := run_invariant distinctKeys
    (fun s => baseIndexed s ∧ headerIndexed s ∧ pathIndexed s) keysInv_step
    ops MachOMgr.empty s ⟨baseIndexed_empty, headerIndexed_empty, pathIndexed_empty⟩ ha hr
  exact ⟨hb.complete M m1, hp.complete (LoadableObject.macho M) m2, hh.complete M m1⟩

/-- C17 (amended) applied to the call `add(exLibA, true)`. -/
theorem mainModule_present_witness :
    run MachOMgr.empty [Op.add exLibA true] = Outcome.ret exMain ∧
    exMain.m_mainModule = some exLibA ∧
    admissible distinctKeys MachOMgr.empty [Op.add exLibA true] = true ∧
    (mapFind exLibA.baseAddress exMain.m_objects = some exLibA ∧
    mapFind exLibA.path exMain.m_objectNames = some (LoadableObject.macho exLibA) ∧
    mapFind exLibA.getMachHeader exMain.m_objectHeaders = some exLibA) :=
  ⟨by decide, by decide, by decide,
    (mainModule_present [Op.add exLibA true] exMain (by decide) exLibA (by decide)).2
      (by decide)⟩

/-! ## Claims on sysroot detection -/

theorem strFind_eq_none (pat : List Char) (hp : pat ≠ []) :
    ∀ s : List Char, strFind pat s = none ↔ ∀ j, ¬ pat <+: s.drop j := by
  intro s
  induction s with
  | nil => simp [strFind, hp]
  | cons c cs ih =>
    unfold strFind
    by_cases h0 : pat.isPrefixOf (c :: cs) = true
    · rw [if_pos h0]
      constructor
      · intro h; simp at h
      · intro h
        exact absurd (List.isPrefixOf_iff_prefix.mp h0) (h 0)
    · rw [if_neg h0]
      cases hf : strFind pat cs with
      | some pos =>
        simp only
        constructor
        · intro h; simp at h
        · intro h
          have : ∀ j, ¬ pat <+: cs.drop j := fun j => by
            have := h (j + 1)
            simpa using this
          rw [← ih] at this
          rw [hf] at this
          simp at this
      | none =>
        simp only [true_iff]
        intro j
        cases j with
        | zero =>
          intro hpre
          exact h0 (List.isPrefixOf_iff_prefix.mpr hpre)
        | succ j =>
          have := (ih.mp hf) j
          simpa using this

theorem strFind_eq_some (pat : List Char) (hp : pat ≠ []) :
    ∀ (s : List Char) (pos : Nat), strFind pat s = some pos ↔ firstOccurrence pat s pos := by
  intro s
  induction s with
  | nil =>
    intro pos
    simp [strFind, hp, firstOccurrence]
  | cons c cs ih =>
    intro pos
    unfold strFind
    by_cases h0 : pat.isPrefixOf (c :: cs) = true
    · rw [if_pos h0]
      have h0' : pat <+: c :: cs := List.isPrefixOf_iff_prefix.mp h0
      constructor
      · intro h
        have : pos = 0 := by simpa using h.symm
        subst this
        exact ⟨h0', fun j hj => by omega⟩
      · rintro ⟨_, h2⟩
        cases pos with
        | zero => rfl
        | succ k => exact absurd h0' (h2 0 (Nat.succ_pos k))
    · rw [if_neg h0]
      have h0' : ¬ pat <+: c :: cs := fun hpre => h0 (List.isPrefixOf_iff_prefix.mpr hpre)
      cases hf : strFind pat cs with
      | none =>
        simp only
        constructor
        · intro h; simp at h
        · rintro ⟨h1, _⟩
          cases pos with
          | zero => exact absurd h1 h0'
          | succ k =>
            have := ((strFind_eq_none pat hp cs).mp hf) k
            exact absurd (by simpa using h1) this
      | some q =>
        simp only
        obtain ⟨q1, q2⟩ := (ih q).mp hf
        constructor
        · intro h
          have : pos = q + 1 := by simpa using h.symm
          subst this
          refine ⟨by simpa using q1, ?_⟩
          intro j hj
          cases j with
          | zero => exact h0'
          | succ j =>
            have := q2 j (by omega)
            simpa using this
        · rintro ⟨h1, h2⟩
          cases pos with
          | zero => exact absurd h1 h0'
          | succ k =>
            have hk : firstOccurrence pat cs k := by
              refine ⟨by simpa using h1, ?_⟩
              intro j hj
              have := h2 (j + 1) (by omega)
              simpa using this
            have := (ih k).mpr hk
            rw [hf] at this
            have : q = k := by simpa using this
            rw [this]

/-- C14: for every absolute path `p` (first character `/`), `detectSysRootFromPath(p)`
returns true if and only if `/usr/` occurs in `p` with its first occurrence at a position
`pos > 0`; the recorded sysroot is then the prefix `p[0..pos)`, so that the sysroot
followed by `/usr/` is a prefix of `p`; otherwise it returns false and leaves the registry,
with its recorded sysroot, unchanged. The empty path returns false. -/
theorem detectSysRootFromPath_spec (realpath : String → Option String) (s : MachOMgr)
    (p : String) (habs : p.data.head? = some '/') :
    ((s.detectSysRootFromPath realpath p).1 = true ↔
      ∃ pos, 0 < pos ∧ firstOccurrence "/usr/".data p.data pos) ∧
    (∀ pos, 0 < pos → firstOccurrence "/usr/".data p.data pos →
      s.detectSysRootFromPath realpath p
          = (true, { s with m_sysroot := String.mk (p.data.take pos) }) ∧
        (String.mk (p.data.take pos) ++ "/usr/").data <+: p.data) ∧
    ((s.detectSysRootFromPath realpath p).1 = false →
      s.detectSysRootFromPath realpath p = (false, s)) ∧
    s.detectSysRootFromPath realpath "" = (false, s) := by
  have hpat : "/usr/".data ≠ [] := by decide
  have hne : ¬ p.data = [] := by
    intro e
    rw [e] at habs
    simp at habs
  have hunf : s.detectSysRootFromPath realpath p =
      match strFind "/usr/".data p.data with
      | some pos =>
        if pos ≠ 0 then (true, { s with m_sysroot := String.mk (p.data.take pos) })
        else (false, s)
      | none => (false, s) := by
    unfold MachOMgr.detectSysRootFromPath
    rw [if_neg hne]
    simp only [habs, ne_eq, not_true_eq_false, if_false]
  refine ⟨?_, ?_, ?_, ?_⟩
  · rw [hunf]
    cases hf : strFind "/usr/".data p.data with
    | none =>
      simp only [Bool.false_eq_true, false_iff]
      rintro ⟨pos, _, hocc⟩
      have := (strFind_eq_some _ hpat _ pos).mpr hocc
      rw [hf] at this
      simp at this
    | some q =>
      have hq := (strFind_eq_some _ hpat _ q).mp hf
      by_cases hq0 : q = 0
      · simp only [hq0, ne_eq, not_true_eq_false, if_false, Bool.false_eq_true, false_iff]
        rintro ⟨pos, hpos, hocc⟩
        have := (strFind_eq_some _ hpat _ pos).mpr hocc
        rw [hf] at this
        have : q = pos := by simpa using this
        omega
      · simp only [ne_eq, hq0, not_false_eq_true, if_true, true_iff]
        exact ⟨q, by omega, hq⟩
  · intro pos hpos hocc
    have hf := (strFind_eq_some _ hpat _ pos).mpr hocc
    constructor
    · rw [hunf, hf]
      have : pos ≠ 0 := by omega
      simp only [ne_eq, this, not_false_eq_true, if_true]
    · rw [String.data_append]
      have h1 : p.data.take pos ++ "/usr/".data <+: p.data.take pos ++ p.data.drop pos :=
        (List.prefix_append_right_inj _).mpr hocc.1
      rw [List.take_append_drop] at h1
      exact h1
  · intro hfalse
    rw [hunf] at hfalse ⊢
    cases hf : strFind "/usr/".data p.data with
    | none => rfl
    | some q =>
      rw [hf] at hfalse
      by_cases hq0 : q = 0
      · simp [hq0]
      · simp [hq0] at hfalse
  · rfl

/-- C14 applied to `/opt/guest/usr/lib`, which records `/opt/guest`, together with the
evaluation of the code on `/usr/lib`, which fails. -/
theorem detectSysRootFromPath_spec_witness :
    MachOMgr.empty.detectSysRootFromPath (fun _ => none) "/opt/guest/usr/lib"
      = (true, { MachOMgr.empty with m_sysroot := "/opt/guest" }) ∧
    MachOMgr.empty.detectSysRootFromPath (fun _ => none) "/usr/lib"
      = (false, MachOMgr.empty) :=
  ⟨((detectSysRootFromPath_spec (fun _ => none) MachOMgr.empty "/opt/guest/usr/lib"
      (by decide)).2.1 10 (by decide)
      ⟨by decide, fun j hj => by
        have : j = 0 ∨ j = 1 ∨ j = 2 ∨ j = 3 ∨ j = 4 ∨ j = 5 ∨ j = 6 ∨ j = 7 ∨ j = 8 ∨ j = 9 := by
          omega
        rcases this with h | h | h | h | h | h | h | h | h | h <;> subst h <;> decide⟩).1,
    (detectSysRootFromPath_spec (fun _ => none) MachOMgr.empty "/usr/lib"
      (by decide)).2.2.1 (by decide)⟩

/-! ## Claims on hook dispatch -/

theorem nativeWrappers_count (n : NativeObject) :
    ∀ l : List LoadableObject,
      (nativeWrappers l).count n = l.count (LoadableObject.native n) := by
  intro l
  induction l with
  | nil => simp [nativeWrappers]
  | cons a t ih =>
    cases a with
    | macho o =>
      simp only [nativeWrappers, ih]
      rw [List.count_cons]
      simp
    | native o =>
      simp only [nativeWrappers]
      rw [List.count_cons, List.count_cons, ih]
      by_cases h : o = n <;> simp [h]

/-- With an `unload` that removes the wrapper from the registry, the loop of the
destructor empties the load-order sequence within as many iterations as it has elements,
and unloads the Native Wrappers of the sequence in order. -/
theorem destructorLoop_drains : ∀ (fuel : Nat) (s : MachOMgr) (tr : List NativeObject),
    s.m_loadablesInOrder.length ≤ fuel →
    ∃ t, MachOMgr.destructorLoop nativeUnload fuel s tr
        = some (t, tr ++ nativeWrappers s.m_loadablesInOrder) ∧
      t.m_loadablesInOrder = [] ∧ t.m_bTerminated = s.m_bTerminated ∧
      t.m_destroying = s.m_destroying := by
  intro fuel
  induction fuel with
  | zero =>
    intro s tr h
    have hl : s.m_loadablesInOrder = [] := List.length_eq_zero.mp (Nat.le_zero.mp h)
    refine ⟨s, ?_, hl, rfl, rfl⟩
    simp [MachOMgr.destructorLoop, hl, nativeWrappers]
  | succ fuel ih =>
    intro s tr h
    cases hl : s.m_loadablesInOrder with
    | nil =>
      refine ⟨s, ?_, hl, rfl, rfl⟩
      simp [MachOMgr.destructorLoop, hl, nativeWrappers]
    | cons a rest =>
      rw [hl] at h
      have hlen : rest.length ≤ fuel := by
        simp only [List.length_cons] at h
        omega
      cases a with
      | native obj =>
        have hrest : (nativeUnload s obj).m_loadablesInOrder = rest := by
          simp [nativeUnload, MachOMgr.removeNative, hl]
        obtain ⟨t, h1, h2, h3, h4⟩ := ih (nativeUnload s obj) (tr ++ [obj])
          (by rw [hrest]; exact hlen)
        refine ⟨t, ?_, h2, h3, h4⟩
        rw [MachOMgr.destructorLoop]
        simp only [hl]
        rw [h1, hrest]
        simp [nativeWrappers]
      | macho obj =>
        obtain ⟨t, h1, h2, h3, h4⟩ := ih { s with m_loadablesInOrder := rest } tr hlen
        refine ⟨t, ?_, h2, h3, h4⟩
        rw [MachOMgr.destructorLoop]
        simp only [hl]
        rw [h1]
        simp [nativeWrappers]

/-- With an `unload` that leaves the registry as it is, the loop never gets past a Native
Wrapper at the front. -/
theorem destructorLoop_stuck (n : NativeObject) (rest : List LoadableObject) :
    ∀ (fuel : Nat) (s : MachOMgr) (tr : List NativeObject),
      s.m_loadablesInOrder = LoadableObject.native n :: rest →
      MachOMgr.destructorLoop (fun t _ => t) fuel s tr = none := by
  intro fuel
  induction fuel with
  | zero =>
    intro s tr hl
    simp [MachOMgr.destructorLoop, hl]
  | succ fuel ih =>
    intro s tr hl
    rw [MachOMgr.destructorLoop]
    simp only [hl]
    exact ih s _ hl

theorem terminated_step (s : MachOMgr) (op : Op) (t : MachOMgr)
    (hs : step s op = .ret t) : t.m_bTerminated = s.m_bTerminated := by
  cases op with
  | add obj b =>
    unfold step MachOMgr.add at hs
    cases b with
    | false =>
      simp only [Bool.false_eq_true, if_false, Outcome.ret.injEq] at hs
      subst hs
      rfl
    | true =>
      simp only [if_true] at hs
      by_cases hm : s.m_mainModule = none
      · simp only [hm, if_true, Outcome.ret.injEq] at hs
        subst hs
        rfl
      · simp [hm] at hs
  | remove obj =>
    simp only [step, Outcome.ret.injEq] at hs
    subst hs
    rfl
  | addNative obj =>
    simp only [step, Outcome.ret.injEq] at hs
    subst hs
    rfl
  | removeNative obj =>
    simp only [step, Outcome.ret.injEq] at hs
    subst hs
    rfl

theorem terminated_detect (realpath : String → Option String) (s : MachOMgr) (p : String) :
    (s.detectSysRootFromPath realpath p).2.m_bTerminated = s.m_bTerminated := by
  unfold MachOMgr.detectSysRootFromPath
  split
  · rfl
  · split
    · rfl
    · split
      · split <;> rfl
      · rfl

/-- C16 as stated fails: after `add(exLibc)`, `add(exLibc)` of the Native Wrapper
`exLibc` the load-order sequence holds it twice, and the loop of the destructor, with an
`unload` that removes the wrapper from the registry, invokes `unload` on `exLibc` twice,
not exactly once. -/
theorem destructor_drains_counterexample :
    run MachOMgr.empty [Op.addNative exLibc, Op.addNative exLibc]
      = Outcome.ret exNativeTwice ∧
    (MachOMgr.destructor nativeUnload 2 exNativeTwice).map Prod.snd
      = some [exLibc, exLibc] ∧
    ([exLibc, exLibc] : List NativeObject).count exLibc = 2 := by
  refine ⟨by decide, by decide, by decide⟩

/-- C16 (amended): teardown. Assuming that unloading a Native Wrapper removes it from the
registry (`nativeUnload`), for every registry state the loop of the destructor terminates
(any number of iterations from the length of the load-order sequence on suffices) with an
empty load-order sequence, having invoked `unload` on the Native Wrapper entries of the
sequence in load order and on no Foreign Module: on each Native Wrapper as many times as
it occurs in the sequence, hence exactly once on each when the sequence contains no object
twice; and the terminated flag is set at the end. No registration call, hook registration
or sysroot detection writes the terminated flag, so once set it stays set. With an
`unload` that does not remove the wrapper the loop does not terminate when a Native
Wrapper is at the front. -/
theorem destructor_drains (s : MachOMgr) :
    (∀ fuel, s.m_loadablesInOrder.length ≤ fuel →
      ∃ t, MachOMgr.destructor nativeUnload fuel s
          = some (t, nativeWrappers s.m_loadablesInOrder) ∧
        t.m_loadablesInOrder = [] ∧ t.m_bTerminated = true ∧ t.m_destroying = true) ∧
    (∀ n, (nativeWrappers s.m_loadablesInOrder).count n
      = s.m_loadablesInOrder.count (LoadableObject.native n)) ∧
    (s.m_loadablesInOrder.Nodup →
      ∀ n, (nativeWrappers s.m_loadablesInOrder).count n
        = if LoadableObject.native n ∈ s.m_loadablesInOrder then 1 else 0) ∧
    ((∀ op t, step s op = Outcome.ret t → t.m_bTerminated = s.m_bTerminated) ∧
      (∀ f, (s.registerLoadHook f).m_bTerminated = s.m_bTerminated ∧
        (s.registerUnloadHook f).m_bTerminated = s.m_bTerminated ∧
        (s.deregisterLoadHook f).m_bTerminated = s.m_bTerminated ∧
        (s.deregisterUnloadHook f).m_bTerminated = s.m_bTerminated) ∧
      (∀ realpath p,
        (s.detectSysRootFromPath realpath p).2.m_bTerminated = s.m_bTerminated) ∧
      (s.m_bTerminated = true →
        ∀ ops t, run s ops = Outcome.ret t → t.m_bTerminated = true)) ∧
    (∀ n rest, s.m_loadablesInOrder = LoadableObject.native n :: rest →
      ∀ fuel, MachOMgr.destructor (fun t _ => t) fuel s = none) := by
  refine ⟨?_, fun n => nativeWrappers_count n _, ?_,
    ⟨terminated_step s, fun _ => ⟨rfl, rfl, rfl, rfl⟩,
    fun rp p => terminated_detect rp s p, ?_⟩, ?_⟩
  · intro fuel hf
    obtain ⟨t, h1, h2, _, h4⟩ :=
      destructorLoop_drains fuel { s with m_destroying := true } [] hf
    refine ⟨{ t with m_bTerminated := true }, ?_, h2, rfl, h4⟩
    unfold MachOMgr.destructor
    rw [h1]
    rfl
  · intro hn n
    rw [nativeWrappers_count]
    by_cases h : LoadableObject.native n ∈ s.m_loadablesInOrder
    · rw [if_pos h]
      exact List.count_eq_one_of_mem hn h
    · rw [if_neg h]
      exact List.count_eq_zero.mpr h
  · intro hset ops t hr
    exact run_invariant anyCall (fun u => u.m_bTerminated = true)
      (fun u op u' h _ hs => (terminated_step u op u' hs).trans h)
      ops s t hset (admissible_anyCall ops _) hr
  · intro n rest hl fuel
    unfold MachOMgr.destructor
    rw [destructorLoop_stuck n rest fuel { s with m_destroying := true } [] hl]

/-- C16 (amended) applied to the registry holding `exLibA` and the Native Wrapper
`exLibc`: two iterations drain it and `unload` is invoked on `exLibc` only, once, as
`exLibc` occurs once in the load-order sequence. -/
theorem destructor_drains_witness :
    (∃ t, MachOMgr.destructor nativeUnload 2 exWithNative
        = some (t, nativeWrappers exWithNative.m_loadablesInOrder) ∧
      t.m_loadablesInOrder = [] ∧ t.m_bTerminated = true ∧ t.m_destroying = true) ∧
    nativeWrappers exWithNative.m_loadablesInOrder = [exLibc] ∧
    (nativeWrappers exWithNative.m_loadablesInOrder).count exLibc
      = exWithNative.m_loadablesInOrder.count (LoadableObject.native exLibc) ∧
    exWithNative.m_loadablesInOrder.count (LoadableObject.native exLibc) = 1 :=
  ⟨(destructor_drains exWithNative).1 2 (by decide), by decide,
    (destructor_drains exWithNative).2.1 exLibc, by decide⟩

end Darling
